import Mathlib

/-!
Verification of the kanbn board persistence core.

This file shallowly embeds the Python sources (`helpers.py`, `models.py`,
`constants.py`, `kanbn_controller.py`) in Lean 4 and settles the claims of the
specification against the embedding.  Strings are modelled as `List Char`
(with `String` wrappers at the interfaces); the ASCII-scoped parts of Python's
text machinery (`[A-Z]` character classes, `str.lower`, `str.strip`) are
modelled at ASCII scope.
-/

namespace Kanbn

/-! ## Character helpers -/

/-- Hyphen character, the join/strip character of `to_kebab_case`. -/
def hy : Char := '-'

/-- Newline character. -/
def nl : Char := Char.ofNat 10

/-- Python regex class `[A-Z]`: ASCII uppercase letters. -/
def isUp (c : Char) : Bool := decide (65 ≤ c.toNat ∧ c.toNat ≤ 90)

/-- Python `str.lower` at ASCII scope: maps `A`-`Z` to `a`-`z`, fixes others. -/
def lowerChar (c : Char) : Char :=
  if isUp c then Char.ofNat (c.toNat + 32) else c

/-- Python regex class `\s` at ASCII scope: space, tab, LF, VT, FF, CR. -/
def isWS (c : Char) : Bool :=
  decide (c.toNat = 32 ∨ c.toNat = 9 ∨ c.toNat = 10 ∨ c.toNat = 11 ∨
          c.toNat = 12 ∨ c.toNat = 13)

/-- The punctuation/symbol part of the split set in `to_kebab_case`
(`helpers.py` line 45). -/
def specialPunct : List Char :=
  ['!', '?', '.', ',', '@', ':', ';', '|', '\\', '/',
   Char.ofNat 34, Char.ofNat 39, Char.ofNat 96, Char.ofNat 163,
   '$', '%', '^', '&', '*', Char.ofNat 123, Char.ofNat 125,
   '[', ']', '(', ')', '<', '>', '~', '#', '+', '-', '=', '_', Char.ofNat 172]

/-- Membership in the full split character class of `to_kebab_case`
(whitespace or listed punctuation). -/
def isSpecial (c : Char) : Bool := isWS c || c ∈ specialPunct

/-! ## `to_kebab_case` (helpers.py lines 19-51)

Step 1 of the source is `re.sub(r"([A-Z]+(.?))", repl, text)` where `repl`
prepends a hyphen when the match does not start the string and lowercases the
match.  The regex matches a maximal run of ASCII uppercase letters followed by
one optional further character (`.` does not match a newline).  `camelAux`
is the left-to-right scan of that substitution: `atStart` tracks whether we are
still at string position 0, `inRun` tracks whether we are inside the uppercase
run of a match (after the run, one trailing non-newline character is consumed
and lowercased as part of the match). -/

def camelAux : List Char → Bool → Bool → List Char
  | [], _, _ => []
  | c :: rest, atStart, inRun =>
    if inRun then
      if isUp c then lowerChar c :: camelAux rest false true
      else if c = nl then c :: camelAux rest false false
      else lowerChar c :: camelAux rest false false
    else
      if isUp c then
        (if atStart then [] else [hy]) ++ lowerChar c :: camelAux rest false true
      else c :: camelAux rest false false

/-- Step 2 of the source: `re.split` on the special character class.  The
source splits on maximal runs (`[...]+`); splitting on single characters
instead produces extra empty parts, which the subsequent non-empty filter
removes, so the filtered results agree. -/
def splitSpecial : List Char → List (List Char)
  | [] => [[]]
  | c :: rest =>
    if isSpecial c then [] :: splitSpecial rest
    else
      match splitSpecial rest with
      | [] => [[c]]
      | p :: ps => (c :: p) :: ps

/-- Python `"-".join(parts)`. -/
def joinHy : List (List Char) → List Char
  | [] => []
  | [p] => p
  | p :: ps => p ++ hy :: joinHy ps

/-- Python `result.strip("-")`, leading side. -/
def dropLeadingHy (l : List Char) : List Char := l.dropWhile (fun c => c = hy)

/-- Python `result.strip("-")`, trailing side. -/
def dropTrailingHy : List Char → List Char
  | [] => []
  | c :: t =>
    let r := dropTrailingHy t
    if r.isEmpty && c = hy then [] else c :: r

/-- `to_kebab_case` on character lists: camel-case hyphenation and lowering,
split on special characters, join non-empty parts with hyphens, strip
leading/trailing hyphens (helpers.py lines 19-51). -/
def kebabList (l : List Char) : List Char :=
  dropTrailingHy (dropLeadingHy (joinHy
    ((splitSpecial (camelAux l true false)).filter (fun p => !p.isEmpty))))

/-- `to_kebab_case` on strings. -/
def to_kebab_case (s : String) : String := ⟨kebabList s.data⟩

/-! ## Tag constants (constants.py) -/

def WORK_TYPE_TAGS : List String :=
  ["feature", "bug", "chore", "refactor", "testing", "documentation",
   "research", "design", "planning", "spike"]

def DOMAIN_TAGS : List String :=
  ["frontend", "backend", "database", "api", "infrastructure", "ci-cd",
   "security", "performance", "accessibility", "ui-ux", "algorithm",
   "devtools", "config", "logging"]

def MANAGEMENT_TAGS : List String :=
  ["communication", "training", "review", "devops", "maintenance",
   "meta", "support"]

def PRIORITY_TAGS : List String :=
  ["urgent", "high-priority", "medium-priority", "low-priority",
   "not-planned", "blocked"]

/-- Keys of `WORKLOAD_TAGS` (constants.py line 53). -/
def WORKLOAD_TAG_NAMES : List String :=
  ["Nothing", "Tiny", "Small", "Medium", "Large", "Huge"]

/-- `ALL_VALID_TAGS` (constants.py line 57): the union of all tag sets. -/
def ALL_VALID_TAGS : List String :=
  WORK_TYPE_TAGS ++ DOMAIN_TAGS ++ MANAGEMENT_TAGS ++ PRIORITY_TAGS ++ WORKLOAD_TAG_NAMES

/-! ## Tag helpers (helpers.py lines 88-108) -/

/-- `validate_tags`: split tags into (valid, invalid) by membership in
`ALL_VALID_TAGS`, preserving order (the source loop appends in order). -/
def validate_tags (tags : List String) : List String × List String :=
  (tags.filter (fun t => t ∈ ALL_VALID_TAGS), tags.filter (fun t => t ∉ ALL_VALID_TAGS))

/-- `ensure_workload_tag`: append "Small" when no workload tag is present. -/
def ensure_workload_tag (tags : List String) : List String :=
  if tags.any (fun t => t ∈ WORKLOAD_TAG_NAMES) then tags else tags ++ ["Small"]

/-! ## Task model (models.py, class KanbnTask)

The task metadata dictionary is modelled as a structure of `Option` fields:
`none` models the key being absent from the dictionary.  Timestamps are opaque
strings (the model passes the current time explicitly); `progress` is a
rational standing for the Python float. -/

structure TaskMeta where
  created : Option String
  updated : Option String
  progress : Option Rat
  tags : Option (List String)
  assigned : Option String
  due : Option String
  started : Option String
  completed : Option String
deriving DecidableEq

structure TaskState where
  name : String
  description : String
  meta : TaskMeta
  subtasks : List (String × Bool)
deriving DecidableEq

/-- Python truthiness of an optional string (`if assigned:`): present and
non-empty. -/
def truthy : Option String → Bool
  | none => false
  | some s => !s.isEmpty

/-- Arguments of `KanbnTask.create` (models.py lines 333-343). -/
structure CreateArgs where
  name : String
  description : String
  tags : Option (List String)
  assigned : Option String
  due : Option String
  started : Option String
  completed : Option String
  subtasks : Option (List String)
deriving DecidableEq

/-- `KanbnTask.create` (models.py lines 333-376) as a pure function from the
arguments and the current time to the saved task state.  The source stamps
`created`/`updated`, sets `progress` to 0.0 and overwrites it with 1.0 when a
truthy `completed` is supplied, validates tags (dropping invalid ones) and
applies the workload-tag default, and stores each optional field only when
truthy; the guarded field assignments are independent, so they are rendered as
per-field merges. -/
def task_create (a : CreateArgs) (now : String) : TaskState :=
  { name := a.name,
    description := a.description,
    meta := { created := some now, updated := some now,
              progress := if truthy a.completed then some 1 else some 0,
              tags := some (ensure_workload_tag (validate_tags (a.tags.getD [])).1),
              assigned := if truthy a.assigned then a.assigned else none,
              due := if truthy a.due then a.due else none,
              started := if truthy a.started then a.started else none,
              completed := if truthy a.completed then a.completed else none },
    subtasks := (a.subtasks.getD []).map (fun s => (s, false)) }

/-- Arguments of `KanbnTask.update` (models.py lines 378-389): tri-state
parameters, `none` meaning "not supplied". -/
structure UpdateArgs where
  name : Option String
  description : Option String
  tags : Option (List String)
  assigned : Option String
  due : Option String
  progress : Option Rat
  started : Option String
  completed : Option String
  subtasks : Option (List (String × Bool))
deriving DecidableEq

/-- `KanbnTask.update` (models.py lines 378-419) on the loaded state: each
supplied field overwrites the loaded value (the source's `is not None` guards
touch pairwise distinct fields, so they are rendered as per-field merges);
`progress` is clamped into [0, 1]; `updated` is stamped unconditionally. -/
def task_update (st : TaskState) (u : UpdateArgs) (now : String) : TaskState :=
  { name := u.name.getD st.name,
    description := u.description.getD st.description,
    meta := { created := st.meta.created,
              updated := some now,
              progress := match u.progress with
                          | none => st.meta.progress
                          | some p => some (max 0 (min 1 p)),
              tags := match u.tags with
                      | none => st.meta.tags
                      | some ts => some (ensure_workload_tag (validate_tags ts).1),
              assigned := match u.assigned with
                          | none => st.meta.assigned
                          | some v => some v,
              due := match u.due with
                     | none => st.meta.due
                     | some v => some v,
              started := match u.started with
                         | none => st.meta.started
                         | some v => some v,
              completed := match u.completed with
                           | none => st.meta.completed
                           | some v => some v },
    subtasks := u.subtasks.getD st.subtasks }

/-! ## Board model (models.py, class KanbnBoard; constants.py defaults)

`_columns` is a Python dict from column name to task-id list: modelled as an
association list with distinct keys in insertion order.  `_options` is
modelled by its two behaviour-relevant keys (`startedColumns`,
`completedColumns`); a missing key reads as the empty list, matching
`options.get(key, [])` in the source. -/

structure BoardOpts where
  startedColumns : List String
  completedColumns : List String
deriving DecidableEq

/-- `DEFAULT_INDEX_OPTIONS` (constants.py lines 12-25), restricted to the
behaviour-relevant keys. -/
def DEFAULT_INDEX_OPTIONS : BoardOpts :=
  { startedColumns := ["In Progress"], completedColumns := ["Done"] }

def DEFAULT_COLUMNS : List String := ["Backlog", "In Progress", "Done", "Archive"]

structure Board where
  name : String
  description : String
  opts : BoardOpts
  columns : List (String × List String)
deriving DecidableEq

/-- Keys of the columns dict, in insertion order. -/
def colKeys (cols : List (String × List String)) : List String := cols.map Prod.fst

/-- Dict lookup `self._columns.get(column)`: first (unique) matching key. -/
def colGet : List (String × List String) → String → Option (List String)
  | [], _ => none
  | e :: rest, k => if e.1 = k then some e.2 else colGet rest k

/-- Dict assignment `self._columns[k] = v`: updates in place if the key
exists (keeping its position), appends otherwise. -/
def colSet : List (String × List String) → String → List String → List (String × List String)
  | [], k, v => [(k, v)]
  | e :: rest, k, v => if e.1 = k then (k, v) :: rest else e :: colSet rest k v

/-- `KanbnBoard.add_task_to_column` (models.py lines 144-149): create the
column if missing, append the id if not already present. -/
def add_task_to_column (b : Board) (taskId col : String) : Board :=
  match colGet b.columns col with
  | none => { b with columns := colSet b.columns col [taskId] }
  | some ids =>
    if taskId ∈ ids then b
    else { b with columns := colSet b.columns col (ids ++ [taskId]) }

/-- `KanbnBoard.remove_task_from_column` (models.py lines 151-156): remove the
first occurrence, reporting whether anything was removed. -/
def remove_task_from_column (b : Board) (taskId col : String) : Board × Bool :=
  match colGet b.columns col with
  | none => (b, false)
  | some ids =>
    if taskId ∈ ids then
      ({ b with columns := colSet b.columns col (ids.erase taskId) }, true)
    else (b, false)

/-- Column scan of `KanbnBoard.find_task_column`. -/
def findCol : List (String × List String) → String → Option String
  | [], _ => none
  | e :: rest, tid => if tid ∈ e.2 then some e.1 else findCol rest tid

/-- `KanbnBoard.find_task_column` (models.py lines 158-163): first matching
column in declaration order. -/
def find_task_column (b : Board) (taskId : String) : Option String :=
  findCol b.columns taskId

/-! ## Error kinds (spec section 7)

The source reports failures through exception messages and error strings;
the model classifies them by kind. -/

inductive KErr where
  | boardNotFound : KErr
  | boardExists : KErr
  | taskNotFound : String → KErr
  | taskExists : String → KErr
  | unknownColumn : String → KErr
  | columnExists : String → KErr
  | setMismatch : List String → List String → KErr
  | renameCollision : String → KErr
  | missingName : KErr
deriving DecidableEq

/-- `KanbnBoard.move_task` (models.py lines 165-174): raises on an unknown
target column; otherwise removes the task from its current column (if any)
and appends it to the target, returning the previous column. -/
def board_move_task (b : Board) (taskId target : String) :
    Except KErr (Option String × Board) :=
  if target ∉ colKeys b.columns then .error (.unknownColumn target)
  else
    let current := find_task_column b taskId
    let b1 := match current with
              | none => b
              | some c => (remove_task_from_column b taskId c).1
    .ok (current, add_task_to_column b1 taskId target)

/-- Python `set(xs) == set(ys)`. -/
def sameSet (xs ys : List String) : Bool :=
  xs.all (fun x => x ∈ ys) && ys.all (fun y => y ∈ xs)

/-- `KanbnBoard.reorder_tasks` (models.py lines 176-207): raises on an unknown
column; raises a set-mismatch error (with the symmetric set differences) when
the proposed ids are not set-equal to the current membership; otherwise
returns the previous order and installs the proposed list. -/
def board_reorder_tasks (b : Board) (col : String) (taskIds : List String) :
    Except KErr (List String × Board) :=
  if col ∉ colKeys b.columns then .error (.unknownColumn col)
  else
    let current := (colGet b.columns col).getD []
    if sameSet current taskIds then
      .ok (current, { b with columns := colSet b.columns col taskIds })
    else
      .error (.setMismatch ((current.filter (fun t => t ∉ taskIds)).dedup)
                           ((taskIds.filter (fun t => t ∉ current)).dedup))

/-! ## Controller (kanbn_controller.py, class KanbnController)

The board directory is modelled as `FS`: the optional index (absent before
`init_board`) and the tasks directory as an association list from task id to
task state.  Each entry point is modelled as
`inputs → Except String (FS × Except KErr payload)`: the outer `Except String`
marks a raw Python exception escaping the entry point, the inner
`Except KErr` is the discriminated success/error result dictionary the
entry point returns.  Code inside the source's `try` blocks is modelled so
that raised errors land in the inner layer (the `except` clauses convert them
to failure results); the only code outside any `try` is board construction
and the `exists` checks, which do not raise. -/

structure FS where
  board : Option Board
  files : List (String × TaskState)
deriving DecidableEq

def fileGet : List (String × TaskState) → String → Option TaskState
  | [], _ => none
  | e :: rest, id => if e.1 = id then some e.2 else fileGet rest id

def fileSet : List (String × TaskState) → String → TaskState → List (String × TaskState)
  | [], k, v => [(k, v)]
  | e :: rest, k, v => if e.1 = k then (k, v) :: rest else e :: fileSet rest k v

/-- File deletion (`Path.unlink`): remove the entry with the given id. -/
def fileDel (files : List (String × TaskState)) (id : String) :
    List (String × TaskState) :=
  files.eraseP (fun e => e.1 = id)

/-- `KanbnController._apply_column_behavior` (kanbn_controller.py lines
190-211) on the task metadata: entering a started column stamps `started`
only when absent; entering a completed column unconditionally stamps
`completed` and forces `progress` to 1.0.  Returns the metadata and the
`needs_save` flag. -/
def apply_column_behavior (opts : BoardOpts) (m : TaskMeta) (col now : String) :
    TaskMeta × Bool :=
  let s1 := if col ∈ opts.startedColumns then
              (if m.started = none then ({ m with started := some now }, true)
               else (m, false))
            else (m, false)
  if col ∈ opts.completedColumns then
    ({ s1.1 with completed := some now, progress := some 1 }, true)
  else s1

/-- `KanbnController.init_board` (kanbn_controller.py lines 51-74). -/
def ctrl_init_board (fs : FS) (name description : String)
    (columns : Option (List String)) :
    Except String (FS × Except KErr (List String)) :=
  match fs.board with
  | some _ => .ok (fs, .error .boardExists)
  | none =>
    let cols := columns.getD DEFAULT_COLUMNS
    let b : Board := { name := name, description := description,
                       opts := DEFAULT_INDEX_OPTIONS,
                       columns := cols.map (fun c => (c, [])) }
    .ok ({ fs with board := some b }, .ok cols)

/-- `KanbnController.get_board_status` (kanbn_controller.py lines 76-99):
payload is the board name, description, and per-column (name, count, ids). -/
def ctrl_get_board_status (fs : FS) :
    Except String (FS × Except KErr (String × String × List (String × Nat × List String))) :=
  match fs.board with
  | none => .ok (fs, .error .boardNotFound)
  | some b =>
    .ok (fs, .ok (b.name, b.description, b.columns.map (fun e => (e.1, e.2.length, e.2))))

/-- Arguments of `KanbnController.add_task` (kanbn_controller.py lines
103-113); `column` carries the source's default "Backlog" explicitly. -/
structure AddArgs where
  name : String
  description : String
  column : String
  tags : Option (List String)
  assigned : Option String
  due : Option String
  subtasks : Option (List String)
deriving DecidableEq

/-- The `try` region of `KanbnController.add_task` (kanbn_controller.py lines
120-146): validate the column, derive the identifier, reject an existing task
file, create the task, add it to the column, apply column-entry behaviour,
save the board. -/
def add_task_body (fs : FS) (b : Board) (a : AddArgs) (now : String) :
    Except KErr (FS × String) :=
  if a.column ∉ colKeys b.columns then .error (.unknownColumn a.column)
  else
    let taskId := to_kebab_case a.name
    if (fileGet fs.files taskId).isSome then .error (.taskExists taskId)
    else
      let st := task_create { name := a.name, description := a.description,
                              tags := a.tags, assigned := a.assigned, due := a.due,
                              started := none, completed := none,
                              subtasks := a.subtasks } now
      let files1 := fileSet fs.files taskId st
      let b1 := add_task_to_column b taskId a.column
      let bres := apply_column_behavior b1.opts st.meta a.column now
      let files2 := if bres.2 then fileSet files1 taskId { st with meta := bres.1 }
                    else files1
      .ok ({ board := some b1, files := files2 }, taskId)

/-- `KanbnController.add_task` (kanbn_controller.py lines 103-149). -/
def ctrl_add_task (fs : FS) (a : AddArgs) (now : String) :
    Except String (FS × Except KErr String) :=
  match fs.board with
  | none => .ok (fs, .error .boardNotFound)
  | some b =>
    .ok (match add_task_body fs b a now with
         | .ok (fs', p) => (fs', .ok p)
         | .error e => (fs, .error e))

/-- The `try` region of `KanbnController.move_task` (kanbn_controller.py lines
163-185). -/
def move_task_body (fs : FS) (b : Board) (taskId target now : String) :
    Except KErr (FS × Option String) := do
  if target ∉ colKeys b.columns then .error (.unknownColumn target)
  else do
    let r ← board_move_task b taskId target
    let files' := match fileGet fs.files taskId with
      | none => fs.files
      | some st =>
        let m1 := { st.meta with updated := some now }
        let m2 := (apply_column_behavior r.2.opts m1 target now).1
        fileSet fs.files taskId { st with meta := m2 }
    .ok ({ board := some r.2, files := files' }, r.1)

/-- `KanbnController.move_task` (kanbn_controller.py lines 151-188). -/
def ctrl_move_task (fs : FS) (taskId target now : String) :
    Except String (FS × Except KErr (Option String)) :=
  match fs.board with
  | none => .ok (fs, .error .boardNotFound)
  | some b =>
    .ok (match move_task_body fs b taskId target now with
         | .ok (fs', p) => (fs', .ok p)
         | .error e => (fs, .error e))

/-- Arguments of `KanbnController.update_task` (kanbn_controller.py lines
213-223): the controller exposes neither `started` nor `completed`. -/
structure CtrlUpdateArgs where
  name : Option String
  description : Option String
  tags : Option (List String)
  assigned : Option String
  due : Option String
  progress : Option Rat
  subtasks : Option (List (String × Bool))
deriving DecidableEq

/-- The `try` region of `KanbnController.update_task` (kanbn_controller.py
lines 231-277): not-found check, rename-collision check, field update, then
(on a changed identifier) file rename and index fix-up.  Payload is the final
task id and the renamed flag. -/
def update_task_body (fs : FS) (b : Board) (taskId : String) (u : CtrlUpdateArgs)
    (now : String) : Except KErr (FS × (String × Bool)) :=
  match fileGet fs.files taskId with
  | none => .error (.taskNotFound taskId)
  | some st =>
    let newId := match u.name with
                 | none => taskId
                 | some n => to_kebab_case n
    if newId ≠ taskId ∧ (fileGet fs.files newId).isSome then
      .error (.renameCollision newId)
    else
      let st' := task_update st { name := u.name, description := u.description,
                                  tags := u.tags, assigned := u.assigned,
                                  due := u.due, progress := u.progress,
                                  started := none, completed := none,
                                  subtasks := u.subtasks } now
      let files1 := fileSet fs.files taskId st'
      if newId = taskId then .ok ({ fs with files := files1 }, (taskId, false))
      else
        let files2 := fileSet (fileDel files1 taskId) newId st'
        let b' := match find_task_column b taskId with
          | none => b
          | some col =>
            add_task_to_column ((remove_task_from_column b taskId col).1) newId col
        .ok ({ board := some b', files := files2 }, (newId, true))

/-- `KanbnController.update_task` (kanbn_controller.py lines 213-280). -/
def ctrl_update_task (fs : FS) (taskId : String) (u : CtrlUpdateArgs) (now : String) :
    Except String (FS × Except KErr (String × Bool)) :=
  match fs.board with
  | none => .ok (fs, .error .boardNotFound)
  | some b =>
    .ok (match update_task_body fs b taskId u now with
         | .ok (fs', p) => (fs', .ok p)
         | .error e => (fs, .error e))

/-- `KanbnController.get_task` (kanbn_controller.py lines 282-335): a single
task (with its column) or, with no id, every indexed task that has a backing
file, organised by column. -/
def ctrl_get_task (fs : FS) (taskId : Option String) :
    Except String (FS × Except KErr (List (Option String × TaskState))) :=
  match fs.board with
  | none => .ok (fs, .error .boardNotFound)
  | some b =>
    match taskId with
    | some tid =>
      match fileGet fs.files tid with
      | none => .ok (fs, .error (.taskNotFound tid))
      | some st => .ok (fs, .ok [(find_task_column b tid, st)])
    | none =>
      .ok (fs, .ok (b.columns.flatMap (fun e =>
        e.2.filterMap (fun tid => (fileGet fs.files tid).map (fun st => (some e.1, st))))))

/-- `KanbnController.delete_task` (kanbn_controller.py lines 337-359): remove
the index membership (if any), then delete the file (if present); reports the
column the task was removed from. -/
def ctrl_delete_task (fs : FS) (taskId : String) :
    Except String (FS × Except KErr (Option String)) :=
  match fs.board with
  | none => .ok (fs, .error .boardNotFound)
  | some b =>
    let col := find_task_column b taskId
    let b' := match col with
              | none => b
              | some c => (remove_task_from_column b taskId c).1
    let files' := if (fileGet fs.files taskId).isSome then fileDel fs.files taskId
                  else fs.files
    .ok ({ board := some b', files := files' }, .ok col)

/-- `KanbnController.add_column` (kanbn_controller.py lines 361-391):
duplicate names are rejected; with a position the column is inserted there,
otherwise appended. -/
def ctrl_add_column (fs : FS) (colName : String) (position : Option Nat) :
    Except String (FS × Except KErr (List String)) :=
  match fs.board with
  | none => .ok (fs, .error .boardNotFound)
  | some b =>
    if colName ∈ colKeys b.columns then .ok (fs, .error (.columnExists colName))
    else
      let cols' := match position with
        | none => b.columns ++ [(colName, [])]
        | some p => b.columns.take p ++ (colName, []) :: b.columns.drop p
      .ok ({ fs with board := some { b with columns := cols' } }, .ok (colKeys cols'))

/-- `KanbnController.reorder_tasks` (kanbn_controller.py lines 441-472): the
`except ValueError` clause converts the set-mismatch raise into a failure
result; on any failure the board is not saved. -/
def ctrl_reorder_tasks (fs : FS) (col : String) (taskIds : List String) :
    Except String (FS × Except KErr (List String)) :=
  match fs.board with
  | none => .ok (fs, .error .boardNotFound)
  | some b =>
    .ok (if col ∉ colKeys b.columns then (fs, .error (.unknownColumn col))
         else match board_reorder_tasks b col taskIds with
              | .ok (prev, b') => ({ fs with board := some b' }, .ok prev)
              | .error e => (fs, .error e))

/-- One entry of the `tasks` argument of `batch_add_tasks`
(kanbn_controller.py lines 404-439). -/
structure BatchSpec where
  name : Option String
  description : String
  column : Option String
  tags : Option (List String)
  assigned : Option String
  due : Option String
  subtasks : Option (List String)
deriving DecidableEq

/-- The loop of `KanbnController.batch_add_tasks`: accumulates created ids and
a failure count, threading the file system through the per-task `add_task`
calls.  `batch_add_tasks` itself has no `try` block, so a raw fault from
`add_task` would propagate (outer bind). -/
def batch_go : FS → List BatchSpec → String → String → List String × Nat →
    Except String (FS × (List String × Nat))
  | fs, [], _, _, acc => .ok (fs, acc)
  | fs, sp :: rest, defCol, now, acc =>
    match sp.name with
    | none => batch_go fs rest defCol now (acc.1, acc.2 + 1)
    | some n =>
      if n.isEmpty then batch_go fs rest defCol now (acc.1, acc.2 + 1)
      else do
        let r ← ctrl_add_task fs { name := n, description := sp.description,
                                   column := sp.column.getD defCol, tags := sp.tags,
                                   assigned := sp.assigned, due := sp.due,
                                   subtasks := sp.subtasks } now
        match r.2 with
        | .ok tid => batch_go r.1 rest defCol now (acc.1 ++ [tid], acc.2)
        | .error _ => batch_go r.1 rest defCol now (acc.1, acc.2 + 1)

/-- `KanbnController.batch_add_tasks` (kanbn_controller.py lines 404-439):
payload is (created ids, failed count). -/
def ctrl_batch_add_tasks (fs : FS) (specs : List BatchSpec) (defaultColumn now : String) :
    Except String (FS × (List String × Nat)) :=
  batch_go fs specs defaultColumn now ([], 0)

/-- `KanbnTask.update` at the tasks-directory level: raises a not-found error
when the file is absent, otherwise loads, updates, and writes back
(models.py lines 390-419). -/
def task_update_file (files : List (String × TaskState)) (id : String)
    (u : UpdateArgs) (now : String) : Except KErr (List (String × TaskState)) :=
  match fileGet files id with
  | none => .error (.taskNotFound id)
  | some st => .ok (fileSet files id (task_update st u now))

/-! ## Concrete fixtures used by witnesses and counterexamples -/

/-- Task metadata with every key absent. -/
def metaEmpty : TaskMeta :=
  { created := none, updated := none, progress := none, tags := none,
    assigned := none, due := none, started := none, completed := none }

/-- A task state with progress 0 and no completion marker. -/
def stProg0 : TaskState :=
  { name := "t", description := "",
    meta := { created := some ("T0"), updated := some ("T0"),
              progress := some 0, tags := some (["Small"]),
              assigned := none, due := none, started := none, completed := none },
    subtasks := [] }

/-- Update arguments supplying only `completed`. -/
def updOnlyCompleted : UpdateArgs :=
  { name := none, description := none, tags := none, assigned := none,
    due := none, progress := none, started := none,
    completed := some ("2024-01-02T00:00:00.000Z"), subtasks := none }

/-- A board whose only column "C" lists the id "a" twice (duplicate membership
is representable: `KanbnBoard.load` appends ids unconditionally). -/
def boardDupA : Board :=
  { name := "B", description := "", opts := DEFAULT_INDEX_OPTIONS,
    columns := [("C", ["a", "a"])] }

def fsDupA : FS := { board := some boardDupA, files := [] }

/-- A fresh board with the default columns and no tasks. -/
def fsFresh : FS :=
  { board := some { name := "B", description := "", opts := DEFAULT_INDEX_OPTIONS,
                    columns := DEFAULT_COLUMNS.map (fun c => (c, [])) },
    files := [] }

/-- Add arguments whose name collapses entirely to separators. -/
def addBang : AddArgs :=
  { name := "!!!", description := "", column := "Backlog", tags := none,
    assigned := none, due := none, subtasks := none }

/-- The filesystem produced by adding `addBang` to `fsFresh`: a task file keyed
by the empty identifier and an index entry for it in Backlog. -/
def fsFreshAfterBang : FS :=
  { board := some { name := "B", description := "", opts := DEFAULT_INDEX_OPTIONS,
                    columns := [("Backlog", [""]), ("In Progress", []),
                                ("Done", []), ("Archive", [])] },
    files := [("", { name := "!!!", description := "",
                     meta := { created := some ("T1"), updated := some ("T1"),
                               progress := some 0, tags := some (["Small"]),
                               assigned := none, due := none,
                               started := none, completed := none },
                     subtasks := [] })] }

/-- The filesystem after the non-permutation reorder of `fsDupA`. -/
def fsDupAAfter : FS :=
  { board := some { name := "B", description := "", opts := DEFAULT_INDEX_OPTIONS,
                    columns := [("C", ["a"])] },
    files := [] }

/-- Create arguments with a truthy completed value. -/
def crCompleted : CreateArgs :=
  { name := "t", description := "", tags := none, assigned := none, due := none,
    started := none, completed := some ("2024-01-01T00:00:00.000Z"), subtasks := none }

/-- A board listing the two tasks "t" and "u-2" in Backlog. -/
def fsTwoBoard : Board :=
  { name := "B", description := "", opts := DEFAULT_INDEX_OPTIONS,
    columns := [("Backlog", ["t", "u-2"])] }

/-- A board with two tasks on disk whose identifiers collide with the
fixtures below. -/
def fsTwo : FS :=
  { board := some fsTwoBoard,
    files := [("t", stProg0), ("u-2", stProg0)] }

/-- Add arguments whose name "T" derives the existing identifier "t". -/
def addT : AddArgs :=
  { name := "T", description := "", column := "Backlog", tags := none,
    assigned := none, due := none, subtasks := none }

/-- Update arguments renaming to "U 2", which derives the existing
identifier "u-2". -/
def updRenameU2 : CtrlUpdateArgs :=
  { name := some ("U 2"), description := none, tags := none, assigned := none,
    due := none, progress := none, subtasks := none }

/-- Discriminator for the outer (raw fault) layer of an entry-point result. -/
def isOkE {α : Type} : Except String α → Bool
  | .ok _ => true
  | .error _ => false

/-! ## SectionedTextCodec: strings, lines and stripping

The codec layer (helpers.py `parse_frontmatter`/`build_frontmatter` plus the
`load`/`save` pairs of `KanbnTask` and `KanbnBoard`) is embedded over
`List Char`.  The YAML library is external to the repository, so the header
payload is an abstract type `Y` with a load function
`yload : List Char → Option Y` (`none` models both a YAML error and a parse
to `None`, which the source both turn into the empty dict) and a dump
function `ydump : Y → List Char`. -/

/-- Python `body.split("\n")`. -/
def splitLines : List Char → List (List Char)
  | [] => [[]]
  | c :: t =>
    if c = nl then [] :: splitLines t
    else
      match splitLines t with
      | [] => [[c]]
      | h :: r => (c :: h) :: r

/-- Python `"\n".join(lines)`. -/
def joinNl : List (List Char) → List Char
  | [] => []
  | [l] => l
  | l :: ls => l ++ nl :: joinNl ls

/-- Python `str.lstrip()` at ASCII scope. -/
def lstripWS (l : List Char) : List Char := l.dropWhile (fun c => isWS c)

/-- Python `str.rstrip()` at ASCII scope. -/
def rstripWS : List Char → List Char
  | [] => []
  | c :: t =>
    let r := rstripWS t
    if r.isEmpty && isWS c then [] else c :: r

/-- Python `str.strip()` at ASCII scope. -/
def strip (l : List Char) : List Char := rstripWS (lstripWS l)

/-- Python `content.lstrip("\n")`. -/
def lstripNl (l : List Char) : List Char := l.dropWhile (fun c => c = nl)

/-- Python `text.rstrip("\n")`. -/
def rstripNl : List Char → List Char
  | [] => []
  | c :: t =>
    let r := rstripNl t
    if r.isEmpty && c = nl then [] else c :: r

/-- The `---` frontmatter fence. -/
def fence : List Char := ['-', '-', '-']

/-- First occurrence of the fence "---" in a text: returns the text before
the occurrence and the text after it (Python `str.split("---")` semantics,
leftmost non-overlapping). -/
def findFence : List Char → Option (List Char × List Char)
  | [] => none
  | c :: rest =>
    if c = '-' ∧ rest.take 2 = ['-', '-'] then some ([], rest.drop 2)
    else (findFence rest).map (fun pr => (c :: pr.1, pr.2))

/-- `parse_frontmatter` (helpers.py lines 59-77): when the content starts with
the fence and a second fence occurs, the text between the fences is fed to the
YAML loader (failures degrade to an absent header) and the remainder, with
leading newlines stripped, is the body; otherwise the header is absent and
the body is the whole content. -/
def parse_frontmatter {Y : Type} (yload : List Char → Option Y)
    (content : List Char) : Option Y × List Char :=
  if content.take 3 = fence then
    match findFence content with
    | some pr =>
      match findFence pr.2 with
      | some pr2 => (yload pr2.1, lstripNl pr2.2)
      | none => (none, content)
    | none => (none, content)
  else (none, content)

/-- `build_frontmatter` (helpers.py lines 80-85) for a present header:
`"---\n" + yaml + "---\n"`. -/
def build_frontmatter {Y : Type} (ydump : Y → List Char) (y : Y) : List Char :=
  fence ++ nl :: (ydump y ++ fence ++ [nl])

/-! ## Task file codec (models.py, KanbnTask.load / KanbnTask.save) -/

/-- The decoded shape of a task file.  Comments are stored as raw lines, the
only form `load` produces. -/
structure TaskRec (Y : Type) where
  meta : Option Y
  name : List Char
  description : List Char
  subtasks : List (List Char × Bool)
  relations : List (List Char)
  comments : List (List Char)
deriving DecidableEq

/-- `stripped.startswith("# ") and not stripped.startswith("## ")`: the second
character of a "# " prefix is a space, never "#", so the single pattern
suffices. -/
def isH1 : List Char → Bool
  | '#' :: ' ' :: _ => true
  | _ => false

/-- `stripped.startswith("## ")`. -/
def isH2 : List Char → Bool
  | '#' :: '#' :: ' ' :: _ => true
  | _ => false

/-- A line whose stripped form is a level-1 or level-2 heading. -/
def isHeading (l : List Char) : Bool := isH1 (strip l) || isH2 (strip l)

def dashBracket : List Char := ['-', ' ', '[']

def authorTag : List Char := ['-', ' ', 'a', 'u', 't', 'h', 'o', 'r', ':']

def subTasksName : List Char := ['s', 'u', 'b', '-', 't', 'a', 's', 'k', 's']

def relationsName : List Char := ['r', 'e', 'l', 'a', 't', 'i', 'o', 'n', 's']

def commentsName : List Char := ['c', 'o', 'm', 'm', 'e', 'n', 't', 's']

/-- The section titles as written by `save`. -/
def subTasksTitle : List Char := ['S', 'u', 'b', '-', 't', 'a', 's', 'k', 's']

def relationsTitle : List Char := ['R', 'e', 'l', 'a', 't', 'i', 'o', 'n', 's']

def commentsTitle : List Char := ['C', 'o', 'm', 'm', 'e', 'n', 't', 's']

/-- Section cursor of the `KanbnTask.load` loop. -/
inductive Sect where
  | sNone : Sect
  | sDescr : Sect
  | sSub : Sect
  | sRel : Sect
  | sCom : Sect
deriving DecidableEq

/-- Loop state of `KanbnTask.load`. -/
structure TState where
  name : List Char
  sec : Sect
  dls : List (List Char)
  subs : List (List Char × Bool)
  rels : List (List Char)
  coms : List (List Char)
deriving DecidableEq

/-- One sub-task line of `KanbnTask.load` (models.py lines 267-271): the
completed flag from the "- [x]"/"- [X]" prefix, the text from
`re.sub(r"^- \[[xX ]\]\s*", "", stripped)` (the whole line when the checkbox
pattern does not match). -/
def parseSubLine (s : List Char) : List Char × Bool :=
  let completed := s.take 5 = ['-', ' ', '[', 'x', ']'] ||
                   s.take 5 = ['-', ' ', '[', 'X', ']']
  let text := match s with
    | '-' :: ' ' :: '[' :: c :: ']' :: r =>
      if c = 'x' ∨ c = 'X' ∨ c = ' ' then r.dropWhile (fun ch => isWS ch) else s
    | _ => s
  (text, completed)

/-- One line of the `KanbnTask.load` loop (models.py lines 242-275); the
source computes `stripped = line.strip()` once, inlined here as `strip line`. -/
def taskStep (st : TState) (line : List Char) : TState :=
  if isH1 (strip line) then
    { st with name := strip ((strip line).drop 2), sec := .sDescr }
  else if isH2 (strip line) then
    { st with sec :=
        if (strip ((strip line).drop 3)).map lowerChar = subTasksName then .sSub
        else if (strip ((strip line).drop 3)).map lowerChar = relationsName then .sRel
        else if (strip ((strip line).drop 3)).map lowerChar = commentsName then .sCom
        else .sDescr }
  else
    match st.sec with
    | .sNone => st
    | .sDescr => { st with dls := st.dls ++ [line] }
    | .sSub => if (strip line).take 3 = dashBracket then
                 { st with subs := st.subs ++ [parseSubLine (strip line)] }
               else st
    | .sRel => if (strip line).take 3 = dashBracket then
                 { st with rels := st.rels ++ [strip line] }
               else st
    | .sCom => if (strip line).take 9 = authorTag then
                 { st with coms := st.coms ++ [strip line] }
               else st

/-- `KanbnTask.load` on a body (after frontmatter removal). -/
def bodyDecodeT (lines : List (List Char)) : TState :=
  lines.foldl taskStep { name := [], sec := .sNone, dls := [], subs := [],
                         rels := [], coms := [] }

/-- `KanbnTask.load` (models.py lines 231-277). -/
def decodeTask {Y : Type} (yload : List Char → Option Y) (x : List Char) :
    TaskRec Y :=
  let pf := parse_frontmatter yload x
  let st := bodyDecodeT (splitLines pf.2)
  { meta := pf.1, name := st.name, description := strip (joinNl st.dls),
    subtasks := st.subs, relations := st.rels, comments := st.coms }

/-- One emitted sub-task line of `KanbnTask.save`: `f"- {marker} {text}"`. -/
def subLine (e : List Char × Bool) : List Char :=
  ['-', ' '] ++ (if e.2 then ['[', 'x', ']'] else ['[', ' ', ']']) ++ ' ' :: e.1

/-- The body lines of `KanbnTask.save` (models.py lines 283-328): title,
blank, description block when non-empty, then each non-empty section with its
heading, blank line, entries, and trailing blank. -/
def taskBodyLines {Y : Type} (r : TaskRec Y) : List (List Char) :=
  [['#', ' '] ++ r.name, []] ++
  (if r.description = [] then [] else [r.description, []]) ++
  (if r.subtasks = [] then []
   else (['#', '#', ' '] ++ subTasksTitle) :: [] :: (r.subtasks.map subLine ++ [[]])) ++
  (if r.relations = [] then []
   else (['#', '#', ' '] ++ relationsTitle) :: [] :: (r.relations ++ [[]])) ++
  (if r.comments = [] then []
   else (['#', '#', ' '] ++ commentsTitle) :: [] :: (r.comments ++ [[]]))

/-- `"\n".join(lines)` with the frontmatter block
(`build_frontmatter(...).rstrip("\n")` and a blank line) prepended when the
header is present (models.py lines 283-291 and 86-97). -/
def encodeLines {Y : Type} (ydump : Y → List Char) (meta : Option Y)
    (bodyLines : List (List Char)) : List Char :=
  match meta with
  | none => joinNl bodyLines
  | some y => joinNl (rstripNl (build_frontmatter ydump y) :: [] :: bodyLines)

/-- `KanbnTask.save` (models.py lines 279-331). -/
def encodeTask {Y : Type} (ydump : Y → List Char) (r : TaskRec Y) : List Char :=
  encodeLines ydump r.meta (taskBodyLines r)

/-! ## Board index codec (models.py, KanbnBoard.load / KanbnBoard.save) -/

/-- The decoded shape of the board index file. -/
structure BoardRec (Y : Type) where
  meta : Option Y
  name : List Char
  description : List Char
  columns : List (List Char × List (List Char))
deriving DecidableEq

/-- Dict assignment for character-list keys (`self._columns[cn] = []`). -/
def colSetL : List (List Char × List (List Char)) → List Char → List (List Char) →
    List (List Char × List (List Char))
  | [], k, v => [(k, v)]
  | e :: rest, k, v => if e.1 = k then (k, v) :: rest else e :: colSetL rest k v

/-- `self._columns[cn].append(tid)`: append to the (unique) entry with the
given key; no-op when the key is absent (unreachable in the load loop, which
always sets the key first). -/
def colAppendL : List (List Char × List (List Char)) → List Char → List Char →
    List (List Char × List (List Char))
  | [], _, _ => []
  | e :: rest, k, tid => if e.1 = k then (e.1, e.2 ++ [tid]) :: rest
                         else e :: colAppendL rest k tid

/-- The task-link pattern `- \[([^\]]+)\]\(tasks/([^)]+)\.md\)` of
`KanbnBoard.load` (models.py line 73), returning the second group: after
"- [", a non-empty run without "]", then "](tasks/", then a maximal non-")"
run that must consist of the identifier followed by ".md", then ")". -/
def parseTaskLink (s : List Char) : Option (List Char) :=
  match s with
  | '-' :: ' ' :: '[' :: rest =>
    let label := rest.takeWhile (fun c => ¬ c = ']')
    if label = [] then none
    else
      match rest.drop label.length with
      | ']' :: '(' :: 't' :: 'a' :: 's' :: 'k' :: 's' :: '/' :: rest2 =>
        let rr := rest2.takeWhile (fun c => ¬ c = ')')
        match rest2.drop rr.length with
        | ')' :: _ =>
          if 3 < rr.length ∧ rr.drop (rr.length - 3) = ['.', 'm', 'd'] then
            some (rr.take (rr.length - 3))
          else none
        | _ => none
      | _ => none
  | _ => none

/-- Loop state of `KanbnBoard.load`. -/
structure BState where
  name : List Char
  descr : List Char
  cols : List (List Char × List (List Char))
  cur : Option (List Char)
deriving DecidableEq

/-- One line of the `KanbnBoard.load` loop (models.py lines 57-84); the
source computes `line_stripped = line.strip()` once, inlined here. -/
def boardStep (st : BState) (line : List Char) : BState :=
  if isH1 (strip line) then { st with name := strip ((strip line).drop 2) }
  else if isH2 (strip line) then
    { st with cols := colSetL st.cols (strip ((strip line).drop 3)) [],
              cur := some (strip ((strip line).drop 3)) }
  else
    match st.cur with
    | some cn =>
      if (strip line).take 3 = dashBracket then
        match parseTaskLink (strip line) with
        | some tid => { st with cols := colAppendL st.cols cn tid }
        | none => st
      else st
    | none =>
      if strip line = [] then st
      else if (strip line).take 1 = ['#'] then st
      else { st with descr := if st.descr = [] then strip line
                              else st.descr ++ nl :: strip line }

/-- `KanbnBoard.load` on a body. -/
def bodyDecodeB (lines : List (List Char)) : BState :=
  lines.foldl boardStep { name := [], descr := [], cols := [], cur := none }

/-- `KanbnBoard.load` (models.py lines 46-84). -/
def decodeBoard {Y : Type} (yload : List Char → Option Y) (x : List Char) :
    BoardRec Y :=
  let pf := parse_frontmatter yload x
  let st := bodyDecodeB (splitLines pf.2)
  { meta := pf.1, name := st.name, description := st.descr, columns := st.cols }

/-- One emitted task-link line of `KanbnBoard.save`:
`f"- [{task_id}](tasks/{task_id}.md)"`. -/
def linkLine (tid : List Char) : List Char :=
  ['-', ' ', '['] ++ tid ++ [']', '(', 't', 'a', 's', 'k', 's', '/'] ++
    tid ++ ['.', 'm', 'd', ')']

/-- The body lines of `KanbnBoard.save` (models.py lines 91-114). -/
def boardBodyLines {Y : Type} (r : BoardRec Y) : List (List Char) :=
  [['#', ' '] ++ r.name, []] ++
  (if r.description = [] then [] else [r.description, []]) ++
  r.columns.flatMap (fun e =>
    (['#', '#', ' '] ++ e.1) :: [] :: (e.2.map linkLine ++ [[]]))

/-- `KanbnBoard.save` (models.py lines 86-117). -/
def encodeBoard {Y : Type} (ydump : Y → List Char) (r : BoardRec Y) : List Char :=
  encodeLines ydump r.meta (boardBodyLines r)

/-- The dump of a header must keep the closing fence findable: no "---" may
occur inside the newline-prefixed dump, including an occurrence overlapping
into the closing fence (a dump ending in hyphens).  `yaml.dump` output, which
ends in a newline and never contains a document marker for these payloads,
satisfies this. -/
def fenceSafe (d : List Char) : Prop := findFence (nl :: (d ++ ['-', '-'])) = none

/-- Stability under both one-sided strips (equivalently, under `strip`). -/
def stripStable (l : List Char) : Prop := lstripWS l = l ∧ rstripWS l = l

/-- Every character is whitespace. -/
def allWS (l : List Char) : Prop := ∀ c ∈ l, isWS c = true

/-- Invariant of the `KanbnTask.load` loop state, preserved by every line. -/
def TStateInv (st : TState) : Prop :=
  stripStable st.name ∧ nl ∉ st.name ∧
  (∀ L ∈ st.dls, nl ∉ L ∧ isHeading L = false) ∧
  (∀ e ∈ st.subs, stripStable e.1 ∧ nl ∉ e.1) ∧
  (∀ L ∈ st.rels, stripStable L ∧ nl ∉ L ∧ L.take 3 = dashBracket) ∧
  (∀ L ∈ st.coms, stripStable L ∧ nl ∉ L ∧ L.take 9 = authorTag)

/-- Invariant of the `KanbnBoard.load` loop state, preserved by every line. -/
def BStateInv (st : BState) : Prop :=
  stripStable st.name ∧ nl ∉ st.name ∧
  (st.descr = [] ∨ ∃ Ls, Ls ≠ [] ∧ st.descr = joinNl Ls ∧
     ∀ L ∈ Ls, stripStable L ∧ L ≠ [] ∧ L.take 1 ≠ ['#'] ∧ nl ∉ L) ∧
  (st.cols.map Prod.fst).Nodup ∧
  (∀ e ∈ st.cols, stripStable e.1 ∧ e.1 ≠ [] ∧ nl ∉ e.1 ∧
     ∀ tid ∈ e.2, tid ≠ [] ∧ nl ∉ tid ∧ ')' ∉ tid)

/-- Shape invariant of every `decodeTask` result: the name is stripped and
newline-free; the description is stripped and none of its lines strips to a
heading; sub-task texts are stripped and newline-free; relation and comment
lines are stripped, newline-free, and carry their recognition prefixes. -/
def TRecInv {Y : Type} (r : TaskRec Y) : Prop :=
  stripStable r.name ∧ nl ∉ r.name ∧
  stripStable r.description ∧
  (∀ L ∈ splitLines r.description, isHeading L = false) ∧
  (∀ e ∈ r.subtasks, stripStable e.1 ∧ nl ∉ e.1) ∧
  (∀ L ∈ r.relations, stripStable L ∧ nl ∉ L ∧ L.take 3 = dashBracket) ∧
  (∀ L ∈ r.comments, stripStable L ∧ nl ∉ L ∧ L.take 9 = authorTag)

/-- Shape invariant of every `decodeBoard` result: stripped newline-free name;
a description that is the newline-join of stripped, non-empty, non-"#" lines;
column names stripped, non-empty and newline-free with distinct keys; task
identifiers non-empty, newline-free and without ")". -/
def BRecInv {Y : Type} (r : BoardRec Y) : Prop :=
  stripStable r.name ∧ nl ∉ r.name ∧
  (r.description = [] ∨ ∃ Ls, Ls ≠ [] ∧ r.description = joinNl Ls ∧
     ∀ L ∈ Ls, stripStable L ∧ L ≠ [] ∧ L.take 1 ≠ ['#'] ∧ nl ∉ L) ∧
  (r.columns.map Prod.fst).Nodup ∧
  (∀ e ∈ r.columns, stripStable e.1 ∧ e.1 ≠ [] ∧ nl ∉ e.1 ∧
     ∀ tid ∈ e.2, tid ≠ [] ∧ nl ∉ tid ∧ ')' ∉ tid)

/-- A concrete YAML layer for exercising the codec: the dump is the identity
and the load drops the leading newline that the frontmatter builder inserts
before the dump. -/
def yloadW : List Char → Option (List Char) := fun l => some (l.drop 1)

def ydumpW : List Char → List Char := fun y => y

/-- A concrete task file covering every section of the task shape. -/
def taskFileW : List Char :=
  ("# Demo task\n\nSome description line\n\n## Sub-tasks\n\n- [x] first\n- [ ] second\n\n## Relations\n\n- [parent](tasks/parent.md)\n\n## Comments\n\n- author: bob\n").data

/-- A concrete board index file with two columns, one of them empty. -/
def boardFileW : List Char :=
  ("# My Board\n\nBoard description here\n\n## Backlog\n\n- [task-one](tasks/task-one.md)\n- [task-two](tasks/task-two.md)\n\n## Done\n\n").data

end Kanbn

namespace Kanbn

/-! ## Theorems: character-level lemmas -/

theorem toNat_ofNat_small (n : Nat) (h : n < 55296) : (Char.ofNat n).toNat = n := by
  have hv : n.isValidChar := Or.inl h
  simp [Char.ofNat, hv, Char.ofNatAux, Char.toNat, UInt32.toNat, UInt32.ofNatCore]

theorem isUp_lowerChar (c : Char) : isUp (lowerChar c) = false := by
  unfold lowerChar
  by_cases h : isUp c = true
  · have h' := of_decide_eq_true (isUp.eq_1 c ▸ h)
    have hlt : c.toNat + 32 < 55296 := by omega
    have heq : (Char.ofNat (c.toNat + 32)).toNat = c.toNat + 32 := toNat_ofNat_small _ hlt
    simp only [h, if_true]
    unfold isUp
    rw [heq]
    exact decide_eq_false (by omega)
  · simp only [Bool.not_eq_true] at h
    simp [h]

theorem lowerChar_of_not_up {c : Char} (h : isUp c = false) : lowerChar c = c := by
  simp [lowerChar, h]

theorem camelAux_no_upper :
    ∀ (l : List Char) (b r : Bool), ∀ c ∈ camelAux l b r, isUp c = false := by
  intro l
  induction l with
  | nil => intro b r c hc; simp [camelAux] at hc
  | cons a t ih =>
    intro b r c hc
    cases r with
    | true =>
      by_cases ha : isUp a = true
      · simp only [camelAux, ha, if_true] at hc
        rcases List.mem_cons.mp hc with h | h
        · subst h; exact isUp_lowerChar a
        · exact ih false true c h
      · simp only [Bool.not_eq_true] at ha
        by_cases hnl : a = nl
        · simp only [camelAux, ha, hnl, if_true, if_false, Bool.false_eq_true] at hc
          rcases List.mem_cons.mp hc with h | h
          · subst h; rw [← hnl] at *; exact ha
          · exact ih false false c h
        · simp only [camelAux, ha, hnl, if_false, Bool.false_eq_true] at hc
          rcases List.mem_cons.mp hc with h | h
          · subst h; exact isUp_lowerChar a
          · exact ih false false c h
    | false =>
      by_cases ha : isUp a = true
      · simp only [camelAux, ha, if_true, Bool.false_eq_true, if_false] at hc
        rcases List.mem_append.mp hc with h | h
        · cases b with
          | true => simp at h
          | false =>
            simp only [if_false, Bool.false_eq_true, List.mem_singleton] at h
            subst h; decide
        · rcases List.mem_cons.mp h with h' | h'
          · subst h'; exact isUp_lowerChar a
          · exact ih false true c h'
      · simp only [Bool.not_eq_true] at ha
        simp only [camelAux, ha, Bool.false_eq_true, if_false] at hc
        rcases List.mem_cons.mp hc with h | h
        · subst h; exact ha
        · exact ih false false c h

theorem camelAux_id :
    ∀ (l : List Char), (∀ c ∈ l, isUp c = false) → ∀ (b r : Bool), camelAux l b r = l := by
  intro l
  induction l with
  | nil => intro _ b r; rfl
  | cons a t ih =>
    intro h b r
    have ha : isUp a = false := h a (List.mem_cons_self a t)
    have ht : ∀ c ∈ t, isUp c = false := fun c hc => h c (List.mem_cons_of_mem a hc)
    cases r with
    | true =>
      by_cases hnl : a = nl
      · subst hnl
        have hstep : camelAux (nl :: t) b true = nl :: camelAux t false false := by
          have h1 : isUp nl = false := by decide
          simp [camelAux, h1]
        rw [hstep, ih ht false false]
      · have hstep : camelAux (a :: t) b true = lowerChar a :: camelAux t false false := by
          simp [camelAux, ha, hnl]
        rw [hstep, lowerChar_of_not_up ha, ih ht false false]
    | false =>
      have hstep : camelAux (a :: t) b false = a :: camelAux t false false := by
        simp [camelAux, ha]
      rw [hstep, ih ht false false]

/-! ## Theorems: split / join / strip lemmas -/

theorem splitSpecial_ne_nil (l : List Char) : splitSpecial l ≠ [] := by
  cases l with
  | nil => simp [splitSpecial]
  | cons c t =>
    by_cases h : isSpecial c = true
    · simp [splitSpecial, h]
    · simp only [Bool.not_eq_true] at h
      simp only [splitSpecial, h, Bool.false_eq_true, if_false]
      cases hm : splitSpecial t <;> simp

theorem mem_splitSpecial_no_special :
    ∀ (l : List Char), ∀ p ∈ splitSpecial l, ∀ c ∈ p, isSpecial c = false := by
  intro l
  induction l with
  | nil => intro p hp c hc; simp [splitSpecial] at hp; subst hp; simp at hc
  | cons a t ih =>
    intro p hp c hc
    by_cases h : isSpecial a = true
    · simp only [splitSpecial, h, if_true] at hp
      rcases List.mem_cons.mp hp with h' | h'
      · subst h'; simp at hc
      · exact ih p h' c hc
    · simp only [Bool.not_eq_true] at h
      simp only [splitSpecial, h, Bool.false_eq_true, if_false] at hp
      cases hm : splitSpecial t with
      | nil => exact absurd hm (splitSpecial_ne_nil t)
      | cons q qs =>
        rw [hm] at hp
        rcases List.mem_cons.mp hp with h' | h'
        · subst h'
          rcases List.mem_cons.mp hc with h'' | h''
          · subst h''; exact h
          · exact ih q (hm ▸ List.mem_cons_self q qs) c h''
        · exact ih p (hm ▸ List.mem_cons_of_mem q h') c hc

theorem mem_splitSpecial_subset :
    ∀ (l : List Char), ∀ p ∈ splitSpecial l, ∀ c ∈ p, c ∈ l := by
  intro l
  induction l with
  | nil => intro p hp c hc; simp [splitSpecial] at hp; subst hp; simp at hc
  | cons a t ih =>
    intro p hp c hc
    by_cases h : isSpecial a = true
    · simp only [splitSpecial, h, if_true] at hp
      rcases List.mem_cons.mp hp with h' | h'
      · subst h'; simp at hc
      · exact List.mem_cons_of_mem a (ih p h' c hc)
    · simp only [Bool.not_eq_true] at h
      simp only [splitSpecial, h, Bool.false_eq_true, if_false] at hp
      cases hm : splitSpecial t with
      | nil => exact absurd hm (splitSpecial_ne_nil t)
      | cons q qs =>
        rw [hm] at hp
        rcases List.mem_cons.mp hp with h' | h'
        · subst h'
          rcases List.mem_cons.mp hc with h'' | h''
          · subst h''; exact List.mem_cons_self c t
          · exact List.mem_cons_of_mem a (ih q (hm ▸ List.mem_cons_self q qs) c h'')
        · exact List.mem_cons_of_mem a (ih p (hm ▸ List.mem_cons_of_mem q h') c hc)

theorem splitSpecial_append_clean :
    ∀ (p : List Char), (∀ c ∈ p, isSpecial c = false) →
    ∀ (l : List Char) (h : List Char) (r : List (List Char)),
      splitSpecial l = h :: r → splitSpecial (p ++ l) = (p ++ h) :: r := by
  intro p
  induction p with
  | nil => intro _ l h r hl; simpa using hl
  | cons a p' ih =>
    intro hcl l h r hl
    have ha : isSpecial a = false := hcl a (List.mem_cons_self a p')
    have hp' : ∀ c ∈ p', isSpecial c = false := fun c hc => hcl c (List.mem_cons_of_mem a hc)
    have hrec := ih hp' l h r hl
    simp only [List.cons_append, splitSpecial, ha, Bool.false_eq_true, if_false]
    have hae : p'.append l = p' ++ l := rfl
    rw [hae, hrec]

theorem splitSpecial_hy_cons (l : List Char) :
    splitSpecial (hy :: l) = [] :: splitSpecial l := by
  have h : isSpecial hy = true := by decide
  simp [splitSpecial, h]

theorem splitSpecial_joinHy :
    ∀ (parts : List (List Char)),
      (∀ p ∈ parts, p ≠ [] ∧ ∀ c ∈ p, isSpecial c = false) →
      (splitSpecial (joinHy parts)).filter (fun p => !p.isEmpty) = parts := by
  intro parts
  induction parts with
  | nil => intro _; simp [joinHy, splitSpecial]
  | cons p ps ih =>
    intro hg
    obtain ⟨hpne, hpcl⟩ := hg p (List.mem_cons_self p ps)
    have hgps : ∀ q ∈ ps, q ≠ [] ∧ ∀ c ∈ q, isSpecial c = false :=
      fun q hq => hg q (List.mem_cons_of_mem p hq)
    have hpe : (!p.isEmpty) = true := by
      cases p with
      | nil => exact absurd rfl hpne
      | cons _ _ => simp
    cases ps with
    | nil =>
      have h0 : splitSpecial ([] : List Char) = [] :: [] := by simp [splitSpecial]
      have hsp := splitSpecial_append_clean p hpcl [] [] [] h0
      simp only [List.append_nil] at hsp
      have hj : joinHy [p] = p := rfl
      rw [hj, hsp]
      simp [List.filter_cons, hpe]
    | cons q ps' =>
      have hjoin : joinHy (p :: q :: ps') = p ++ hy :: joinHy (q :: ps') := rfl
      cases hm : splitSpecial (joinHy (q :: ps')) with
      | nil => exact absurd hm (splitSpecial_ne_nil _)
      | cons h0 r0 =>
        have hstep : splitSpecial (hy :: joinHy (q :: ps')) = [] :: h0 :: r0 := by
          rw [splitSpecial_hy_cons, hm]
        have happ := splitSpecial_append_clean p hpcl (hy :: joinHy (q :: ps')) [] (h0 :: r0) hstep
        simp only [List.append_nil] at happ
        rw [hjoin, happ]
        have hrest := ih hgps
        rw [hm] at hrest
        rw [List.filter_cons, hpe]
        simp only [if_true]
        rw [hrest]

theorem joinHy_ne_nil :
    ∀ (p : List Char) (ps : List (List Char)), p ≠ [] → joinHy (p :: ps) ≠ [] := by
  intro p ps hp
  cases ps with
  | nil => simpa [joinHy] using hp
  | cons q ps' =>
    simp only [joinHy]
    intro h
    rcases List.append_eq_nil.mp h with ⟨_, h2⟩
    exact List.cons_ne_nil _ _ h2

theorem joinHy_chars :
    ∀ (parts : List (List Char)), ∀ c ∈ joinHy parts, c = hy ∨ ∃ p ∈ parts, c ∈ p := by
  intro parts
  induction parts with
  | nil => intro c hc; simp [joinHy] at hc
  | cons p ps ih =>
    intro c hc
    cases ps with
    | nil => exact Or.inr ⟨p, List.mem_cons_self p [], hc⟩
    | cons q ps' =>
      simp only [joinHy] at hc
      rcases List.mem_append.mp hc with h | h
      · exact Or.inr ⟨p, List.mem_cons_self p _, h⟩
      · rcases List.mem_cons.mp h with h' | h'
        · exact Or.inl h'
        · rcases ih c h' with h'' | ⟨p', hp', hc'⟩
          · exact Or.inl h''
          · exact Or.inr ⟨p', List.mem_cons_of_mem p hp', hc'⟩

theorem dropTrailingHy_no_hy :
    ∀ (l : List Char), (∀ c ∈ l, ¬ c = hy) → dropTrailingHy l = l := by
  intro l
  induction l with
  | nil => intro _; rfl
  | cons a t ih =>
    intro h
    have ha : ¬ a = hy := h a (List.mem_cons_self a t)
    have ht := ih fun c hc => h c (List.mem_cons_of_mem a hc)
    simp only [dropTrailingHy, ht]
    simp [ha]

theorem dropTrailingHy_append :
    ∀ (y : List Char), dropTrailingHy y ≠ [] →
    ∀ (x : List Char), dropTrailingHy (x ++ y) = x ++ dropTrailingHy y := by
  intro y hy' x
  induction x with
  | nil => simp
  | cons a x' ih =>
    show dropTrailingHy (a :: (x' ++ y)) = a :: (x' ++ dropTrailingHy y)
    simp only [dropTrailingHy]
    rw [ih]
    split
    next hcond =>
      have h1 : (x' ++ dropTrailingHy y) = [] := by
        have h2 := hcond
        simp only [Bool.and_eq_true, decide_eq_true_eq, List.isEmpty_iff] at h2
        exact h2.1
      exact absurd (List.append_eq_nil.mp h1).2 hy'
    next _ => rfl

theorem dropTrailingHy_joinHy :
    ∀ (parts : List (List Char)),
      (∀ p ∈ parts, p ≠ [] ∧ ∀ c ∈ p, isSpecial c = false) →
      dropTrailingHy (joinHy parts) = joinHy parts := by
  intro parts
  induction parts with
  | nil => intro _; rfl
  | cons p ps ih =>
    intro hg
    obtain ⟨hpne, hpcl⟩ := hg p (List.mem_cons_self p ps)
    have hgps : ∀ q ∈ ps, q ≠ [] ∧ ∀ c ∈ q, isSpecial c = false :=
      fun q hq => hg q (List.mem_cons_of_mem p hq)
    have hnohy : ∀ c ∈ p, ¬ c = hy := by
      intro c hc he
      have := hpcl c hc
      rw [he] at this
      exact absurd this (by decide)
    cases ps with
    | nil => exact dropTrailingHy_no_hy p hnohy
    | cons q ps' =>
      obtain ⟨hqne, _⟩ := hgps q (List.mem_cons_self q ps')
      have hjne : joinHy (q :: ps') ≠ [] := joinHy_ne_nil q ps' hqne
      have hrec : dropTrailingHy (joinHy (q :: ps')) = joinHy (q :: ps') := ih hgps
      have htail : dropTrailingHy (hy :: joinHy (q :: ps')) = hy :: joinHy (q :: ps') := by
        simp only [dropTrailingHy, hrec]
        have : (joinHy (q :: ps')).isEmpty = false := by
          cases hj : joinHy (q :: ps') with
          | nil => exact absurd hj hjne
          | cons _ _ => rfl
        simp [this]
      have htne : dropTrailingHy (hy :: joinHy (q :: ps')) ≠ [] := by
        rw [htail]; exact List.cons_ne_nil _ _
      show dropTrailingHy (p ++ hy :: joinHy (q :: ps')) = p ++ hy :: joinHy (q :: ps')
      rw [dropTrailingHy_append _ htne p, htail]

theorem dropLeadingHy_joinHy :
    ∀ (parts : List (List Char)),
      (∀ p ∈ parts, p ≠ [] ∧ ∀ c ∈ p, isSpecial c = false) →
      dropLeadingHy (joinHy parts) = joinHy parts := by
  intro parts hg
  cases parts with
  | nil => rfl
  | cons p ps =>
    obtain ⟨hpne, hpcl⟩ := hg p (List.mem_cons_self p ps)
    cases p with
    | nil => exact absurd rfl hpne
    | cons a p' =>
      have ha : ¬ a = hy := by
        intro he
        have := hpcl a (List.mem_cons_self a p')
        rw [he] at this
        exact absurd this (by decide)
      cases ps with
      | nil =>
        show dropLeadingHy (a :: p') = a :: p'
        simp [dropLeadingHy, List.dropWhile_cons, ha]
      | cons q ps' =>
        have hj : joinHy ((a :: p') :: q :: ps') = (a :: p') ++ hy :: joinHy (q :: ps') := rfl
        rw [hj]
        show dropLeadingHy (a :: (p' ++ hy :: joinHy (q :: ps'))) = _
        simp [dropLeadingHy, List.dropWhile_cons, ha]

/-! ## C10: idempotence of the identifier derivation -/

theorem kebabList_idem (l : List Char) : kebabList (kebabList l) = kebabList l := by
  have hgood : ∀ p ∈ (splitSpecial (camelAux l true false)).filter (fun p => !p.isEmpty),
      p ≠ [] ∧ ∀ c ∈ p, isSpecial c = false := by
    intro p hp
    constructor
    · have hf := List.of_mem_filter hp
      cases p with
      | nil => simp at hf
      | cons _ _ => exact List.cons_ne_nil _ _
    · exact mem_splitSpecial_no_special _ p (List.mem_of_mem_filter hp)
  have hk : kebabList l =
      joinHy ((splitSpecial (camelAux l true false)).filter (fun p => !p.isEmpty)) := by
    unfold kebabList
    rw [dropLeadingHy_joinHy _ hgood, dropTrailingHy_joinHy _ hgood]
  have hnoup : ∀ c ∈ joinHy ((splitSpecial (camelAux l true false)).filter
      (fun p => !p.isEmpty)), isUp c = false := by
    intro c hc
    rcases joinHy_chars _ c hc with h | ⟨p, hp, hcp⟩
    · subst h; decide
    · exact camelAux_no_upper l true false c
        (mem_splitSpecial_subset _ p (List.mem_of_mem_filter hp) c hcp)
  rw [hk]
  unfold kebabList
  rw [camelAux_id _ hnoup true false, splitSpecial_joinHy _ hgood]
  rw [dropLeadingHy_joinHy _ hgood, dropTrailingHy_joinHy _ hgood]

/-- Claim C10: the identifier derivation is idempotent: deriving the identifier
of an already-derived identifier returns it unchanged. -/
theorem to_kebab_case_idem (s : String) :
    to_kebab_case (to_kebab_case s) = to_kebab_case s :=
  congrArg String.mk (kebabList_idem s.data)

/-! ## C2: concrete behaviour of the identifier derivation -/

example : to_kebab_case ("Add workspace_core tests") = ("add-workspace-core-tests") := by
  decide

/-- Claim C2: the identifier derivation is the pure total function given by the
camel-case hyphenation / lowering / special-split / join / strip pipeline; in
particular it sends "Setup FastAPI Project" to "setup-fast-api-project" and
"SQLAlchemy" to "sqlalchemy". -/
theorem to_kebab_case_examples :
    to_kebab_case ("Setup FastAPI Project") = ("setup-fast-api-project") ∧
    to_kebab_case ("SQLAlchemy") = ("sqlalchemy") := by
  constructor
  · decide
  · decide

/-! ## C3: column-entry behaviour -/

/-- Claim C3: entering a started column stamps `started` only when not already
set (a second entry leaves the original value untouched); entering a completed
column unconditionally re-stamps `completed` and forces `progress` to 1.0. -/
theorem apply_column_behavior_spec (opts : BoardOpts) (m : TaskMeta) (col now : String) :
    (col ∈ opts.startedColumns →
      ((m.started = none →
          (apply_column_behavior opts m col now).1.started = some now) ∧
       (∀ t, m.started = some t →
          (apply_column_behavior opts m col now).1.started = some t))) ∧
    (col ∈ opts.completedColumns →
      (apply_column_behavior opts m col now).1.completed = some now ∧
      (apply_column_behavior opts m col now).1.progress = some 1) := by
  unfold apply_column_behavior
  by_cases h1 : col ∈ opts.startedColumns <;>
    by_cases h2 : col ∈ opts.completedColumns <;>
      by_cases h3 : m.started = none <;>
        simp [h1, h2, h3]

/-- Witness for C3 at the default options: first entry into "In Progress"
stamps `started`; a second entry preserves it; entry into "Done" stamps
`completed` and forces progress 1. -/
theorem apply_column_behavior_spec_witness :
    ((("In Progress") ∈ DEFAULT_INDEX_OPTIONS.startedColumns) ∧
     metaEmpty.started = none ∧
     (apply_column_behavior DEFAULT_INDEX_OPTIONS metaEmpty ("In Progress") ("T1")).1.started
       = some ("T1")) ∧
    ((apply_column_behavior DEFAULT_INDEX_OPTIONS
        { metaEmpty with started := some ("T0") } ("In Progress") ("T1")).1.started
       = some ("T0")) ∧
    ((("Done") ∈ DEFAULT_INDEX_OPTIONS.completedColumns) ∧
     (apply_column_behavior DEFAULT_INDEX_OPTIONS stProg0.meta ("Done") ("T1")).1.completed
       = some ("T1") ∧
     (apply_column_behavior DEFAULT_INDEX_OPTIONS stProg0.meta ("Done") ("T1")).1.progress
       = some 1) := by
  refine ⟨⟨by decide, rfl, ?_⟩, ?_, ⟨by decide, ?_, ?_⟩⟩
  · exact ((apply_column_behavior_spec DEFAULT_INDEX_OPTIONS metaEmpty
      ("In Progress") ("T1")).1 (by decide)).1 rfl
  · exact ((apply_column_behavior_spec DEFAULT_INDEX_OPTIONS
      { metaEmpty with started := some ("T0") } ("In Progress") ("T1")).1
        (by decide)).2 ("T0") rfl
  · exact ((apply_column_behavior_spec DEFAULT_INDEX_OPTIONS stProg0.meta
      ("Done") ("T1")).2 (by decide)).1
  · exact ((apply_column_behavior_spec DEFAULT_INDEX_OPTIONS stProg0.meta
      ("Done") ("T1")).2 (by decide)).2

/-! ## C4: completed versus progress -/

/-- Claim C4 counterexample: `KanbnTask.update` supplying only `completed`
sets the completed field yet leaves the saved progress at its prior value 0,
so the operation sets `completed` without saving progress 1.0. -/
theorem task_update_completed_keeps_progress :
    (task_update stProg0 updOnlyCompleted ("T2")).meta.completed =
        some ("2024-01-02T00:00:00.000Z") ∧
    (task_update stProg0 updOnlyCompleted ("T2")).meta.progress = some 0 ∧
    ¬ (task_update stProg0 updOnlyCompleted ("T2")).meta.progress = some 1 := by
  refine ⟨rfl, rfl, by decide⟩

/-- Claim C4 (amended): creation with a truthy completed value and entry into
a completed column force progress 1.0; `KanbnTask.update` supplying
`completed` leaves progress at its prior value whenever `progress` itself is
not supplied. -/
theorem completed_progress_invariant :
    (∀ (a : CreateArgs) (now : String), truthy a.completed = true →
       (task_create a now).meta.progress = some 1) ∧
    (∀ (opts : BoardOpts) (m : TaskMeta) (col now : String),
       col ∈ opts.completedColumns →
       (apply_column_behavior opts m col now).1.progress = some 1) ∧
    (∀ (st : TaskState) (u : UpdateArgs) (now : String), u.progress = none →
       (task_update st u now).meta.progress = st.meta.progress) := by
  refine ⟨?_, ?_, ?_⟩
  · intro a now h
    simp [task_create, h]
  · intro opts m col now h
    simp [apply_column_behavior, h]
  · intro st u now h
    simp [task_update, h]

/-- Witness for the amended C4 at concrete inputs. -/
theorem completed_progress_invariant_witness :
    (truthy crCompleted.completed = true ∧
     (task_create crCompleted ("T1")).meta.progress = some 1) ∧
    ((("Done") ∈ DEFAULT_INDEX_OPTIONS.completedColumns) ∧
     (apply_column_behavior DEFAULT_INDEX_OPTIONS metaEmpty ("Done") ("T1")).1.progress
       = some 1) ∧
    (updOnlyCompleted.progress = none ∧
     (task_update stProg0 updOnlyCompleted ("T2")).meta.progress = stProg0.meta.progress) := by
  refine ⟨⟨by decide, ?_⟩, ⟨by decide, ?_⟩, ⟨rfl, ?_⟩⟩
  · exact (completed_progress_invariant).1 crCompleted ("T1") (by decide)
  · exact (completed_progress_invariant).2.1 DEFAULT_INDEX_OPTIONS metaEmpty
      ("Done") ("T1") (by decide)
  · exact (completed_progress_invariant).2.2 stProg0 updOnlyCompleted ("T2") rfl

/-! ## C5: reorder -/

/-- Claim C5 counterexample: with duplicate column membership ["a", "a"], the
proposed order ["a"] is set-equal but not a permutation of the membership, yet
reorder succeeds (returning the previous order and installing the shorter
list), refuting "fails ... exactly when the proposed list is not an exact
permutation". -/
theorem reorder_accepts_non_permutation :
    ctrl_reorder_tasks fsDupA ("C") (["a"]) = .ok (fsDupAAfter, .ok (["a", "a"])) ∧
    ¬ (["a"] : List String).Perm (["a", "a"]) := by
  constructor
  · rfl
  · intro h
    exact absurd h.length_eq (by decide)

/-- A successful column lookup implies key membership. -/
theorem colGet_mem :
    ∀ (cols : List (String × List String)) (k : String) (v : List String),
      colGet cols k = some v → k ∈ colKeys cols := by
  intro cols
  induction cols with
  | nil => intro k v h; simp [colGet] at h
  | cons e rest ih =>
    intro k v h
    simp only [colGet] at h
    by_cases he : e.1 = k
    · simp [colKeys, he.symm]
    · rw [if_neg he] at h
      exact List.mem_cons_of_mem _ (ih k v h)

/-- Claim C5 (amended): reorder fails with an unknown-column error when the
column is absent, leaving the filesystem unchanged; with the column present it
fails with a set-mismatch error (filesystem unchanged) exactly when the
proposed list is not set-equal to the current membership, and on set-equality
it returns the previous order and installs the proposed list. -/
theorem ctrl_reorder_tasks_spec (fs : FS) (b : Board) (col : String)
    (ids : List String) (hb : fs.board = some b) :
    (col ∉ colKeys b.columns →
       ctrl_reorder_tasks fs col ids = .ok (fs, .error (.unknownColumn col))) ∧
    (∀ cur, colGet b.columns col = some cur →
       (sameSet cur ids = false →
          ctrl_reorder_tasks fs col ids =
            .ok (fs, .error (.setMismatch ((cur.filter (fun t => t ∉ ids)).dedup)
                                          ((ids.filter (fun t => t ∉ cur)).dedup)))) ∧
       (sameSet cur ids = true →
          ctrl_reorder_tasks fs col ids =
            .ok ({ fs with board := some { b with columns := colSet b.columns col ids } },
                 .ok cur))) := by
  constructor
  · intro h
    simp [ctrl_reorder_tasks, hb, h]
  · intro cur hcur
    have hmem : col ∈ colKeys b.columns := colGet_mem b.columns col cur hcur
    constructor
    · intro hmis
      simp [ctrl_reorder_tasks, hb, hmem, board_reorder_tasks, hcur, hmis]
    · intro hsame
      simp [ctrl_reorder_tasks, hb, hmem, board_reorder_tasks, hcur, hsame]

/-- Witness for the amended C5: unknown column, genuine mismatch, and a
successful permutation on a two-element column. -/
theorem ctrl_reorder_tasks_spec_witness :
    (("X") ∉ colKeys boardDupA.columns ∧
     ctrl_reorder_tasks fsDupA ("X") ([]) = .ok (fsDupA, .error (.unknownColumn ("X")))) ∧
    (colGet fsTwoBoard.columns ("Backlog") = some (["t", "u-2"]) ∧
     sameSet (["t", "u-2"]) (["t"]) = false ∧
     ctrl_reorder_tasks fsTwo ("Backlog") (["t"]) =
       .ok (fsTwo, .error (.setMismatch (["u-2"]) ([])))) ∧
    (sameSet (["t", "u-2"]) (["u-2", "t"]) = true ∧
     ctrl_reorder_tasks fsTwo ("Backlog") (["u-2", "t"]) =
       .ok ({ fsTwo with board := some { fsTwoBoard with
                columns := colSet fsTwoBoard.columns ("Backlog") (["u-2", "t"]) } },
            .ok (["t", "u-2"]))) := by
  refine ⟨⟨by decide, ?_⟩, ⟨rfl, by decide, ?_⟩, ⟨by decide, ?_⟩⟩
  · exact (ctrl_reorder_tasks_spec fsDupA boardDupA ("X") ([]) rfl).1 (by decide)
  · have h := ((ctrl_reorder_tasks_spec fsTwo fsTwoBoard ("Backlog") (["t"]) rfl).2
      (["t", "u-2"]) rfl).1 (by decide)
    simpa using h
  · exact ((ctrl_reorder_tasks_spec fsTwo fsTwoBoard ("Backlog") (["u-2", "t"]) rfl).2
      (["t", "u-2"]) rfl).2 (by decide)

/-! ## C6: empty derived identifier -/

set_option maxRecDepth 10000 in
/-- Claim C6 evidence (code bug): the add operation performs no empty-identifier
check; on a fresh board, adding a task named "!!!" derives the empty identifier
and the operation reports success, creating a task file keyed by the empty
string and an index entry for it. -/
theorem add_task_accepts_empty_identifier :
    to_kebab_case ("!!!") = ("") ∧
    ctrl_add_task fsFresh addBang ("T1") = .ok (fsFreshAfterBang, .ok ("")) := by
  constructor
  · decide
  · rfl

/-! ## C7: collision rejection -/

/-- Claim C7: an add whose derived identifier already has a backing task file
fails with a collision error and leaves the filesystem unchanged; an update
whose changed derived identifier already has a backing task file fails with a
collision error and leaves the filesystem unchanged. -/
theorem collision_rejected :
    (∀ (fs : FS) (b : Board) (a : AddArgs) (now : String), fs.board = some b →
       a.column ∈ colKeys b.columns →
       (fileGet fs.files (to_kebab_case a.name)).isSome = true →
       ctrl_add_task fs a now = .ok (fs, .error (.taskExists (to_kebab_case a.name)))) ∧
    (∀ (fs : FS) (b : Board) (tid : String) (u : CtrlUpdateArgs) (now n : String),
       fs.board = some b → u.name = some n → to_kebab_case n ≠ tid →
       (fileGet fs.files tid).isSome = true →
       (fileGet fs.files (to_kebab_case n)).isSome = true →
       ctrl_update_task fs tid u now =
         .ok (fs, .error (.renameCollision (to_kebab_case n)))) := by
  constructor
  · intro fs b a now hb hcol hex
    simp [ctrl_add_task, hb, add_task_body, hcol, hex]
  · intro fs b tid u now n hb hn hne hex1 hex2
    obtain ⟨st, hst⟩ := Option.isSome_iff_exists.mp hex1
    simp [ctrl_update_task, hb, update_task_body, hst, hn, hne, hex2]

/-- Witness for C7: adding "T" (identifier "t") over an existing "t" fails;
renaming "t" to "U 2" (identifier "u-2") over an existing "u-2" fails. -/
theorem collision_rejected_witness :
    ctrl_add_task fsTwo addT ("T9") = .ok (fsTwo, .error (.taskExists ("t"))) ∧
    ctrl_update_task fsTwo ("t") updRenameU2 ("T9") =
      .ok (fsTwo, .error (.renameCollision ("u-2"))) := by
  constructor
  · have e : to_kebab_case ("T") = ("t") := by decide
    have h := (collision_rejected).1 fsTwo fsTwoBoard addT ("T9") rfl
      (by decide) (by rw [show addT.name = ("T") from rfl, e]; decide)
    rw [show addT.name = ("T") from rfl, e] at h
    exact h
  · have e : to_kebab_case ("U 2") = ("u-2") := by decide
    have h := (collision_rejected).2 fsTwo fsTwoBoard ("t") updRenameU2 ("T9") ("U 2")
      rfl rfl (by rw [e]; decide) (by decide) (by rw [e]; decide)
    rw [e] at h
    exact h

/-! ## C8: update frame conditions -/

/-- Claim C8: an update of an existing task leaves every unsupplied field at
its previously persisted value, re-stamps `updated`, clamps a supplied
progress into [0, 1], and fails with a not-found error when the task file is
absent. -/
theorem task_update_frame :
    (∀ (files : List (String × TaskState)) (id : String) (u : UpdateArgs)
       (now : String), fileGet files id = none →
       task_update_file files id u now = .error (.taskNotFound id)) ∧
    (∀ (st : TaskState) (u : UpdateArgs) (now : String),
       (u.name = none → (task_update st u now).name = st.name) ∧
       (u.description = none → (task_update st u now).description = st.description) ∧
       (u.tags = none → (task_update st u now).meta.tags = st.meta.tags) ∧
       (u.assigned = none → (task_update st u now).meta.assigned = st.meta.assigned) ∧
       (u.due = none → (task_update st u now).meta.due = st.meta.due) ∧
       (u.progress = none → (task_update st u now).meta.progress = st.meta.progress) ∧
       (u.started = none → (task_update st u now).meta.started = st.meta.started) ∧
       (u.completed = none → (task_update st u now).meta.completed = st.meta.completed) ∧
       (u.subtasks = none → (task_update st u now).subtasks = st.subtasks) ∧
       (task_update st u now).meta.created = st.meta.created ∧
       (task_update st u now).meta.updated = some now ∧
       (∀ p, u.progress = some p →
          (task_update st u now).meta.progress = some (max 0 (min 1 p)))) := by
  constructor
  · intro files id u now h
    simp [task_update_file, h]
  · intro st u now
    have hclamp : ∀ p, u.progress = some p →
        (task_update st u now).meta.progress = some (max 0 (min 1 p)) := by
      intro p hp
      simp [task_update, hp]
    refine ⟨?_, ?_, ?_, ?_, ?_, ?_, ?_, ?_, ?_, rfl, rfl, hclamp⟩ <;>
      intro h <;> simp [task_update, h]

/-- Witness for C8 at concrete inputs: not-found on an empty directory, and
frame preservation under an update supplying only `completed`. -/
theorem task_update_frame_witness :
    task_update_file [] ("t") updOnlyCompleted ("T2") = .error (.taskNotFound ("t")) ∧
    (task_update stProg0 updOnlyCompleted ("T2")).name = stProg0.name ∧
    (task_update stProg0 updOnlyCompleted ("T2")).meta.progress = stProg0.meta.progress ∧
    (task_update stProg0 updOnlyCompleted ("T2")).meta.updated = some ("T2") := by
  obtain ⟨hnf, hfields⟩ := task_update_frame
  obtain ⟨h1, h2, h3, h4, h5, h6, h7, h8, h9, h10, h11, h12⟩ :=
    hfields stProg0 updOnlyCompleted ("T2")
  exact ⟨hnf [] ("t") updOnlyCompleted ("T2") rfl, h1 rfl, h6 rfl, h11⟩

/-! ## C9: no raw fault escapes an entry point -/

/-- Every invocation of `ctrl_add_task` is fault-free. -/
theorem ctrl_add_task_ok (fs : FS) (a : AddArgs) (now : String) :
    ∃ v, ctrl_add_task fs a now = .ok v := by
  unfold ctrl_add_task
  cases fs.board with
  | none => exact ⟨_, rfl⟩
  | some b => exact ⟨_, rfl⟩

/-- The batch loop is fault-free because each `add_task` call it makes is. -/
theorem batch_go_ok :
    ∀ (specs : List BatchSpec) (fs : FS) (defCol now : String)
      (acc : List String × Nat), isOkE (batch_go fs specs defCol now acc) = true := by
  intro specs
  induction specs with
  | nil => intro fs defCol now acc; rfl
  | cons sp rest ih =>
    intro fs defCol now acc
    unfold batch_go
    cases hn : sp.name with
    | none => exact ih fs defCol now _
    | some n =>
      by_cases he : n.isEmpty = true
      · simp only [he, if_true]
        exact ih fs defCol now _
      · simp only [he, Bool.false_eq_true, if_false]
        obtain ⟨v, hv⟩ := ctrl_add_task_ok fs
          { name := n, description := sp.description,
            column := sp.column.getD defCol, tags := sp.tags,
            assigned := sp.assigned, due := sp.due, subtasks := sp.subtasks } now
        rw [hv]
        show isOkE (Except.bind (Except.ok v) _) = true
        rw [Except.bind]
        cases v.2 with
        | ok tid => exact ih v.1 defCol now _
        | error e => exact ih v.1 defCol now _

/-- Claim C9: every collaborator-facing entry point (create-board,
get-board-status, add-task, move-task, update-task, get-task, delete-task,
add-column, reorder-tasks, batch-add-tasks) returns its discriminated
success/failure result; the raw-fault layer is always `ok`. -/
theorem entry_points_no_fault :
    (∀ fs n d c, isOkE (ctrl_init_board fs n d c) = true) ∧
    (∀ fs, isOkE (ctrl_get_board_status fs) = true) ∧
    (∀ fs a now, isOkE (ctrl_add_task fs a now) = true) ∧
    (∀ fs t c now, isOkE (ctrl_move_task fs t c now) = true) ∧
    (∀ fs t u now, isOkE (ctrl_update_task fs t u now) = true) ∧
    (∀ fs t, isOkE (ctrl_get_task fs t) = true) ∧
    (∀ fs t, isOkE (ctrl_delete_task fs t) = true) ∧
    (∀ fs c p, isOkE (ctrl_add_column fs c p) = true) ∧
    (∀ fs c ids, isOkE (ctrl_reorder_tasks fs c ids) = true) ∧
    (∀ fs specs d now, isOkE (ctrl_batch_add_tasks fs specs d now) = true) := by
  refine ⟨?_, ?_, ?_, ?_, ?_, ?_, ?_, ?_, ?_, ?_⟩
  · intro fs n d c
    unfold ctrl_init_board
    cases fs.board <;> rfl
  · intro fs
    unfold ctrl_get_board_status
    cases fs.board <;> rfl
  · intro fs a now
    obtain ⟨v, hv⟩ := ctrl_add_task_ok fs a now
    rw [hv]
    rfl
  · intro fs t c now
    unfold ctrl_move_task
    cases fs.board <;> rfl
  · intro fs t u now
    unfold ctrl_update_task
    cases fs.board <;> rfl
  · intro fs t
    unfold ctrl_get_task
    cases fs.board with
    | none => rfl
    | some b =>
      cases t with
      | none => rfl
      | some tid =>
        cases hm : fileGet fs.files tid with
        | none => simp [hm, isOkE]
        | some st => simp [hm, isOkE]
  · intro fs t
    unfold ctrl_delete_task
    cases fs.board <;> rfl
  · intro fs c p
    unfold ctrl_add_column
    cases fs.board with
    | none => rfl
    | some b =>
      by_cases h : c ∈ colKeys b.columns <;> simp [h, isOkE]
  · intro fs c ids
    unfold ctrl_reorder_tasks
    cases fs.board <;> rfl
  · intro fs specs d now
    exact batch_go_ok specs fs d now ([], 0)

/-! ## Codec lemmas: lines -/

theorem splitLines_ne_nil (s : List Char) : splitLines s ≠ [] := by
  cases s with
  | nil => simp [splitLines]
  | cons c t =>
    by_cases h : c = nl
    · simp [splitLines, h]
    · simp only [splitLines, h, if_false]
      cases hm : splitLines t <;> simp

theorem noNl_mem_splitLines :
    ∀ (s : List Char), ∀ L ∈ splitLines s, nl ∉ L := by
  intro s
  induction s with
  | nil =>
    intro L hL
    simp [splitLines] at hL
    subst hL
    simp
  | cons c t ih =>
    intro L hL
    by_cases h : c = nl
    · subst h
      simp only [splitLines, if_pos rfl] at hL
      rcases List.mem_cons.mp hL with h1 | h1
      · subst h1; simp
      · exact ih L h1
    · simp only [splitLines, h, if_false] at hL
      cases hm : splitLines t with
      | nil => exact absurd hm (splitLines_ne_nil t)
      | cons h0 r0 =>
        rw [hm] at hL
        rcases List.mem_cons.mp hL with h1 | h1
        · subst h1
          intro hmem
          rcases List.mem_cons.mp hmem with h2 | h2
          · exact h h2.symm
          · exact (ih h0 (hm ▸ List.mem_cons_self h0 r0)) h2
        · exact ih L (hm ▸ List.mem_cons_of_mem h0 h1)

theorem splitLines_append_nl (A B : List Char) :
    splitLines (A ++ nl :: B) = splitLines A ++ splitLines B := by
  induction A with
  | nil => simp [splitLines]
  | cons c A' ih =>
    by_cases h : c = nl
    · subst h
      show splitLines (nl :: (A' ++ nl :: B)) = splitLines (nl :: A') ++ splitLines B
      simp only [splitLines, if_pos rfl]
      rw [ih]
      rfl
    · show splitLines (c :: (A' ++ nl :: B)) = splitLines (c :: A') ++ splitLines B
      simp only [splitLines, h, if_false]
      rw [ih]
      cases hm : splitLines A' with
      | nil => exact absurd hm (splitLines_ne_nil A')
      | cons h0 r0 => simp

theorem splitLines_noNl (L : List Char) (h : nl ∉ L) : splitLines L = [L] := by
  induction L with
  | nil => rfl
  | cons c t ih =>
    have hc : ¬ c = nl := fun he => h (he ▸ List.mem_cons_self c t)
    have ht : nl ∉ t := fun hm => h (List.mem_cons_of_mem c hm)
    simp only [splitLines, hc, if_false, ih ht]

theorem joinNl_cons (l : List Char) (ls : List (List Char)) (h : ls ≠ []) :
    joinNl (l :: ls) = l ++ nl :: joinNl ls := by
  cases ls with
  | nil => exact absurd rfl h
  | cons a b => rfl

theorem joinNl_splitLines (s : List Char) : joinNl (splitLines s) = s := by
  induction s with
  | nil => rfl
  | cons c t ih =>
    by_cases h : c = nl
    · subst h
      have hs : splitLines (nl :: t) = [] :: splitLines t := by
        simp [splitLines]
      rw [hs, joinNl_cons [] (splitLines t) (splitLines_ne_nil t)]
      rw [ih]
      rfl
    · simp only [splitLines, h, if_false]
      cases hm : splitLines t with
      | nil => exact absurd hm (splitLines_ne_nil t)
      | cons h0 r0 =>
        have ht : joinNl (h0 :: r0) = t := by rw [← hm]; exact ih
        cases r0 with
        | nil =>
          show joinNl [c :: h0] = c :: t
          show c :: h0 = c :: t
          rw [show joinNl [h0] = h0 from rfl] at ht
          rw [ht]
        | cons h1 r1 =>
          show (c :: h0) ++ nl :: joinNl (h1 :: r1) = c :: t
          rw [joinNl_cons h0 (h1 :: r1) (by simp)] at ht
          rw [← ht]
          rfl

theorem splitLines_joinNl_flat :
    ∀ (Ls : List (List Char)), Ls ≠ [] →
      splitLines (joinNl Ls) = Ls.flatMap splitLines := by
  intro Ls
  induction Ls with
  | nil => intro h; exact absurd rfl h
  | cons l ls ih =>
    intro _
    cases ls with
    | nil => simp [joinNl]
    | cons a b =>
      rw [joinNl_cons l (a :: b) (by simp), splitLines_append_nl, ih (by simp)]
      simp

theorem flatMap_splitLines_id :
    ∀ (Ls : List (List Char)), (∀ L ∈ Ls, nl ∉ L) → Ls.flatMap splitLines = Ls := by
  intro Ls
  induction Ls with
  | nil => intro _; rfl
  | cons l ls ih =>
    intro h
    have h1 := splitLines_noNl l (h l (List.mem_cons_self l ls))
    have h2 := ih fun L hL => h L (List.mem_cons_of_mem l hL)
    simp [h1, h2]

theorem splitLines_joinNl_noNl (Ls : List (List Char)) (h0 : Ls ≠ [])
    (h : ∀ L ∈ Ls, nl ∉ L) : splitLines (joinNl Ls) = Ls := by
  rw [splitLines_joinNl_flat Ls h0, flatMap_splitLines_id Ls h]

/-! ## Codec lemmas: stripping -/

theorem lstripWS_cons_nonws {c : Char} (h : isWS c = false) (l : List Char) :
    lstripWS (c :: l) = c :: l := by
  simp [lstripWS, List.dropWhile_cons, h]

theorem lstripWS_cons_ws {c : Char} (h : isWS c = true) (l : List Char) :
    lstripWS (c :: l) = lstripWS l := by
  simp [lstripWS, List.dropWhile_cons, h]

theorem lstripWS_head :
    ∀ (l : List Char) (c : Char) (t : List Char),
      lstripWS l = c :: t → isWS c = false := by
  intro l
  induction l with
  | nil => intro c t h; simp [lstripWS] at h
  | cons a l' ih =>
    intro c t h
    by_cases ha : isWS a = true
    · rw [lstripWS_cons_ws ha] at h
      exact ih c t h
    · have ha' : isWS a = false := by simpa using ha
      rw [lstripWS_cons_nonws ha'] at h
      have hac : a = c := by injection h
      exact hac ▸ ha'

theorem lstripWS_idem (l : List Char) : lstripWS (lstripWS l) = lstripWS l := by
  cases hm : lstripWS l with
  | nil => rfl
  | cons c t => exact lstripWS_cons_nonws (lstripWS_head l c t hm) t

theorem lstripWS_eq_nil (l : List Char) (h : allWS l) : lstripWS l = [] := by
  induction l with
  | nil => rfl
  | cons c t ih =>
    rw [lstripWS_cons_ws (h c (List.mem_cons_self c t))]
    exact ih fun x hx => h x (List.mem_cons_of_mem c hx)

theorem allWS_of_lstripWS_nil : ∀ (l : List Char), lstripWS l = [] → allWS l := by
  intro l
  induction l with
  | nil => intro _ c hc; simp at hc
  | cons a t ih =>
    intro h c hc
    by_cases ha : isWS a = true
    · rw [lstripWS_cons_ws ha] at h
      rcases List.mem_cons.mp hc with h1 | h1
      · subst h1; exact ha
      · exact ih h c h1
    · rw [lstripWS_cons_nonws (by simpa using ha)] at h
      exact absurd h (List.cons_ne_nil _ _)

theorem lstripWS_append_of_ne (x w : List Char) (h : lstripWS x ≠ []) :
    lstripWS (x ++ w) = lstripWS x ++ w := by
  induction x with
  | nil => exact absurd rfl h
  | cons a x' ih =>
    by_cases ha : isWS a = true
    · rw [lstripWS_cons_ws ha] at h
      show lstripWS (a :: (x' ++ w)) = lstripWS (a :: x') ++ w
      rw [lstripWS_cons_ws ha, lstripWS_cons_ws ha]
      exact ih h
    · have ha' : isWS a = false := by simpa using ha
      show lstripWS (a :: (x' ++ w)) = lstripWS (a :: x') ++ w
      rw [lstripWS_cons_nonws ha', lstripWS_cons_nonws ha']
      rfl

theorem rstripWS_allws (l : List Char) (h : allWS l) : rstripWS l = [] := by
  induction l with
  | nil => rfl
  | cons c t ih =>
    have ht := ih fun x hx => h x (List.mem_cons_of_mem c hx)
    simp only [rstripWS, ht]
    simp [h c (List.mem_cons_self c t)]

theorem allWS_of_rstripWS_nil : ∀ (l : List Char), rstripWS l = [] → allWS l := by
  intro l
  induction l with
  | nil => intro _ c hc; simp at hc
  | cons c t ih =>
    intro h x hx
    simp only [rstripWS] at h
    split at h
    next hcond =>
      simp only [Bool.and_eq_true, List.isEmpty_iff] at hcond
      rcases List.mem_cons.mp hx with h1 | h1
      · subst h1; exact hcond.2
      · exact ih hcond.1 x h1
    next => exact absurd h (List.cons_ne_nil _ _)

theorem rstripWS_append (y : List Char) (hy : rstripWS y ≠ []) :
    ∀ (x : List Char), rstripWS (x ++ y) = x ++ rstripWS y := by
  intro x
  induction x with
  | nil => simp
  | cons a x' ih =>
    show rstripWS (a :: (x' ++ y)) = a :: (x' ++ rstripWS y)
    simp only [rstripWS]
    rw [ih]
    split
    next hcond =>
      simp only [Bool.and_eq_true, List.isEmpty_iff] at hcond
      exact absurd (List.append_eq_nil.mp hcond.1).2 hy
    next => rfl

theorem rstripWS_append_allws (w : List Char) (hw : allWS w) :
    ∀ (x : List Char), rstripWS (x ++ w) = rstripWS x := by
  intro x
  induction x with
  | nil => simpa using rstripWS_allws w hw
  | cons a x' ih =>
    show rstripWS (a :: (x' ++ w)) = rstripWS (a :: x')
    simp only [rstripWS, ih]

theorem rstripWS_idem (l : List Char) : rstripWS (rstripWS l) = rstripWS l := by
  induction l with
  | nil => rfl
  | cons c t ih =>
    simp only [rstripWS]
    split
    next => rfl
    next hcond =>
      simp only [rstripWS, ih]
      rw [if_neg]
      intro hcon
      exact hcond (by simpa using hcon)

theorem rstripWS_suffix (x y : List Char) (h : rstripWS (x ++ y) = x ++ y) :
    rstripWS y = y := by
  induction x with
  | nil => exact h
  | cons a x' ih =>
    apply ih
    have h' : rstripWS (a :: (x' ++ y)) = a :: (x' ++ y) := h
    simp only [rstripWS] at h'
    split at h'
    next => exact absurd h'.symm (List.cons_ne_nil _ _)
    next =>
      have := h'
      injection this

theorem rstripWS_decomp (l : List Char) :
    ∃ w, l = rstripWS l ++ w ∧ allWS w := by
  induction l with
  | nil => exact ⟨[], rfl, fun c hc => absurd hc (List.not_mem_nil c)⟩
  | cons c t ih =>
    obtain ⟨w, hw1, hw2⟩ := ih
    simp only [rstripWS]
    split
    next hcond =>
      simp only [Bool.and_eq_true, List.isEmpty_iff] at hcond
      refine ⟨c :: t, rfl, ?_⟩
      intro x hx
      rcases List.mem_cons.mp hx with h1 | h1
      · subst h1; exact hcond.2
      · exact allWS_of_rstripWS_nil t hcond.1 x h1
    next =>
      refine ⟨w, ?_, hw2⟩
      show c :: t = c :: (rstripWS t ++ w)
      rw [← hw1]

theorem stripStable_strip (l : List Char) : stripStable (strip l) := by
  constructor
  · show lstripWS (rstripWS (lstripWS l)) = rstripWS (lstripWS l)
    cases hm : rstripWS (lstripWS l) with
    | nil => rfl
    | cons c t =>
      obtain ⟨w, hw1, _⟩ := rstripWS_decomp (lstripWS l)
      rw [hm] at hw1
      have hc : isWS c = false := lstripWS_head l c (t ++ w) (by rw [hw1]; rfl)
      exact lstripWS_cons_nonws hc t
  · show rstripWS (rstripWS (lstripWS l)) = rstripWS (lstripWS l)
    exact rstripWS_idem _

theorem strip_eq_self (l : List Char) (h : stripStable l) : strip l = l := by
  show rstripWS (lstripWS l) = l
  rw [h.1, h.2]

theorem strip_idem (l : List Char) : strip (strip l) = strip l :=
  strip_eq_self _ (stripStable_strip l)

theorem mem_rstripWS (c : Char) (l : List Char) (h : c ∈ rstripWS l) : c ∈ l := by
  obtain ⟨w, hw1, _⟩ := rstripWS_decomp l
  rw [hw1]
  exact List.mem_append_left _ h

theorem mem_lstripWS (c : Char) (l : List Char) (h : c ∈ lstripWS l) : c ∈ l := by
  rw [← List.takeWhile_append_dropWhile (fun c => isWS c) l]
  exact List.mem_append_right _ h

theorem mem_strip (c : Char) (l : List Char) (h : c ∈ strip l) : c ∈ l :=
  mem_lstripWS c l (mem_rstripWS c (lstripWS l) h)

theorem strip_cons_ws (c : Char) (l : List Char) (h : isWS c = true) :
    strip (c :: l) = strip l := by
  show rstripWS (lstripWS (c :: l)) = rstripWS (lstripWS l)
  rw [lstripWS_cons_ws h]

theorem strip_append_allws (x w : List Char) (hw : allWS w) :
    strip (x ++ w) = strip x := by
  show rstripWS (lstripWS (x ++ w)) = rstripWS (lstripWS x)
  cases hm : lstripWS x with
  | nil =>
    have hx : allWS x := allWS_of_lstripWS_nil x hm
    have hxw : allWS (x ++ w) := by
      intro c hc
      rcases List.mem_append.mp hc with h1 | h1
      · exact hx c h1
      · exact hw c h1
    rw [lstripWS_eq_nil _ hxw]
  | cons c t =>
    have h1 : lstripWS (x ++ w) = (c :: t) ++ w := by
      rw [lstripWS_append_of_ne x w (by rw [hm]; exact List.cons_ne_nil _ _), hm]
    rw [h1, rstripWS_append_allws w hw]

theorem allWS_strip_nil (l : List Char) (h : allWS l) : strip l = [] := by
  show rstripWS (lstripWS l) = []
  rw [lstripWS_eq_nil l h]
  rfl

theorem strip_ne_nil (r : List Char) (h1 : rstripWS r = r) (h2 : r ≠ []) :
    strip r ≠ [] := by
  intro hs
  have h3 : allWS (lstripWS r) := allWS_of_rstripWS_nil _ hs
  have h4 : allWS r := by
    intro c hc
    rw [← List.takeWhile_append_dropWhile (fun c => isWS c) r] at hc
    rcases List.mem_append.mp hc with h5 | h5
    · exact List.mem_takeWhile_imp h5
    · exact h3 c h5
  rw [rstripWS_allws r h4] at h1
  exact h2 h1.symm

theorem strip_stable_append (c : Char) (t y : List Char) (hc : isWS c = false)
    (hy : rstripWS y = y) (hne : y ≠ []) :
    strip ((c :: t) ++ y) = (c :: t) ++ y := by
  show rstripWS (lstripWS (c :: (t ++ y))) = _
  rw [lstripWS_cons_nonws hc]
  have h1 : rstripWS ((c :: t) ++ y) = (c :: t) ++ rstripWS y :=
    rstripWS_append y (by rw [hy]; exact hne) (c :: t)
  show rstripWS ((c :: t) ++ y) = (c :: t) ++ y
  rw [h1, hy]

/-! ## Codec lemmas: heading freedom survives stripping -/

theorem mem_joinNl :
    ∀ (Ls : List (List Char)) (L : List Char), L ∈ Ls → ∀ c ∈ L, c ∈ joinNl Ls := by
  intro Ls
  induction Ls with
  | nil => intro L hL; simp at hL
  | cons l ls ih =>
    intro L hL c hc
    cases ls with
    | nil =>
      rcases List.mem_cons.mp hL with h1 | h1
      · subst h1; exact hc
      · simp at h1
    | cons a b =>
      rw [joinNl_cons l (a :: b) (by simp)]
      rcases List.mem_cons.mp hL with h1 | h1
      · subst h1; exact List.mem_append_left _ hc
      · exact List.mem_append_right _ (List.mem_cons_of_mem _ (ih L h1 c hc))

theorem mem_of_mem_splitLines (s L : List Char) (hL : L ∈ splitLines s) :
    ∀ c ∈ L, c ∈ s := by
  intro c hc
  rw [← joinNl_splitLines s]
  exact mem_joinNl _ L hL c hc

theorem split_at_first_nl :
    ∀ (s : List Char), nl ∈ s →
      ∃ A B, s = A ++ nl :: B ∧ nl ∉ A ∧ B.length < s.length := by
  intro s
  induction s with
  | nil => intro h; simp at h
  | cons c t ih =>
    intro h
    by_cases hc : c = nl
    · subst hc
      exact ⟨[], t, rfl, by simp, by simp⟩
    · have ht : nl ∈ t := by
        rcases List.mem_cons.mp h with h1 | h1
        · exact absurd h1.symm hc
        · exact h1
      obtain ⟨A, B, h1, h2, h3⟩ := ih ht
      refine ⟨c :: A, B, by rw [h1]; rfl, ?_, ?_⟩
      · intro hm
        rcases List.mem_cons.mp hm with h4 | h4
        · exact hc h4.symm
        · exact h2 h4
      · simpa using Nat.lt_succ_of_lt h3

theorem strip_transfer_left :
    ∀ (w : List Char), allWS w → ∀ (s : List Char), ∀ L' ∈ splitLines s,
      ∃ L ∈ splitLines (w ++ s), strip L' = strip L := by
  intro w
  induction w with
  | nil =>
    intro _ s L' h
    exact ⟨L', by simpa using h, rfl⟩
  | cons c w' ih =>
    intro hw s L' hL'
    have hc : isWS c = true := hw c (List.mem_cons_self c w')
    have hw' : allWS w' := fun x hx => hw x (List.mem_cons_of_mem c hx)
    obtain ⟨L, hL, he⟩ := ih hw' s L' hL'
    by_cases hcn : c = nl
    · subst hcn
      refine ⟨L, ?_, he⟩
      show L ∈ splitLines (nl :: (w' ++ s))
      have hstep : splitLines (nl :: (w' ++ s)) = [] :: splitLines (w' ++ s) := by
        simp [splitLines]
      rw [hstep]
      exact List.mem_cons_of_mem _ hL
    · cases hm : splitLines (w' ++ s) with
      | nil => exact absurd hm (splitLines_ne_nil _)
      | cons h0 r0 =>
        have hstep : splitLines (c :: (w' ++ s)) = (c :: h0) :: r0 := by
          simp only [splitLines, hcn, if_false, hm]
        rw [hm] at hL
        rcases List.mem_cons.mp hL with h1 | h1
        · refine ⟨c :: h0, ?_, ?_⟩
          · show c :: h0 ∈ splitLines (c :: (w' ++ s))
            rw [hstep]
            exact List.mem_cons_self _ _
          · rw [he, h1, strip_cons_ws c h0 hc]
        · refine ⟨L, ?_, he⟩
          show L ∈ splitLines (c :: (w' ++ s))
          rw [hstep]
          exact List.mem_cons_of_mem _ h1

theorem strip_transfer_right :
    ∀ (n : Nat) (s w : List Char), s.length ≤ n → allWS w →
      ∀ L' ∈ splitLines s, ∃ L ∈ splitLines (s ++ w), strip L' = strip L := by
  intro n
  induction n with
  | zero =>
    intro s w hlen hw L' hL'
    have hs : s = [] := List.length_eq_zero.mp (Nat.le_zero.mp hlen)
    subst hs
    simp [splitLines] at hL'
    subst hL'
    cases hm : splitLines w with
    | nil => exact absurd hm (splitLines_ne_nil w)
    | cons h0 r0 =>
      refine ⟨h0, ?_, ?_⟩
      · show h0 ∈ splitLines w
        rw [hm]
        exact List.mem_cons_self _ _
      · have hall : allWS h0 := fun c hc =>
          hw c (mem_of_mem_splitLines w h0 (hm ▸ List.mem_cons_self h0 r0) c hc)
        rw [show strip ([] : List Char) = [] from rfl, allWS_strip_nil h0 hall]
  | succ n ih =>
    intro s w hlen hw L' hL'
    by_cases hnl : nl ∈ s
    · obtain ⟨A, B, hAB, hA, hlt⟩ := split_at_first_nl s hnl
      subst hAB
      rw [splitLines_append_nl, splitLines_noNl A hA] at hL'
      have hshape : (A ++ nl :: B) ++ w = A ++ nl :: (B ++ w) := by simp
      rcases List.mem_cons.mp hL' with h1 | h1
      · subst h1
        refine ⟨L', ?_, rfl⟩
        rw [hshape, splitLines_append_nl, splitLines_noNl L' hA]
        exact List.mem_cons_self _ _
      · have hlen' : B.length ≤ n := by
          have := Nat.lt_of_lt_of_le hlt hlen
          omega
        obtain ⟨L, hL, he⟩ := ih B w hlen' hw L' h1
        refine ⟨L, ?_, he⟩
        rw [hshape, splitLines_append_nl, splitLines_noNl A hA]
        exact List.mem_cons_of_mem _ hL
    · rw [splitLines_noNl s hnl] at hL'
      have hL's : L' = s := by simpa using hL'
      subst hL's
      by_cases hwn : nl ∈ w
      · obtain ⟨A, B, hAB, hA, _⟩ := split_at_first_nl w hwn
        have hallA : allWS A := fun c hc =>
          hw c (by rw [hAB]; exact List.mem_append_left _ hc)
        refine ⟨L' ++ A, ?_, (strip_append_allws L' A hallA).symm⟩
        have hshape : L' ++ w = (L' ++ A) ++ nl :: B := by rw [hAB]; simp
        rw [hshape, splitLines_append_nl, splitLines_noNl (L' ++ A) ?_]
        · exact List.mem_cons_self _ _
        · intro hm
          rcases List.mem_append.mp hm with h2 | h2
          · exact hnl h2
          · exact hA h2
      · refine ⟨L' ++ w, ?_, (strip_append_allws L' w hw).symm⟩
        rw [splitLines_noNl (L' ++ w) ?_]
        · exact List.mem_cons_self _ _
        · intro hm
          rcases List.mem_append.mp hm with h2 | h2
          · exact hnl h2
          · exact hwn h2

theorem headingFree_strip (s : List Char)
    (h : ∀ L ∈ splitLines s, isHeading L = false) :
    ∀ L ∈ splitLines (strip s), isHeading L = false := by
  intro L' hL'
  obtain ⟨w, hw1, hw2⟩ := rstripWS_decomp (lstripWS s)
  obtain ⟨L1, hL1, he1⟩ :=
    strip_transfer_right (strip s).length (strip s) w (le_refl _) hw2 L' hL'
  have hss : strip s ++ w = lstripWS s := by
    show rstripWS (lstripWS s) ++ w = lstripWS s
    rw [← hw1]
  rw [hss] at hL1
  have hdecl : s = s.takeWhile (fun c => isWS c) ++ lstripWS s :=
    (List.takeWhile_append_dropWhile (fun c => isWS c) s).symm
  have htw : allWS (s.takeWhile (fun c => isWS c)) := fun c hc =>
    List.mem_takeWhile_imp hc
  obtain ⟨L2, hL2, he2⟩ := strip_transfer_left _ htw (lstripWS s) L1 hL1
  rw [← hdecl] at hL2
  have hfin := h L2 hL2
  unfold isHeading at hfin ⊢
  rw [he1, he2]
  exact hfin

/-! ## Codec lemmas: fence location -/

theorem findFence_cons_none (a : Char) (rest : List Char)
    (h : findFence (a :: rest) = none) :
    ¬(a = '-' ∧ rest.take 2 = ['-', '-']) ∧ findFence rest = none := by
  by_cases hc : a = '-' ∧ rest.take 2 = ['-', '-']
  · have hstep : findFence (a :: rest) = some ([], rest.drop 2) := by
      simp [findFence, hc]
    rw [hstep] at h
    exact absurd h (by simp)
  · refine ⟨hc, ?_⟩
    simp only [findFence, if_neg hc] at h
    exact Option.map_eq_none'.mp h

theorem findFence_locate :
    ∀ (A : List Char), findFence (A ++ ['-', '-']) = none →
      ∀ (B : List Char), findFence (A ++ ('-' :: '-' :: '-' :: B)) = some (A, B) := by
  intro A
  induction A with
  | nil =>
    intro _ B
    show findFence ('-' :: '-' :: '-' :: B) = some ([], B)
    simp [findFence]
  | cons a A' ih =>
    intro h B
    rw [List.cons_append] at h
    have hsplit := findFence_cons_none a (A' ++ ['-', '-']) h
    have htake : (A' ++ ['-', '-']).take 2 = (A' ++ ('-' :: '-' :: '-' :: B)).take 2 := by
      cases A' with
      | nil => rfl
      | cons x A'' =>
        cases A'' with
        | nil => rfl
        | cons y A''' => rfl
    have hc2 : ¬(a = '-' ∧ (A' ++ ('-' :: '-' :: '-' :: B)).take 2 = ['-', '-']) := by
      intro hx
      exact hsplit.1 ⟨hx.1, htake ▸ hx.2⟩
    show findFence (a :: (A' ++ ('-' :: '-' :: '-' :: B))) = some (a :: A', B)
    simp only [findFence, if_neg hc2]
    rw [ih hsplit.2 B]
    rfl

theorem rstripNl_snoc_nl (x : List Char) : rstripNl (x ++ [nl]) = rstripNl x := by
  induction x with
  | nil => rfl
  | cons a x' ih =>
    show rstripNl (a :: (x' ++ [nl])) = rstripNl (a :: x')
    simp only [rstripNl]
    rw [ih]

theorem rstripNl_append (y : List Char) (hy : rstripNl y ≠ []) :
    ∀ (x : List Char), rstripNl (x ++ y) = x ++ rstripNl y := by
  intro x
  induction x with
  | nil => simp
  | cons a x' ih =>
    show rstripNl (a :: (x' ++ y)) = a :: (x' ++ rstripNl y)
    simp only [rstripNl]
    rw [ih]
    split
    next hcond =>
      simp only [Bool.and_eq_true, List.isEmpty_iff, decide_eq_true_eq] at hcond
      exact absurd (List.append_eq_nil.mp hcond.1).2 hy
    next => rfl

theorem rstripNl_build {Y : Type} (ydump : Y → List Char) (y : Y) :
    rstripNl (build_frontmatter ydump y) = fence ++ nl :: (ydump y ++ fence) := by
  unfold build_frontmatter
  have h1 : fence ++ nl :: (ydump y ++ fence ++ [nl]) =
      (fence ++ nl :: (ydump y ++ fence)) ++ [nl] := by simp
  rw [h1, rstripNl_snoc_nl]
  have h2 : fence ++ nl :: (ydump y ++ fence) = (fence ++ nl :: ydump y) ++ fence := by
    simp
  rw [h2, rstripNl_append fence (by decide) _]
  have h3 : rstripNl fence = fence := by decide
  rw [h3, ← h2]

/-! ## Codec lemmas: frontmatter of an encoded file -/

theorem joinNl_head_hash (t : List Char) (rest : List (List Char)) :
    ∃ u, joinNl (('#' :: t) :: rest) = '#' :: u := by
  cases rest with
  | nil => exact ⟨t, rfl⟩
  | cons a b => exact ⟨t ++ nl :: joinNl (a :: b), rfl⟩

theorem parse_frontmatter_encode_none {Y : Type} (yload : List Char → Option Y)
    (ydump : Y → List Char) (t : List Char) (rest : List (List Char)) :
    parse_frontmatter yload (encodeLines ydump none (('#' :: t) :: rest)) =
      (none, joinNl (('#' :: t) :: rest)) := by
  obtain ⟨u, hu⟩ := joinNl_head_hash t rest
  show parse_frontmatter yload (joinNl (('#' :: t) :: rest)) = _
  rw [hu]
  unfold parse_frontmatter
  rw [if_neg]
  intro hcon
  rw [show ('#' :: u).take 3 = '#' :: u.take 2 from rfl] at hcon
  have : '#' = '-' := by injection hcon
  exact absurd this (by decide)

theorem parse_frontmatter_eq {Y : Type} (yload : List Char → Option Y)
    (content A1 B1 A2 B2 : List Char)
    (ht : content.take 3 = fence)
    (h1 : findFence content = some (A1, B1))
    (h2 : findFence B1 = some (A2, B2)) :
    parse_frontmatter yload content = (yload A2, lstripNl B2) := by
  unfold parse_frontmatter
  rw [if_pos ht, h1]
  show (match findFence B1 with
        | some pr2 => (yload pr2.1, lstripNl pr2.2)
        | none => (none, content)) = (yload A2, lstripNl B2)
  rw [h2]

theorem parse_frontmatter_encode_some {Y : Type} (yload : List Char → Option Y)
    (ydump : Y → List Char) (y : Y) (t : List Char) (rest : List (List Char))
    (hload : yload (nl :: ydump y) = some y) (hsafe : fenceSafe (ydump y)) :
    parse_frontmatter yload (encodeLines ydump (some y) (('#' :: t) :: rest)) =
      (some y, joinNl (('#' :: t) :: rest)) := by
  obtain ⟨u, hu⟩ := joinNl_head_hash t rest
  have hcontent : encodeLines ydump (some y) (('#' :: t) :: rest) =
      fence ++ nl :: (ydump y ++ (fence ++ nl :: nl :: ('#' :: u))) := by
    show joinNl (rstripNl (build_frontmatter ydump y) :: [] ::
      ('#' :: t) :: rest) = _
    rw [rstripNl_build, joinNl_cons _ _ (by simp), joinNl_cons _ _ (by simp)]
    rw [show joinNl (('#' :: t) :: rest) = '#' :: u from hu]
    simp
  rw [hcontent]
  have htake : (fence ++ nl :: (ydump y ++ (fence ++ nl :: nl :: ('#' :: u)))).take 3 =
      fence := by
    rfl
  have hZ : fence ++ nl :: (ydump y ++ (fence ++ nl :: nl :: ('#' :: u))) =
      '-' :: '-' :: '-' :: ((nl :: ydump y) ++
        ('-' :: '-' :: '-' :: (nl :: nl :: ('#' :: u)))) := by
    simp [fence]
  have hf1 : findFence (fence ++ nl :: (ydump y ++ (fence ++ nl :: nl :: ('#' :: u)))) =
      some ([], (nl :: ydump y) ++ ('-' :: '-' :: '-' :: (nl :: nl :: ('#' :: u)))) := by
    rw [hZ]
    simp [findFence]
  have hsafe' : findFence ((nl :: ydump y) ++ ['-', '-']) = none := hsafe
  have hf2 : findFence ((nl :: ydump y) ++
      ('-' :: '-' :: '-' :: (nl :: nl :: ('#' :: u)))) =
      some (nl :: ydump y, nl :: nl :: ('#' :: u)) :=
    findFence_locate (nl :: ydump y) hsafe' (nl :: nl :: ('#' :: u))
  rw [parse_frontmatter_eq yload _ [] _ (nl :: ydump y) (nl :: nl :: ('#' :: u))
    htake hf1 hf2]
  rw [hload]
  have hl : lstripNl (nl :: nl :: ('#' :: u)) = '#' :: u := by
    show List.dropWhile (fun c => c = nl) (nl :: nl :: '#' :: u) = '#' :: u
    simp [List.dropWhile_cons]
    intro hx
    exact absurd hx (by decide)
  rw [hl, hu]

theorem parse_frontmatter_encode {Y : Type} (yload : List Char → Option Y)
    (ydump : Y → List Char) (meta : Option Y) (t : List Char)
    (rest : List (List Char))
    (h : ∀ y, meta = some y → yload (nl :: ydump y) = some y ∧ fenceSafe (ydump y)) :
    parse_frontmatter yload (encodeLines ydump meta (('#' :: t) :: rest)) =
      (meta, joinNl (('#' :: t) :: rest)) := by
  cases meta with
  | none => exact parse_frontmatter_encode_none yload ydump t rest
  | some y =>
    obtain ⟨h1, h2⟩ := h y rfl
    exact parse_frontmatter_encode_some yload ydump y t rest h1 h2

/-! ## Codec lemmas: task line steps -/

theorem take3_shape (L : List Char) (x y z : Char) (h : L.take 3 = [x, y, z]) :
    L = x :: y :: z :: L.drop 3 := by
  cases L with
  | nil => simp at h
  | cons a L1 =>
    cases L1 with
    | nil => simp [List.take] at h
    | cons b L2 =>
      cases L2 with
      | nil => simp [List.take] at h
      | cons c L3 =>
        have h' : [a, b, c] = [x, y, z] := h
        simp only [List.cons.injEq] at h'
        obtain ⟨h1, h2, h3, _⟩ := h'
        subst h1
        subst h2
        subst h3
        rfl

theorem strip_title (name : List Char) (h2 : rstripWS name = name) (hne : name ≠ []) :
    strip (['#', ' '] ++ name) = ['#', ' '] ++ name :=
  strip_stable_append '#' [' '] name (by decide) h2 hne

theorem taskStep_title (st : TState) (name : List Char) (h : stripStable name)
    (hne : name ≠ []) :
    taskStep st (['#', ' '] ++ name) =
      { st with name := name, sec := Sect.sDescr } := by
  unfold taskStep
  rw [strip_title name h.2 hne]
  rw [if_pos (show isH1 (['#', ' '] ++ name) = true from rfl)]
  rw [show (['#', ' '] ++ name).drop 2 = name from rfl, strip_eq_self name h]

theorem taskStep_title_empty (st : TState) (hsec : st.sec = Sect.sNone) :
    taskStep st ['#', ' '] = st := by
  unfold taskStep
  have h0 : strip ['#', ' '] = ['#'] := by decide
  rw [h0]
  rw [if_neg (show ¬ isH1 ['#'] = true by decide)]
  rw [if_neg (show ¬ isH2 ['#'] = true by decide)]
  rw [hsec]

theorem taskStep_blank (st : TState) :
    taskStep st [] =
      if st.sec = Sect.sDescr then { st with dls := st.dls ++ [[]] } else st := by
  unfold taskStep
  have h0 : strip ([] : List Char) = [] := rfl
  rw [h0]
  rw [if_neg (show ¬ isH1 [] = true by decide)]
  rw [if_neg (show ¬ isH2 [] = true by decide)]
  cases hsec : st.sec <;> simp [hsec] <;> (intro hx; exact absurd hx (by decide))

theorem taskStep_descr_line (st : TState) (hsec : st.sec = Sect.sDescr)
    (L : List Char) (hL : isHeading L = false) :
    taskStep st L = { st with dls := st.dls ++ [L] } := by
  unfold taskStep
  unfold isHeading at hL
  have h1 : isH1 (strip L) = false := by
    cases hor : isH1 (strip L)
    · rfl
    · rw [hor] at hL; simp at hL
  have h2 : isH2 (strip L) = false := by
    cases hor : isH2 (strip L)
    · rfl
    · rw [hor] at hL; simp at hL
  rw [if_neg (by simp [h1]), if_neg (by simp [h2]), hsec]

theorem foldl_descr (Ls : List (List Char)) :
    ∀ (st : TState), st.sec = Sect.sDescr → (∀ L ∈ Ls, isHeading L = false) →
      Ls.foldl taskStep st = { st with dls := st.dls ++ Ls } := by
  induction Ls with
  | nil => intro st _ _; simp
  | cons L Ls' ih =>
    intro st h hall
    rw [List.foldl_cons, taskStep_descr_line st h L (hall L (List.mem_cons_self _ _))]
    rw [ih { st with dls := st.dls ++ [L] } h
      (fun L' hL' => hall L' (List.mem_cons_of_mem _ hL'))]
    simp

theorem taskStep_subHeader (st : TState) :
    taskStep st (['#', '#', ' '] ++ subTasksTitle) = { st with sec := Sect.sSub } := by
  rfl

theorem taskStep_relHeader (st : TState) :
    taskStep st (['#', '#', ' '] ++ relationsTitle) = { st with sec := Sect.sRel } := by
  rfl

theorem taskStep_comHeader (st : TState) :
    taskStep st (['#', '#', ' '] ++ commentsTitle) = { st with sec := Sect.sCom } := by
  rfl

theorem parseSubLine_subLine (t : List Char) (b : Bool) (h : lstripWS t = t) :
    parseSubLine (subLine (t, b)) = (t, b) := by
  have hd : List.dropWhile (fun ch => isWS ch) (' ' :: t) = t := by
    have h2 := lstripWS_cons_ws (show isWS ' ' = true from by decide) t
    rw [h] at h2
    exact h2
  cases b
  · show (List.dropWhile (fun ch => isWS ch) (' ' :: t), false) = (t, false)
    exact congrArg (fun z => (z, false)) hd
  · show (List.dropWhile (fun ch => isWS ch) (' ' :: t), true) = (t, true)
    exact congrArg (fun z => (z, true)) hd

theorem strip_subLine (t : List Char) (b : Bool) (h : stripStable t) (hne : t ≠ []) :
    strip (subLine (t, b)) = subLine (t, b) := by
  cases b
  · exact strip_stable_append '-' [' ', '[', ' ', ']', ' '] t (by decide) h.2 hne
  · exact strip_stable_append '-' [' ', '[', 'x', ']', ' '] t (by decide) h.2 hne

theorem taskStep_subLine (st : TState) (hsec : st.sec = Sect.sSub) (t : List Char)
    (b : Bool) (h : stripStable t) :
    taskStep st (subLine (t, b)) = { st with subs := st.subs ++ [(t, b)] } := by
  by_cases hne : t = []
  · subst hne
    cases b
    · unfold taskStep
      have h0 : strip (subLine ([], false)) = ['-', ' ', '[', ' ', ']'] := by decide
      rw [h0]
      rw [if_neg (by decide), if_neg (by decide), hsec, if_pos (by decide)]
      rw [show parseSubLine ['-', ' ', '[', ' ', ']'] = ([], false) from by decide]
    · unfold taskStep
      have h0 : strip (subLine ([], true)) = ['-', ' ', '[', 'x', ']'] := by decide
      rw [h0]
      rw [if_neg (by decide), if_neg (by decide), hsec, if_pos (by decide)]
      rw [show parseSubLine ['-', ' ', '[', 'x', ']'] = ([], true) from by decide]
  · have hs := strip_subLine t b h hne
    have h1 : isH1 (subLine (t, b)) = false := by cases b <;> rfl
    have h2 : isH2 (subLine (t, b)) = false := by cases b <;> rfl
    have h3 : (subLine (t, b)).take 3 = dashBracket := by cases b <;> rfl
    unfold taskStep
    rw [hs]
    rw [if_neg (by simp [h1]), if_neg (by simp [h2]), hsec, if_pos h3]
    rw [parseSubLine_subLine t b h.1]

theorem foldl_subs (subs : List (List Char × Bool)) :
    ∀ (st : TState), st.sec = Sect.sSub → (∀ e ∈ subs, stripStable e.1) →
      (subs.map subLine).foldl taskStep st = { st with subs := st.subs ++ subs } := by
  induction subs with
  | nil => intro st _ _; simp
  | cons e subs' ih =>
    intro st h hall
    rw [List.map_cons, List.foldl_cons]
    rw [show subLine e = subLine (e.1, e.2) from rfl]
    rw [taskStep_subLine st h e.1 e.2 (hall e (List.mem_cons_self _ _))]
    rw [show ((e.1, e.2) : List Char × Bool) = e from rfl]
    rw [ih { st with subs := st.subs ++ [e] } h
      (fun x hx => hall x (List.mem_cons_of_mem _ hx))]
    simp

theorem taskStep_relLine (st : TState) (hsec : st.sec = Sect.sRel) (L : List Char)
    (h : stripStable L) (hpre : L.take 3 = dashBracket) :
    taskStep st L = { st with rels := st.rels ++ [L] } := by
  have hshape := take3_shape L '-' ' ' '[' hpre
  have hs : strip L = L := strip_eq_self L h
  have h1 : isH1 L = false := by rw [hshape]; rfl
  have h2 : isH2 L = false := by rw [hshape]; rfl
  unfold taskStep
  rw [hs]
  rw [if_neg (by simp [h1]), if_neg (by simp [h2])]
  simp [hsec, hpre]

theorem foldl_rels (rels : List (List Char)) :
    ∀ (st : TState), st.sec = Sect.sRel →
      (∀ L ∈ rels, stripStable L ∧ L.take 3 = dashBracket) →
      rels.foldl taskStep st = { st with rels := st.rels ++ rels } := by
  induction rels with
  | nil => intro st _ _; simp
  | cons L rels' ih =>
    intro st h hall
    obtain ⟨ha, hb⟩ := hall L (List.mem_cons_self _ _)
    rw [List.foldl_cons, taskStep_relLine st h L ha hb]
    rw [ih { st with rels := st.rels ++ [L] } h
      (fun x hx => hall x (List.mem_cons_of_mem _ hx))]
    simp

theorem taskStep_comLine (st : TState) (hsec : st.sec = Sect.sCom) (L : List Char)
    (h : stripStable L) (hpre : L.take 9 = authorTag) :
    taskStep st L = { st with coms := st.coms ++ [L] } := by
  have h3 : L.take 3 = ['-', ' ', 'a'] := by
    rw [show (3 : Nat) = min 3 9 from rfl, ← List.take_take, hpre]
    rfl
  have hshape := take3_shape L '-' ' ' 'a' h3
  have hs : strip L = L := strip_eq_self L h
  have h1 : isH1 L = false := by rw [hshape]; rfl
  have h2 : isH2 L = false := by rw [hshape]; rfl
  unfold taskStep
  rw [hs]
  rw [if_neg (by simp [h1]), if_neg (by simp [h2])]
  simp [hsec, hpre]

theorem foldl_coms (coms : List (List Char)) :
    ∀ (st : TState), st.sec = Sect.sCom →
      (∀ L ∈ coms, stripStable L ∧ L.take 9 = authorTag) →
      coms.foldl taskStep st = { st with coms := st.coms ++ coms } := by
  induction coms with
  | nil => intro st _ _; simp
  | cons L coms' ih =>
    intro st h hall
    obtain ⟨ha, hb⟩ := hall L (List.mem_cons_self _ _)
    rw [List.foldl_cons, taskStep_comLine st h L ha hb]
    rw [ih { st with coms := st.coms ++ [L] } h
      (fun x hx => hall x (List.mem_cons_of_mem _ hx))]
    simp

/-! ## Codec lemmas: task section chunks -/

theorem fold_sub_chunk (subs : List (List Char × Bool)) (st : TState)
    (h : ∀ e ∈ subs, stripStable e.1) :
    ((['#', '#', ' '] ++ subTasksTitle) :: [] :: (subs.map subLine ++ [[]])).foldl
        taskStep st = { st with sec := Sect.sSub, subs := st.subs ++ subs } := by
  rw [List.foldl_cons, taskStep_subHeader st]
  rw [List.foldl_cons, taskStep_blank { st with sec := Sect.sSub }]
  rw [if_neg (show ¬ ({ st with sec := Sect.sSub } : TState).sec = Sect.sDescr from
    by simp)]
  rw [List.foldl_append]
  rw [foldl_subs subs { st with sec := Sect.sSub } rfl h]
  rw [List.foldl_cons, taskStep_blank, if_neg (by simp), List.foldl_nil]

theorem fold_rel_chunk (rels : List (List Char)) (st : TState)
    (h : ∀ L ∈ rels, stripStable L ∧ L.take 3 = dashBracket) :
    ((['#', '#', ' '] ++ relationsTitle) :: [] :: (rels ++ [[]])).foldl
        taskStep st = { st with sec := Sect.sRel, rels := st.rels ++ rels } := by
  rw [List.foldl_cons, taskStep_relHeader st]
  rw [List.foldl_cons, taskStep_blank { st with sec := Sect.sRel }]
  rw [if_neg (show ¬ ({ st with sec := Sect.sRel } : TState).sec = Sect.sDescr from
    by simp)]
  rw [List.foldl_append]
  rw [foldl_rels rels { st with sec := Sect.sRel } rfl h]
  rw [List.foldl_cons, taskStep_blank, if_neg (by simp), List.foldl_nil]

theorem fold_com_chunk (coms : List (List Char)) (st : TState)
    (h : ∀ L ∈ coms, stripStable L ∧ L.take 9 = authorTag) :
    ((['#', '#', ' '] ++ commentsTitle) :: [] :: (coms ++ [[]])).foldl
        taskStep st = { st with sec := Sect.sCom, coms := st.coms ++ coms } := by
  rw [List.foldl_cons, taskStep_comHeader st]
  rw [List.foldl_cons, taskStep_blank { st with sec := Sect.sCom }]
  rw [if_neg (show ¬ ({ st with sec := Sect.sCom } : TState).sec = Sect.sDescr from
    by simp)]
  rw [List.foldl_append]
  rw [foldl_coms coms { st with sec := Sect.sCom } rfl h]
  rw [List.foldl_cons, taskStep_blank, if_neg (by simp), List.foldl_nil]

theorem fold_task_tail {Y : Type} (r : TaskRec Y) (st : TState)
    (hsub : ∀ e ∈ r.subtasks, stripStable e.1)
    (hrel : ∀ L ∈ r.relations, stripStable L ∧ L.take 3 = dashBracket)
    (hcom : ∀ L ∈ r.comments, stripStable L ∧ L.take 9 = authorTag) :
    ∃ sf,
      (((if r.subtasks = [] then []
         else (['#', '#', ' '] ++ subTasksTitle) :: [] ::
           (r.subtasks.map subLine ++ [[]])) ++
        (if r.relations = [] then []
         else (['#', '#', ' '] ++ relationsTitle) :: [] :: (r.relations ++ [[]])) ++
        (if r.comments = [] then []
         else (['#', '#', ' '] ++ commentsTitle) :: [] ::
           (r.comments ++ [[]]))) : List (List Char)).foldl taskStep st =
      { st with sec := sf, subs := st.subs ++ r.subtasks, rels := st.rels ++ r.relations, coms := st.coms ++ r.comments } := by
  by_cases hs : r.subtasks = [] <;> by_cases hr : r.relations = [] <;>
    by_cases hc : r.comments = []
  · exact ⟨st.sec, by simp [hs, hr, hc]⟩
  · refine ⟨Sect.sCom, ?_⟩
    rw [if_pos hs, if_pos hr, if_neg hc]
    simp only [List.nil_append]
    rw [fold_com_chunk r.comments st hcom]
    simp [hs, hr]
  · refine ⟨Sect.sRel, ?_⟩
    rw [if_pos hs, if_neg hr, if_pos hc]
    simp only [List.nil_append, List.append_nil]
    rw [fold_rel_chunk r.relations st hrel]
    simp [hs, hc]
  · refine ⟨Sect.sCom, ?_⟩
    rw [if_pos hs, if_neg hr, if_neg hc]
    simp only [List.nil_append]
    rw [List.foldl_append]
    rw [fold_rel_chunk r.relations st hrel]
    rw [fold_com_chunk r.comments _ hcom]
    simp [hs]
  · refine ⟨Sect.sSub, ?_⟩
    rw [if_neg hs, if_pos hr, if_pos hc]
    simp only [List.append_nil]
    rw [fold_sub_chunk r.subtasks st hsub]
    simp [hr, hc]
  · refine ⟨Sect.sCom, ?_⟩
    rw [if_neg hs, if_pos hr, if_neg hc]
    simp only [List.append_nil]
    rw [List.foldl_append]
    rw [fold_sub_chunk r.subtasks st hsub]
    rw [fold_com_chunk r.comments _ hcom]
    simp [hr]
  · refine ⟨Sect.sRel, ?_⟩
    rw [if_neg hs, if_neg hr, if_pos hc]
    simp only [List.append_nil]
    rw [List.foldl_append]
    rw [fold_sub_chunk r.subtasks st hsub]
    rw [fold_rel_chunk r.relations _ hrel]
    simp [hc]
  · refine ⟨Sect.sCom, ?_⟩
    rw [if_neg hs, if_neg hr, if_neg hc]
    rw [List.foldl_append, List.foldl_append]
    rw [fold_sub_chunk r.subtasks st hsub]
    rw [fold_rel_chunk r.relations _ hrel]
    rw [fold_com_chunk r.comments _ hcom]

/-! ## Codec lemmas: task round trip -/

theorem noNl_subLine (t : List Char) (b : Bool) (h : nl ∉ t) :
    nl ∉ subLine (t, b) := by
  intro hm
  cases b
  · have hm' : nl ∈ ('-' :: ' ' :: '[' :: ' ' :: ']' :: ' ' :: t) := hm
    simp only [List.mem_cons] at hm'
    rcases hm' with h1 | h1 | h1 | h1 | h1 | h1 | h1 <;>
      first
      | exact absurd h1 (by decide)
      | exact h h1
  · have hm' : nl ∈ ('-' :: ' ' :: '[' :: 'x' :: ']' :: ' ' :: t) := hm
    simp only [List.mem_cons] at hm'
    rcases hm' with h1 | h1 | h1 | h1 | h1 | h1 | h1 <;>
      first
      | exact absurd h1 (by decide)
      | exact h h1

theorem joinNl_append_last (Ls : List (List Char)) (x : List Char) (h : Ls ≠ []) :
    joinNl (Ls ++ [x]) = joinNl Ls ++ nl :: x := by
  induction Ls with
  | nil => exact absurd rfl h
  | cons l ls ih =>
    cases ls with
    | nil => rfl
    | cons a b =>
      rw [List.cons_append, joinNl_cons l ((a :: b) ++ [x]) (by simp)]
      rw [ih (by simp)]
      rw [joinNl_cons l (a :: b) (by simp)]
      simp

theorem taskBodyLines_flat {Y : Type} (r : TaskRec Y) (hInv : TRecInv r) :
    splitLines (joinNl (taskBodyLines r)) =
      [['#', ' '] ++ r.name, []] ++
      (if r.description = [] then [] else splitLines r.description ++ [[]]) ++
      ((if r.subtasks = [] then []
        else (['#', '#', ' '] ++ subTasksTitle) :: [] ::
          (r.subtasks.map subLine ++ [[]])) ++
       (if r.relations = [] then []
        else (['#', '#', ' '] ++ relationsTitle) :: [] :: (r.relations ++ [[]])) ++
       (if r.comments = [] then []
        else (['#', '#', ' '] ++ commentsTitle) :: [] ::
          (r.comments ++ [[]]))) := by
  obtain ⟨hname, hnn, hdstab, hdl, hsub, hrel, hcom⟩ := hInv
  have hne : taskBodyLines r ≠ [] := by
    unfold taskBodyLines
    intro h
    have := congrArg List.length h
    simp at this
  have htitle_nl : nl ∉ ['#', ' '] ++ r.name := by
    intro hm
    rcases List.mem_append.mp hm with h1 | h1
    · exact absurd h1 (by decide)
    · exact hnn h1
  have hfT : ([['#', ' '] ++ r.name, []] : List (List Char)).flatMap splitLines =
      [['#', ' '] ++ r.name, []] := by
    show splitLines (['#', ' '] ++ r.name) ++ (splitLines [] ++ []) =
      [['#', ' '] ++ r.name, []]
    rw [splitLines_noNl _ htitle_nl]
    rfl
  have hfD : (if r.description = [] then ([] : List (List Char))
      else [r.description, []]).flatMap splitLines =
      (if r.description = [] then [] else splitLines r.description ++ [[]]) := by
    by_cases hd0 : r.description = []
    · simp [hd0]
    · simp only [if_neg hd0]
      simp [splitLines]
  have hfS : (if r.subtasks = [] then ([] : List (List Char))
      else (['#', '#', ' '] ++ subTasksTitle) :: [] ::
        (r.subtasks.map subLine ++ [[]])).flatMap splitLines =
      (if r.subtasks = [] then []
       else (['#', '#', ' '] ++ subTasksTitle) :: [] ::
         (r.subtasks.map subLine ++ [[]])) := by
    by_cases hs0 : r.subtasks = []
    · simp [hs0]
    · simp only [if_neg hs0]
      apply flatMap_splitLines_id
      intro L hL
      rcases List.mem_cons.mp hL with h1 | h1
      · subst h1; decide
      rcases List.mem_cons.mp h1 with h2 | h2
      · subst h2; simp
      rcases List.mem_append.mp h2 with h3 | h3
      · obtain ⟨e, he, hLe⟩ := List.mem_map.mp h3
        subst hLe
        exact noNl_subLine e.1 e.2 (hsub e he).2
      · simp at h3
        subst h3
        simp
  have hfR : (if r.relations = [] then ([] : List (List Char))
      else (['#', '#', ' '] ++ relationsTitle) :: [] ::
        (r.relations ++ [[]])).flatMap splitLines =
      (if r.relations = [] then []
       else (['#', '#', ' '] ++ relationsTitle) :: [] :: (r.relations ++ [[]])) := by
    by_cases hr0 : r.relations = []
    · simp [hr0]
    · simp only [if_neg hr0]
      apply flatMap_splitLines_id
      intro L hL
      rcases List.mem_cons.mp hL with h1 | h1
      · subst h1; decide
      rcases List.mem_cons.mp h1 with h2 | h2
      · subst h2; simp
      rcases List.mem_append.mp h2 with h3 | h3
      · exact (hrel L h3).2.1
      · simp at h3
        subst h3
        simp
  have hfC : (if r.comments = [] then ([] : List (List Char))
      else (['#', '#', ' '] ++ commentsTitle) :: [] ::
        (r.comments ++ [[]])).flatMap splitLines =
      (if r.comments = [] then []
       else (['#', '#', ' '] ++ commentsTitle) :: [] :: (r.comments ++ [[]])) := by
    by_cases hc0 : r.comments = []
    · simp [hc0]
    · simp only [if_neg hc0]
      apply flatMap_splitLines_id
      intro L hL
      rcases List.mem_cons.mp hL with h1 | h1
      · subst h1; decide
      rcases List.mem_cons.mp h1 with h2 | h2
      · subst h2; simp
      rcases List.mem_append.mp h2 with h3 | h3
      · exact (hcom L h3).2.1
      · simp at h3
        subst h3
        simp
  rw [splitLines_joinNl_flat _ hne]
  unfold taskBodyLines
  rw [List.flatMap_append, List.flatMap_append, List.flatMap_append,
    List.flatMap_append]
  rw [hfT, hfD, hfS, hfR, hfC]
  simp [List.append_assoc]

theorem bodyDecodeT_encode {Y : Type} (r : TaskRec Y) (hInv : TRecInv r)
    (hval : r.name = [] → r.description = []) :
    ∃ sf, bodyDecodeT (splitLines (joinNl (taskBodyLines r))) =
      { name := r.name, sec := sf,
        dls := if r.name = [] then []
               else [] :: (if r.description = [] then []
                           else splitLines r.description ++ [[]]),
        subs := r.subtasks, rels := r.relations, coms := r.comments } := by
  obtain ⟨hname, hnn, hdstab, hdl, hsub, hrel, hcom⟩ := hInv
  have hsub' : ∀ e ∈ r.subtasks, stripStable e.1 := fun e he => (hsub e he).1
  have hrel' : ∀ L ∈ r.relations, stripStable L ∧ L.take 3 = dashBracket :=
    fun L hL => ⟨(hrel L hL).1, (hrel L hL).2.2⟩
  have hcom' : ∀ L ∈ r.comments, stripStable L ∧ L.take 9 = authorTag :=
    fun L hL => ⟨(hcom L hL).1, (hcom L hL).2.2⟩
  have hflat := taskBodyLines_flat r
    ⟨hname, hnn, hdstab, hdl, hsub, hrel, hcom⟩
  by_cases hn0 : r.name = []
  · have hd0 : r.description = [] := hval hn0
    obtain ⟨sf, htail⟩ := fold_task_tail r
      { name := [], sec := Sect.sNone, dls := [], subs := [], rels := [], coms := [] }
      hsub' hrel' hcom'
    refine ⟨sf, ?_⟩
    show (splitLines (joinNl (taskBodyLines r))).foldl taskStep
      { name := [], sec := Sect.sNone, dls := [], subs := [], rels := [],
        coms := [] } = _
    rw [hflat]
    rw [List.foldl_append]
    have hpre : List.foldl taskStep
        { name := [], sec := Sect.sNone, dls := [], subs := [], rels := [],
          coms := [] } [['#', ' '] ++ r.name, []] =
        { name := [], sec := Sect.sNone, dls := [], subs := [], rels := [],
          coms := [] } := by
      rw [List.foldl_cons,
        show (['#', ' '] ++ r.name) = ['#', ' '] from by rw [hn0, List.append_nil]]
      rw [taskStep_title_empty _ rfl]
      rw [List.foldl_cons, taskStep_blank _, if_neg (by decide), List.foldl_nil]
    have hpre2 : List.foldl taskStep
        { name := [], sec := Sect.sNone, dls := [], subs := [], rels := [],
          coms := [] }
        ([['#', ' '] ++ r.name, []] ++
          (if r.description = [] then []
           else splitLines r.description ++ [[]])) =
        { name := [], sec := Sect.sNone, dls := [], subs := [], rels := [],
          coms := [] } := by
      rw [List.foldl_append, hpre]
      rw [show (if r.description = [] then ([] : List (List Char))
        else splitLines r.description ++ [[]]) = [] from if_pos hd0,
        List.foldl_nil]
    rw [hpre2]
    rw [htail]
    rw [if_pos hn0, hn0]
    rfl
  · by_cases hd0 : r.description = []
    · obtain ⟨sf, htail⟩ := fold_task_tail r
        { name := r.name, sec := Sect.sDescr, dls := [[]], subs := [], rels := [],
          coms := [] } hsub' hrel' hcom'
      refine ⟨sf, ?_⟩
      show (splitLines (joinNl (taskBodyLines r))).foldl taskStep
        { name := [], sec := Sect.sNone, dls := [], subs := [], rels := [],
          coms := [] } = _
      rw [hflat]
      rw [List.foldl_append]
      have hpre : List.foldl taskStep
          { name := [], sec := Sect.sNone, dls := [], subs := [], rels := [],
            coms := [] } [['#', ' '] ++ r.name, []] =
          { name := r.name, sec := Sect.sDescr, dls := [[]], subs := [],
            rels := [], coms := [] } := by
        rw [List.foldl_cons, taskStep_title _ r.name hname hn0]
        rw [List.foldl_cons, taskStep_blank _, if_pos rfl, List.foldl_nil]
        rfl
      have hpre2 : List.foldl taskStep
          { name := [], sec := Sect.sNone, dls := [], subs := [], rels := [],
            coms := [] }
          ([['#', ' '] ++ r.name, []] ++
            (if r.description = [] then []
             else splitLines r.description ++ [[]])) =
          { name := r.name, sec := Sect.sDescr, dls := [[]], subs := [],
            rels := [], coms := [] } := by
        rw [List.foldl_append, hpre]
        rw [show (if r.description = [] then ([] : List (List Char))
          else splitLines r.description ++ [[]]) = [] from if_pos hd0,
          List.foldl_nil]
      rw [hpre2]
      rw [htail]
      rw [if_neg hn0, if_pos hd0]
      rfl
    · obtain ⟨sf, htail⟩ := fold_task_tail r
        { name := r.name, sec := Sect.sDescr,
          dls := [] :: (splitLines r.description ++ [[]]), subs := [], rels := [],
          coms := [] } hsub' hrel' hcom'
      refine ⟨sf, ?_⟩
      show (splitLines (joinNl (taskBodyLines r))).foldl taskStep
        { name := [], sec := Sect.sNone, dls := [], subs := [], rels := [],
          coms := [] } = _
      rw [hflat]
      rw [List.foldl_append]
      have hpre : List.foldl taskStep
          { name := [], sec := Sect.sNone, dls := [], subs := [], rels := [],
            coms := [] } [['#', ' '] ++ r.name, []] =
          { name := r.name, sec := Sect.sDescr, dls := [[]], subs := [],
            rels := [], coms := [] } := by
        rw [List.foldl_cons, taskStep_title _ r.name hname hn0]
        rw [List.foldl_cons, taskStep_blank _, if_pos rfl, List.foldl_nil]
        rfl
      have hDfold : List.foldl taskStep
          { name := r.name, sec := Sect.sDescr, dls := [[]], subs := [],
            rels := [], coms := [] } (splitLines r.description ++ [[]]) =
          { name := r.name, sec := Sect.sDescr,
            dls := [] :: (splitLines r.description ++ [[]]), subs := [],
            rels := [], coms := [] } := by
        rw [List.foldl_append]
        rw [foldl_descr (splitLines r.description) _ rfl hdl]
        rw [List.foldl_cons, taskStep_blank _, if_pos rfl, List.foldl_nil]
        rfl
      have hpre2 : List.foldl taskStep
          { name := [], sec := Sect.sNone, dls := [], subs := [], rels := [],
            coms := [] }
          ([['#', ' '] ++ r.name, []] ++
            (if r.description = [] then []
             else splitLines r.description ++ [[]])) =
          { name := r.name, sec := Sect.sDescr,
            dls := [] :: (splitLines r.description ++ [[]]), subs := [],
            rels := [], coms := [] } := by
        rw [List.foldl_append, hpre]
        rw [show (if r.description = [] then ([] : List (List Char))
          else splitLines r.description ++ [[]]) =
          splitLines r.description ++ [[]] from if_neg hd0]
        exact hDfold
      rw [hpre2]
      rw [htail]
      rw [if_neg hn0, if_neg hd0]
      rfl

theorem decode_encode_task {Y : Type} (yload : List Char → Option Y)
    (ydump : Y → List Char) (r : TaskRec Y) (hInv : TRecInv r)
    (hval : r.name = [] → r.description = [])
    (hy : ∀ y, r.meta = some y → yload (nl :: ydump y) = some y ∧
      fenceSafe (ydump y)) :
    decodeTask yload (encodeTask ydump r) = r := by
  obtain ⟨sf, hbody⟩ := bodyDecodeT_encode r hInv hval
  have hpf : parse_frontmatter yload (encodeTask ydump r) =
      (r.meta, joinNl (taskBodyLines r)) := by
    have h1 : encodeTask ydump r = encodeLines ydump r.meta
        (('#' :: ' ' :: r.name) :: ([] ::
          ((((if r.description = [] then [] else [r.description, []]) ++
             (if r.subtasks = [] then []
              else (['#', '#', ' '] ++ subTasksTitle) :: [] ::
                (r.subtasks.map subLine ++ [[]]))) ++
            (if r.relations = [] then []
             else (['#', '#', ' '] ++ relationsTitle) :: [] ::
               (r.relations ++ [[]]))) ++
           (if r.comments = [] then []
            else (['#', '#', ' '] ++ commentsTitle) :: [] ::
              (r.comments ++ [[]]))))) := rfl
    rw [h1, parse_frontmatter_encode yload ydump r.meta (' ' :: r.name) _ hy]
    rfl
  have h2 : decodeTask yload (encodeTask ydump r) =
      { meta := (parse_frontmatter yload (encodeTask ydump r)).1,
        name := (bodyDecodeT (splitLines
          (parse_frontmatter yload (encodeTask ydump r)).2)).name,
        description := strip (joinNl (bodyDecodeT (splitLines
          (parse_frontmatter yload (encodeTask ydump r)).2)).dls),
        subtasks := (bodyDecodeT (splitLines
          (parse_frontmatter yload (encodeTask ydump r)).2)).subs,
        relations := (bodyDecodeT (splitLines
          (parse_frontmatter yload (encodeTask ydump r)).2)).rels,
        comments := (bodyDecodeT (splitLines
          (parse_frontmatter yload (encodeTask ydump r)).2)).coms } := rfl
  rw [h2, hpf]
  show ({ meta := r.meta,
          name := (bodyDecodeT (splitLines (joinNl (taskBodyLines r)))).name,
          description := strip (joinNl
            (bodyDecodeT (splitLines (joinNl (taskBodyLines r)))).dls),
          subtasks := (bodyDecodeT (splitLines (joinNl (taskBodyLines r)))).subs,
          relations := (bodyDecodeT (splitLines (joinNl (taskBodyLines r)))).rels,
          comments := (bodyDecodeT (splitLines (joinNl (taskBodyLines r)))).coms }
      : TaskRec Y) = r
  rw [hbody]
  have hdesc : strip (joinNl (if r.name = [] then []
      else [] :: (if r.description = [] then []
                  else splitLines r.description ++ [[]]))) = r.description := by
    by_cases hn0 : r.name = []
    · rw [if_pos hn0]
      exact (hval hn0).symm
    · rw [if_neg hn0]
      by_cases hd0 : r.description = []
      · rw [if_pos hd0, hd0]
        rfl
      · rw [if_neg hd0]
        rw [joinNl_cons [] _ (by simp)]
        rw [joinNl_append_last (splitLines r.description) []
          (splitLines_ne_nil _)]
        rw [joinNl_splitLines]
        rw [List.nil_append]
        rw [strip_cons_ws nl _ (by decide)]
        rw [strip_append_allws r.description [nl]
          (by intro c hc; rw [List.mem_singleton] at hc; subst hc; decide)]
        exact strip_eq_self r.description hInv.2.2.1
  show ({ meta := r.meta, name := r.name,
          description := strip (joinNl (if r.name = [] then []
            else [] :: (if r.description = [] then []
                        else splitLines r.description ++ [[]]))),
          subtasks := r.subtasks, relations := r.relations,
          comments := r.comments } : TaskRec Y) = r
  rw [hdesc]

/-! ## Codec lemmas: the task decode invariant -/

theorem rstripWS_dropWhile (r : List Char) (hr : rstripWS r = r) :
    rstripWS (List.dropWhile (fun c => isWS c) r) =
      List.dropWhile (fun c => isWS c) r := by
  have hdec : r = r.takeWhile (fun c => isWS c) ++
      r.dropWhile (fun c => isWS c) :=
    (List.takeWhile_append_dropWhile (fun c => isWS c) r).symm
  apply rstripWS_suffix (r.takeWhile (fun c => isWS c))
  rw [← hdec]
  exact hr

theorem parseSubLine_fst (s : List Char) :
    (parseSubLine s).1 = s ∨
    ∃ c r, s = '-' :: ' ' :: '[' :: c :: ']' :: r ∧
      (parseSubLine s).1 = r.dropWhile (fun ch => isWS ch) := by
  have hp : (parseSubLine s).1 = (match s with
      | '-' :: ' ' :: '[' :: c :: ']' :: r =>
        if c = 'x' ∨ c = 'X' ∨ c = ' ' then r.dropWhile (fun ch => isWS ch) else s
      | _ => s) := rfl
  rw [hp]
  split
  · next c r =>
    split
    · right
      exact ⟨c, r, rfl, rfl⟩
    · left
      rfl
  · left
    rfl

theorem parseSubLine_inv (s : List Char) (hst : stripStable s) (hnl : nl ∉ s) :
    stripStable (parseSubLine s).1 ∧ nl ∉ (parseSubLine s).1 := by
  rcases parseSubLine_fst s with h | ⟨c, r, hs, hp⟩
  · rw [h]
    exact ⟨hst, hnl⟩
  · rw [hp]
    subst hs
    have hr : rstripWS r = r := rstripWS_suffix ['-', ' ', '[', c, ']'] r hst.2
    refine ⟨⟨lstripWS_idem r, rstripWS_dropWhile r hr⟩, ?_⟩
    intro hm
    exact hnl (List.mem_cons_of_mem _ (List.mem_cons_of_mem _
      (List.mem_cons_of_mem _ (List.mem_cons_of_mem _
        (List.mem_cons_of_mem _ (mem_lstripWS _ _ hm))))))

theorem taskStep_inv (st : TState) (line : List Char) (hnl : nl ∉ line)
    (hI : TStateInv st) : TStateInv (taskStep st line) := by
  obtain ⟨h1, h2, h3, h4, h5, h6⟩ := hI
  unfold taskStep
  by_cases hH1 : isH1 (strip line) = true
  · rw [if_pos hH1]
    refine ⟨stripStable_strip _, ?_, h3, h4, h5, h6⟩
    intro hm
    exact hnl (mem_strip _ _ (List.mem_of_mem_drop (mem_strip _ _ hm)))
  · rw [if_neg hH1]
    by_cases hH2 : isH2 (strip line) = true
    · rw [if_pos hH2]
      exact ⟨h1, h2, h3, h4, h5, h6⟩
    · rw [if_neg hH2]
      have e1 : isH1 (strip line) = false := by
        cases hx : isH1 (strip line)
        · rfl
        · exact absurd hx hH1
      have e2 : isH2 (strip line) = false := by
        cases hx : isH2 (strip line)
        · rfl
        · exact absurd hx hH2
      cases hsec : st.sec with
      | sNone =>
        exact ⟨h1, h2, h3, h4, h5, h6⟩
      | sDescr =>
        show TStateInv
          { name := st.name, sec := Sect.sDescr, dls := st.dls ++ [line],
            subs := st.subs, rels := st.rels, coms := st.coms }
        refine ⟨h1, h2, ?_, h4, h5, h6⟩
        intro L hL
        rcases List.mem_append.mp hL with hL1 | hL1
        · exact h3 L hL1
        · rw [List.mem_singleton] at hL1
          subst hL1
          refine ⟨hnl, ?_⟩
          show (isH1 (strip L) || isH2 (strip L)) = false
          rw [e1, e2]
          rfl
      | sSub =>
        show TStateInv (if (strip line).take 3 = dashBracket then
          { name := st.name, sec := Sect.sSub, dls := st.dls,
            subs := st.subs ++ [parseSubLine (strip line)], rels := st.rels,
            coms := st.coms } else st)
        by_cases ht : (strip line).take 3 = dashBracket
        · rw [if_pos ht]
          refine ⟨h1, h2, h3, ?_, h5, h6⟩
          intro e he
          rcases List.mem_append.mp he with he1 | he1
          · exact h4 e he1
          · rw [List.mem_singleton] at he1
            subst he1
            exact parseSubLine_inv (strip line) (stripStable_strip line)
              (fun hm => hnl (mem_strip _ _ hm))
        · rw [if_neg ht]
          exact ⟨h1, h2, h3, h4, h5, h6⟩
      | sRel =>
        show TStateInv (if (strip line).take 3 = dashBracket then
          { name := st.name, sec := Sect.sRel,
            dls := st.dls, subs := st.subs, rels := st.rels ++ [strip line],
            coms := st.coms } else st)
        by_cases ht : (strip line).take 3 = dashBracket
        · rw [if_pos ht]
          refine ⟨h1, h2, h3, h4, ?_, h6⟩
          intro L hL
          rcases List.mem_append.mp hL with hL1 | hL1
          · exact h5 L hL1
          · rw [List.mem_singleton] at hL1
            subst hL1
            exact ⟨stripStable_strip _, fun hm => hnl (mem_strip _ _ hm), ht⟩
        · rw [if_neg ht]
          exact ⟨h1, h2, h3, h4, h5, h6⟩
      | sCom =>
        show TStateInv (if (strip line).take 9 = authorTag then
          { name := st.name, sec := Sect.sCom,
            dls := st.dls, subs := st.subs, rels := st.rels,
            coms := st.coms ++ [strip line] } else st)
        by_cases ht : (strip line).take 9 = authorTag
        · rw [if_pos ht]
          refine ⟨h1, h2, h3, h4, h5, ?_⟩
          intro L hL
          rcases List.mem_append.mp hL with hL1 | hL1
          · exact h6 L hL1
          · rw [List.mem_singleton] at hL1
            subst hL1
            exact ⟨stripStable_strip _, fun hm => hnl (mem_strip _ _ hm), ht⟩
        · rw [if_neg ht]
          exact ⟨h1, h2, h3, h4, h5, h6⟩

theorem foldl_taskStep_inv :
    ∀ (lines : List (List Char)) (st : TState), TStateInv st →
      (∀ L ∈ lines, nl ∉ L) → TStateInv (lines.foldl taskStep st) := by
  intro lines
  induction lines with
  | nil => intro st h _; exact h
  | cons L ls ih =>
    intro st h hnl
    rw [List.foldl_cons]
    exact ih _ (taskStep_inv st L (hnl L (List.mem_cons_self _ _)) h)
      (fun x hx => hnl x (List.mem_cons_of_mem _ hx))

theorem decodeTask_inv {Y : Type} (yload : List Char → Option Y)
    (x : List Char) : TRecInv (decodeTask yload x) := by
  have hstI : TStateInv (bodyDecodeT
      (splitLines (parse_frontmatter yload x).2)) := by
    unfold bodyDecodeT
    exact foldl_taskStep_inv _ _
      ⟨⟨rfl, rfl⟩, by simp, by simp, by simp, by simp, by simp⟩
      (noNl_mem_splitLines _)
  obtain ⟨h1, h2, h3, h4, h5, h6⟩ := hstI
  have hdlshape : ∀ L ∈ splitLines (strip (joinNl
      (bodyDecodeT (splitLines (parse_frontmatter yload x).2)).dls)),
      isHeading L = false := by
    apply headingFree_strip
    cases hdls : (bodyDecodeT (splitLines (parse_frontmatter yload x).2)).dls with
    | nil =>
      intro L hL
      have : L = [] := by simpa [splitLines, joinNl] using hL
      subst this
      rfl
    | cons d ds =>
      rw [splitLines_joinNl_noNl (d :: ds) (by simp)
        (fun L hL => ((hdls ▸ h3) L hL).1)]
      intro L hL
      exact ((hdls ▸ h3) L hL).2
  exact ⟨h1, h2, stripStable_strip _, hdlshape, h4, h5, h6⟩

/-! ## Codec lemmas: board columns dictionary -/

theorem colSetL_fresh :
    ∀ (cols : List (List Char × List (List Char))) (k : List Char)
      (v : List (List Char)), k ∉ cols.map Prod.fst →
      colSetL cols k v = cols ++ [(k, v)] := by
  intro cols
  induction cols with
  | nil => intro k v _; rfl
  | cons e rest ih =>
    intro k v hk
    rw [List.map_cons, List.mem_cons] at hk
    push_neg at hk
    show (if e.1 = k then (k, v) :: rest else e :: colSetL rest k v) = _
    rw [if_neg (fun hx => hk.1 hx.symm)]
    rw [ih k v hk.2]
    rfl

theorem colSetL_keys :
    ∀ (cols : List (List Char × List (List Char))) (k : List Char)
      (v : List (List Char)),
      (colSetL cols k v).map Prod.fst =
        if k ∈ cols.map Prod.fst then cols.map Prod.fst
        else cols.map Prod.fst ++ [k] := by
  intro cols
  induction cols with
  | nil => intro k v; rfl
  | cons e rest ih =>
    intro k v
    show ((if e.1 = k then (k, v) :: rest else e :: colSetL rest k v).map
      Prod.fst) = _
    by_cases he : e.1 = k
    · rw [if_pos he]
      have hmem : k ∈ (e :: rest).map Prod.fst := by
        rw [List.map_cons, List.mem_cons]
        exact Or.inl he.symm
      rw [if_pos hmem, List.map_cons, List.map_cons, he]
    · rw [if_neg he]
      rw [List.map_cons, ih k v]
      by_cases hm : k ∈ rest.map Prod.fst
      · have hmem : k ∈ (e :: rest).map Prod.fst := by
          rw [List.map_cons, List.mem_cons]
          exact Or.inr hm
        rw [if_pos hm, if_pos hmem, List.map_cons]
      · have hmem : k ∉ (e :: rest).map Prod.fst := by
          rw [List.map_cons, List.mem_cons]
          intro hx
          rcases hx with hx | hx
          · exact he hx.symm
          · exact hm hx
        rw [if_neg hm, if_neg hmem, List.map_cons]
        rfl

theorem colSetL_mem :
    ∀ (cols : List (List Char × List (List Char))) (k : List Char)
      (v : List (List Char)) (e : List Char × List (List Char)),
      e ∈ colSetL cols k v → e ∈ cols ∨ e = (k, v) := by
  intro cols
  induction cols with
  | nil =>
    intro k v e he
    rw [show colSetL [] k v = [(k, v)] from rfl, List.mem_singleton] at he
    exact Or.inr he
  | cons e0 rest ih =>
    intro k v e he
    show e ∈ e0 :: rest ∨ _
    rw [show colSetL (e0 :: rest) k v =
      (if e0.1 = k then (k, v) :: rest else e0 :: colSetL rest k v) from rfl]
      at he
    by_cases h0 : e0.1 = k
    · rw [if_pos h0, List.mem_cons] at he
      rcases he with he | he
      · exact Or.inr he
      · exact Or.inl (List.mem_cons_of_mem _ he)
    · rw [if_neg h0, List.mem_cons] at he
      rcases he with he | he
      · exact Or.inl (he ▸ List.mem_cons_self _ _)
      · rcases ih k v e he with h | h
        · exact Or.inl (List.mem_cons_of_mem _ h)
        · exact Or.inr h

theorem colAppendL_keys :
    ∀ (cols : List (List Char × List (List Char))) (k tid : List Char),
      (colAppendL cols k tid).map Prod.fst = cols.map Prod.fst := by
  intro cols
  induction cols with
  | nil => intro k tid; rfl
  | cons e rest ih =>
    intro k tid
    show ((if e.1 = k then (e.1, e.2 ++ [tid]) :: rest
      else e :: colAppendL rest k tid).map Prod.fst) = _
    by_cases he : e.1 = k
    · rw [if_pos he]
      rfl
    · rw [if_neg he, List.map_cons, ih k tid]
      rfl

theorem colAppendL_last :
    ∀ (cols : List (List Char × List (List Char))) (k tid : List Char)
      (acc : List (List Char)), k ∉ cols.map Prod.fst →
      colAppendL (cols ++ [(k, acc)]) k tid = cols ++ [(k, acc ++ [tid])] := by
  intro cols
  induction cols with
  | nil =>
    intro k tid acc _
    show (if k = k then (k, acc ++ [tid]) :: [] else _) = _
    rw [if_pos rfl]
    rfl
  | cons e rest ih =>
    intro k tid acc hk
    rw [List.map_cons, List.mem_cons] at hk
    push_neg at hk
    show (if e.1 = k then (e.1, e.2 ++ [tid]) :: (rest ++ [(k, acc)])
      else e :: colAppendL (rest ++ [(k, acc)]) k tid) = _
    rw [if_neg (fun hx => hk.1 hx.symm)]
    rw [ih k tid acc hk.2]
    rfl

theorem colAppendL_mem :
    ∀ (cols : List (List Char × List (List Char))) (k tid : List Char)
      (e : List Char × List (List Char)), e ∈ colAppendL cols k tid →
      e ∈ cols ∨ ∃ e2, e2 ∈ cols ∧ e = (e2.1, e2.2 ++ [tid]) := by
  intro cols
  induction cols with
  | nil =>
    intro k tid e he
    rw [show colAppendL [] k tid = [] from rfl] at he
    simp at he
  | cons e0 rest ih =>
    intro k tid e he
    rw [show colAppendL (e0 :: rest) k tid =
      (if e0.1 = k then (e0.1, e0.2 ++ [tid]) :: rest
       else e0 :: colAppendL rest k tid) from rfl] at he
    by_cases h0 : e0.1 = k
    · rw [if_pos h0, List.mem_cons] at he
      rcases he with he | he
      · exact Or.inr ⟨e0, List.mem_cons_self _ _, he⟩
      · exact Or.inl (List.mem_cons_of_mem _ he)
    · rw [if_neg h0, List.mem_cons] at he
      rcases he with he | he
      · exact Or.inl (he ▸ List.mem_cons_self _ _)
      · rcases ih k tid e he with h | ⟨e2, h2, h3⟩
        · exact Or.inl (List.mem_cons_of_mem _ h)
        · exact Or.inr ⟨e2, List.mem_cons_of_mem _ h2, h3⟩

/-! ## Codec lemmas: the task-link pattern -/

theorem takeWhile_append_cons (p : Char → Bool) :
    ∀ (xs : List Char) (y : Char) (ys : List Char),
      (∀ c ∈ xs, p c = true) → p y = false →
      (xs ++ y :: ys).takeWhile p = xs := by
  intro xs
  induction xs with
  | nil =>
    intro y ys _ hy
    simp [List.takeWhile_cons, hy]
  | cons a t ih =>
    intro y ys hx hy
    rw [List.cons_append, List.takeWhile_cons,
      if_pos (hx a (List.mem_cons_self _ _)), ih y ys
      (fun c hc => hx c (List.mem_cons_of_mem _ hc)) hy]

theorem linkLine_shape (tid : List Char) :
    linkLine tid = '-' :: ' ' :: '[' ::
      (tid ++ (']' :: '(' :: 't' :: 'a' :: 's' :: 'k' :: 's' :: '/' ::
        (tid ++ ['.', 'm', 'd', ')']))) := by
  unfold linkLine
  simp [List.append_assoc]

theorem noNl_linkLine (tid : List Char) (h : nl ∉ tid) : nl ∉ linkLine tid := by
  intro hm
  rw [linkLine_shape] at hm
  rcases List.mem_cons.mp hm with hx | hm
  · exact absurd hx (by decide)
  rcases List.mem_cons.mp hm with hx | hm
  · exact absurd hx (by decide)
  rcases List.mem_cons.mp hm with hx | hm
  · exact absurd hx (by decide)
  rcases List.mem_append.mp hm with hx | hm
  · exact h hx
  rcases List.mem_cons.mp hm with hx | hm
  · exact absurd hx (by decide)
  rcases List.mem_cons.mp hm with hx | hm
  · exact absurd hx (by decide)
  rcases List.mem_cons.mp hm with hx | hm
  · exact absurd hx (by decide)
  rcases List.mem_cons.mp hm with hx | hm
  · exact absurd hx (by decide)
  rcases List.mem_cons.mp hm with hx | hm
  · exact absurd hx (by decide)
  rcases List.mem_cons.mp hm with hx | hm
  · exact absurd hx (by decide)
  rcases List.mem_cons.mp hm with hx | hm
  · exact absurd hx (by decide)
  rcases List.mem_cons.mp hm with hx | hm
  · exact absurd hx (by decide)
  rcases List.mem_append.mp hm with hx | hm
  · exact h hx
  exact absurd hm (by decide)

theorem strip_linkLine (tid : List Char) : strip (linkLine tid) = linkLine tid := by
  have hsh : linkLine tid = ('-' :: (' ' :: '[' :: tid ++
      (']' :: '(' :: 't' :: 'a' :: 's' :: 'k' :: 's' :: '/' ::
        (tid ++ ['.', 'm', 'd']))))  ++ [')'] := by
    unfold linkLine
    simp [List.append_assoc]
  rw [hsh]
  exact strip_stable_append '-' _ [')'] (by decide) (by decide) (by simp)

theorem parseTaskLink_linkLine (tid : List Char) (h0 : tid ≠ [])
    (h1 : ']' ∉ tid) (h2 : ')' ∉ tid) :
    parseTaskLink (linkLine tid) = some tid := by
  rw [linkLine_shape]
  have htake : (tid ++ (']' :: '(' :: 't' :: 'a' :: 's' :: 'k' :: 's' :: '/' ::
      (tid ++ ['.', 'm', 'd', ')']))).takeWhile (fun c => ¬ c = ']') = tid := by
    apply takeWhile_append_cons
    · intro c hc
      simp only [decide_eq_true_eq]
      intro hx
      exact h1 (hx ▸ hc)
    · simp
  have hdrop : (tid ++ (']' :: '(' :: 't' :: 'a' :: 's' :: 'k' :: 's' :: '/' ::
      (tid ++ ['.', 'm', 'd', ')']))).drop tid.length =
      ']' :: '(' :: 't' :: 'a' :: 's' :: 'k' :: 's' :: '/' ::
        (tid ++ ['.', 'm', 'd', ')']) := List.drop_left _ _
  have hre : tid ++ ['.', 'm', 'd', ')'] = (tid ++ ['.', 'm', 'd']) ++ [')'] := by
    simp
  have htake2 : (tid ++ ['.', 'm', 'd', ')']).takeWhile (fun c => ¬ c = ')') =
      tid ++ ['.', 'm', 'd'] := by
    rw [hre]
    apply takeWhile_append_cons
    · intro c hc
      simp only [decide_eq_true_eq]
      intro hx
      rcases List.mem_append.mp hc with hc1 | hc1
      · exact h2 (hx ▸ hc1)
      · rw [hx] at hc1
        exact absurd hc1 (by decide)
    · simp
  have hlen2 : (tid ++ ['.', 'm', 'd']).length = tid.length + 3 := by
    simp
  have hdrop2 : (tid ++ ['.', 'm', 'd', ')']).drop (tid ++ ['.', 'm', 'd']).length =
      [')'] := by
    rw [hre]
    exact List.drop_left _ _
  show (let label := (tid ++ (']' :: '(' :: 't' :: 'a' :: 's' :: 'k' :: 's' :: '/' ::
      (tid ++ ['.', 'm', 'd', ')']))).takeWhile (fun c => ¬ c = ']')
    if label = [] then none
    else
      match (tid ++ (']' :: '(' :: 't' :: 'a' :: 's' :: 'k' :: 's' :: '/' ::
          (tid ++ ['.', 'm', 'd', ')']))).drop label.length with
      | ']' :: '(' :: 't' :: 'a' :: 's' :: 'k' :: 's' :: '/' :: rest2 =>
        let rr := rest2.takeWhile (fun c => ¬ c = ')')
        match rest2.drop rr.length with
        | ')' :: _ =>
          if 3 < rr.length ∧ rr.drop (rr.length - 3) = ['.', 'm', 'd'] then
            some (rr.take (rr.length - 3))
          else none
        | _ => none
      | _ => none) = some tid
  simp only [htake]
  rw [if_neg h0]
  simp only [hdrop]
  simp only [htake2]
  simp only [hdrop2]
  have hcond : 3 < (tid ++ ['.', 'm', 'd']).length ∧
      (tid ++ ['.', 'm', 'd']).drop ((tid ++ ['.', 'm', 'd']).length - 3) =
        ['.', 'm', 'd'] := by
    constructor
    · rw [hlen2]
      have := List.length_pos.mpr h0
      omega
    · rw [hlen2, Nat.add_sub_cancel]
      exact List.drop_left _ _
  rw [if_pos hcond]
  rw [hlen2, Nat.add_sub_cancel, List.take_left]

/-! ## Codec lemmas: board line steps -/

theorem isH1_iff (l : List Char) : isH1 l = true ↔ ∃ t, l = '#' :: ' ' :: t := by
  unfold isH1
  split
  · next t => exact iff_of_true rfl ⟨t, rfl⟩
  · next h =>
    constructor
    · intro hx
      exact absurd hx (by decide)
    · intro hx
      obtain ⟨t, ht⟩ := hx
      exact absurd ht (h t)

theorem isH2_iff (l : List Char) : isH2 l = true ↔ ∃ t, l = '#' :: '#' :: ' ' :: t := by
  unfold isH2
  split
  · next t => exact iff_of_true rfl ⟨t, rfl⟩
  · next h =>
    constructor
    · intro hx
      exact absurd hx (by decide)
    · intro hx
      obtain ⟨t, ht⟩ := hx
      exact absurd ht (h t)

theorem boardStep_title (st : BState) (name : List Char) (h : stripStable name)
    (hne : name ≠ []) :
    boardStep st (['#', ' '] ++ name) = { st with name := name } := by
  unfold boardStep
  rw [strip_title name h.2 hne]
  rw [if_pos (show isH1 (['#', ' '] ++ name) = true from rfl)]
  rw [show (['#', ' '] ++ name).drop 2 = name from rfl, strip_eq_self name h]

theorem boardStep_title_empty (st : BState) (hcur : st.cur = none) :
    boardStep st ['#', ' '] = st := by
  unfold boardStep
  have h0 : strip ['#', ' '] = ['#'] := by decide
  rw [h0]
  rw [if_neg (show ¬ isH1 ['#'] = true by decide)]
  rw [if_neg (show ¬ isH2 ['#'] = true by decide)]
  rw [hcur]
  rfl

theorem boardStep_blank (st : BState) : boardStep st [] = st := by
  unfold boardStep
  have h0 : strip ([] : List Char) = [] := rfl
  rw [h0]
  rw [if_neg (show ¬ isH1 [] = true by decide)]
  rw [if_neg (show ¬ isH2 [] = true by decide)]
  cases hcur : st.cur with
  | some cn => rfl
  | none => rfl

theorem boardStep_colHeader (st : BState) (cn : List Char) (h : stripStable cn)
    (hne : cn ≠ []) :
    boardStep st (['#', '#', ' '] ++ cn) =
      { st with cols := colSetL st.cols cn [], cur := some cn } := by
  unfold boardStep
  have hs : strip (['#', '#', ' '] ++ cn) = ['#', '#', ' '] ++ cn :=
    strip_stable_append '#' ['#', ' '] cn (by decide) h.2 hne
  rw [hs]
  have hH1 : isH1 (['#', '#', ' '] ++ cn) = false := rfl
  rw [hH1, if_neg (by decide)]
  have hH2 : isH2 (['#', '#', ' '] ++ cn) = true := rfl
  rw [hH2, if_pos rfl]
  rw [show (['#', '#', ' '] ++ cn).drop 3 = cn from rfl, strip_eq_self cn h]

theorem boardStep_descr_line (st : BState) (hcur : st.cur = none) (L : List Char)
    (hst : stripStable L) (hne : L ≠ []) (hh : L.take 1 ≠ ['#']) :
    boardStep st L = { st with descr := if st.descr = [] then L
                                        else st.descr ++ nl :: L } := by
  have hs : strip L = L := strip_eq_self L hst
  have hH1 : isH1 L = false := by
    cases hx : isH1 L
    · rfl
    · obtain ⟨t, ht⟩ := (isH1_iff L).mp hx
      rw [ht] at hh
      exact absurd rfl hh
  have hH2 : isH2 L = false := by
    cases hx : isH2 L
    · rfl
    · obtain ⟨t, ht⟩ := (isH2_iff L).mp hx
      rw [ht] at hh
      exact absurd rfl hh
  unfold boardStep
  rw [hs, hH1, if_neg (by decide), hH2, if_neg (by decide), hcur]
  rw [if_neg hne, if_neg hh]

theorem boardStep_link (st : BState) (cn : List Char) (hcur : st.cur = some cn)
    (tid : List Char) (h0 : tid ≠ []) (h1 : ']' ∉ tid) (h2 : ')' ∉ tid) :
    boardStep st (linkLine tid) = { st with cols := colAppendL st.cols cn tid } := by
  have hs := strip_linkLine tid
  have hH1 : isH1 (linkLine tid) = false := by
    rw [linkLine_shape]
    rfl
  have hH2 : isH2 (linkLine tid) = false := by
    rw [linkLine_shape]
    rfl
  have ht3 : (linkLine tid).take 3 = dashBracket := by
    rw [linkLine_shape]
    rfl
  unfold boardStep
  rw [hs, hH1, if_neg (by decide), hH2, if_neg (by decide), hcur]
  show (if (linkLine tid).take 3 = dashBracket then
      match parseTaskLink (linkLine tid) with
      | some tid2 =>
        { name := st.name, descr := st.descr, cols := colAppendL st.cols cn tid2,
          cur := some cn }
      | none => st
    else st) =
    { name := st.name, descr := st.descr, cols := colAppendL st.cols cn tid,
      cur := some cn }
  rw [if_pos ht3, parseTaskLink_linkLine tid h0 h1 h2]

theorem foldl_bdescr (Ls : List (List Char)) :
    ∀ (st : BState), st.cur = none →
      (∀ L ∈ Ls, stripStable L ∧ L ≠ [] ∧ L.take 1 ≠ ['#']) → Ls ≠ [] →
      Ls.foldl boardStep st =
        { st with descr := if st.descr = [] then joinNl Ls
                           else st.descr ++ nl :: joinNl Ls } := by
  induction Ls with
  | nil =>
    intro st _ _ h
    exact absurd rfl h
  | cons L Ls' ih =>
    intro st hcur hall _
    obtain ⟨ha, hb, hc⟩ := hall L (List.mem_cons_self _ _)
    rw [List.foldl_cons, boardStep_descr_line st hcur L ha hb hc]
    by_cases hd : st.descr = []
    · rw [if_pos hd, if_pos hd]
      by_cases hLs : Ls' = []
      · subst hLs
        rw [List.foldl_nil]
        rfl
      · rw [ih { st with descr := L } hcur
          (fun x hx => hall x (List.mem_cons_of_mem _ hx)) hLs]
        rw [if_neg (show ¬ ({ st with descr := L } : BState).descr = [] from hb)]
        rw [joinNl_cons L Ls' hLs]
    · rw [if_neg hd, if_neg hd]
      have hne : st.descr ++ nl :: L ≠ [] := by simp
      by_cases hLs : Ls' = []
      · subst hLs
        rw [List.foldl_nil]
        rfl
      · rw [ih { st with descr := st.descr ++ nl :: L } hcur
          (fun x hx => hall x (List.mem_cons_of_mem _ hx)) hLs]
        rw [if_neg (show ¬ ({ st with descr := st.descr ++ nl :: L } :
          BState).descr = [] from hne)]
        rw [joinNl_cons L Ls' hLs]
        simp [List.append_assoc]

theorem fold_links (tids : List (List Char)) :
    ∀ (n d cn : List Char) (cols : List (List Char × List (List Char)))
      (acc : List (List Char)), cn ∉ cols.map Prod.fst →
      (∀ tid ∈ tids, tid ≠ [] ∧ ']' ∉ tid ∧ ')' ∉ tid) →
      (tids.map linkLine).foldl boardStep
        { name := n, descr := d, cols := cols ++ [(cn, acc)], cur := some cn } =
      { name := n, descr := d, cols := cols ++ [(cn, acc ++ tids)],
        cur := some cn } := by
  induction tids with
  | nil =>
    intro n d cn cols acc _ _
    simp
  | cons tid tids' ih =>
    intro n d cn cols acc hk hall
    obtain ⟨h0, h1, h2⟩ := hall tid (List.mem_cons_self _ _)
    rw [List.map_cons, List.foldl_cons]
    rw [boardStep_link _ cn rfl tid h0 h1 h2]
    show (tids'.map linkLine).foldl boardStep
      { name := n, descr := d, cols := colAppendL (cols ++ [(cn, acc)]) cn tid,
        cur := some cn } = _
    rw [colAppendL_last cols cn tid acc hk]
    rw [ih n d cn cols (acc ++ [tid]) hk
      (fun x hx => hall x (List.mem_cons_of_mem _ hx))]
    simp

theorem fold_col_chunk (cn : List Char) (tids : List (List Char))
    (n d : List Char) (cols0 : List (List Char × List (List Char)))
    (cur : Option (List Char)) (hcn : stripStable cn) (hne : cn ≠ [])
    (hk : cn ∉ cols0.map Prod.fst)
    (htids : ∀ tid ∈ tids, tid ≠ [] ∧ ']' ∉ tid ∧ ')' ∉ tid) :
    ((['#', '#', ' '] ++ cn) :: [] :: (tids.map linkLine ++ [[]])).foldl boardStep
      { name := n, descr := d, cols := cols0, cur := cur } =
    { name := n, descr := d, cols := cols0 ++ [(cn, tids)], cur := some cn } := by
  rw [List.foldl_cons, boardStep_colHeader _ cn hcn hne]
  show ([] :: (tids.map linkLine ++ [[]])).foldl boardStep
    { name := n, descr := d, cols := colSetL cols0 cn [], cur := some cn } = _
  rw [colSetL_fresh cols0 cn [] hk]
  rw [List.foldl_cons, boardStep_blank]
  rw [List.foldl_append]
  rw [fold_links tids n d cn cols0 [] hk htids]
  rw [List.foldl_cons, boardStep_blank, List.foldl_nil]
  rfl

theorem fold_columns (columns : List (List Char × List (List Char))) :
    ∀ (n d : List Char) (cols0 : List (List Char × List (List Char)))
      (cur : Option (List Char)), ((columns.map Prod.fst).Nodup) →
      (∀ e ∈ columns, e.1 ∉ cols0.map Prod.fst ∧ stripStable e.1 ∧ e.1 ≠ [] ∧
        ∀ tid ∈ e.2, tid ≠ [] ∧ ']' ∉ tid ∧ ')' ∉ tid) →
      ∃ cf, (columns.flatMap (fun e => (['#', '#', ' '] ++ e.1) :: [] ::
          (e.2.map linkLine ++ [[]]))).foldl boardStep
        { name := n, descr := d, cols := cols0, cur := cur } =
      { name := n, descr := d, cols := cols0 ++ columns, cur := cf } := by
  induction columns with
  | nil =>
    intro n d cols0 cur _ _
    exact ⟨cur, by simp⟩
  | cons e rest ih =>
    intro n d cols0 cur hnd hall
    obtain ⟨hk, hst, hne, htids⟩ := hall e (List.mem_cons_self _ _)
    have hnd2 : (e.1 :: rest.map Prod.fst).Nodup := by simpa using hnd
    have hhead : e.1 ∉ rest.map Prod.fst := (List.nodup_cons.mp hnd2).1
    have hnd' : (rest.map Prod.fst).Nodup := (List.nodup_cons.mp hnd2).2
    have hall' : ∀ e2 ∈ rest, e2.1 ∉ (cols0 ++ [(e.1, e.2)]).map Prod.fst ∧
        stripStable e2.1 ∧ e2.1 ≠ [] ∧
        ∀ tid ∈ e2.2, tid ≠ [] ∧ ']' ∉ tid ∧ ')' ∉ tid := by
      intro e2 he2
      obtain ⟨hk2, hrest2⟩ := hall e2 (List.mem_cons_of_mem _ he2)
      refine ⟨?_, hrest2⟩
      rw [List.map_append, List.mem_append]
      intro hx
      rcases hx with hx | hx
      · exact hk2 hx
      · rw [show ([(e.1, e.2)].map Prod.fst) = [e.1] from rfl,
          List.mem_singleton] at hx
        exact hhead (hx ▸ List.mem_map_of_mem Prod.fst he2)
    obtain ⟨cf, hrest⟩ := ih n d (cols0 ++ [(e.1, e.2)]) (some e.1) hnd' hall'
    refine ⟨cf, ?_⟩
    rw [List.flatMap_cons, List.foldl_append]
    rw [fold_col_chunk e.1 e.2 n d cols0 cur hst hne hk htids]
    rw [hrest]
    simp

/-! ## Codec lemmas: board round trip -/

theorem boardBodyLines_flat {Y : Type} (r : BoardRec Y) (hInv : BRecInv r) :
    splitLines (joinNl (boardBodyLines r)) =
      [['#', ' '] ++ r.name, []] ++
      (if r.description = [] then [] else splitLines r.description ++ [[]]) ++
      r.columns.flatMap (fun e => (['#', '#', ' '] ++ e.1) :: [] ::
        (e.2.map linkLine ++ [[]])) := by
  obtain ⟨hname, hnn, hdshape, hnd, hcols⟩ := hInv
  have hne : boardBodyLines r ≠ [] := by
    unfold boardBodyLines
    intro h
    have := congrArg List.length h
    simp at this
  have htitle_nl : nl ∉ ['#', ' '] ++ r.name := by
    intro hm
    rcases List.mem_append.mp hm with h1 | h1
    · exact absurd h1 (by decide)
    · exact hnn h1
  have hfT : ([['#', ' '] ++ r.name, []] : List (List Char)).flatMap splitLines =
      [['#', ' '] ++ r.name, []] := by
    show splitLines (['#', ' '] ++ r.name) ++ (splitLines [] ++ []) =
      [['#', ' '] ++ r.name, []]
    rw [splitLines_noNl _ htitle_nl]
    rfl
  have hfD : (if r.description = [] then ([] : List (List Char))
      else [r.description, []]).flatMap splitLines =
      (if r.description = [] then [] else splitLines r.description ++ [[]]) := by
    by_cases hd0 : r.description = []
    · simp [hd0]
    · simp only [if_neg hd0]
      simp [splitLines]
  have hfC : (r.columns.flatMap (fun e => (['#', '#', ' '] ++ e.1) :: [] ::
      (e.2.map linkLine ++ [[]]))).flatMap splitLines =
      r.columns.flatMap (fun e => (['#', '#', ' '] ++ e.1) :: [] ::
        (e.2.map linkLine ++ [[]])) := by
    apply flatMap_splitLines_id
    intro L hL
    obtain ⟨e, he, hLe⟩ := List.mem_flatMap.mp hL
    obtain ⟨hst, hknn, hknl, htid⟩ := hcols e he
    rcases List.mem_cons.mp hLe with h1 | h1
    · subst h1
      intro hm
      rcases List.mem_append.mp hm with h2 | h2
      · exact absurd h2 (by decide)
      · exact hknl h2
    rcases List.mem_cons.mp h1 with h2 | h2
    · subst h2
      simp
    rcases List.mem_append.mp h2 with h3 | h3
    · obtain ⟨tid, htm, hLt⟩ := List.mem_map.mp h3
      subst hLt
      exact noNl_linkLine tid (htid tid htm).2.1
    · simp at h3
      subst h3
      simp
  rw [splitLines_joinNl_flat _ hne]
  unfold boardBodyLines
  rw [List.flatMap_append, List.flatMap_append]
  rw [hfT, hfD, hfC]

theorem bodyDecodeB_encode {Y : Type} (r : BoardRec Y) (hInv : BRecInv r)
    (hval : ∀ e ∈ r.columns, ∀ tid ∈ e.2, ']' ∉ tid) :
    ∃ cf, bodyDecodeB (splitLines (joinNl (boardBodyLines r))) =
      { name := r.name, descr := r.description, cols := r.columns,
        cur := cf } := by
  obtain ⟨hname, hnn, hdshape, hnd, hcols⟩ := hInv
  have hflat := boardBodyLines_flat r ⟨hname, hnn, hdshape, hnd, hcols⟩
  have hcolc : ∀ e ∈ r.columns, e.1 ∉ (([] : List (List Char × List (List Char))).map
      Prod.fst) ∧ stripStable e.1 ∧ e.1 ≠ [] ∧
      ∀ tid ∈ e.2, tid ≠ [] ∧ ']' ∉ tid ∧ ')' ∉ tid := by
    intro e he
    obtain ⟨hst, hke, hknl, htid⟩ := hcols e he
    refine ⟨by simp, hst, hke, ?_⟩
    intro tid htm
    exact ⟨(htid tid htm).1, hval e he tid htm, (htid tid htm).2.2⟩
  have hpre : List.foldl boardStep
      { name := [], descr := [], cols := [], cur := none }
      [['#', ' '] ++ r.name, []] =
      { name := r.name, descr := [], cols := [], cur := none } := by
    by_cases hn0 : r.name = []
    · rw [List.foldl_cons,
        show (['#', ' '] ++ r.name) = ['#', ' '] from by rw [hn0, List.append_nil]]
      rw [boardStep_title_empty _ rfl]
      rw [List.foldl_cons, boardStep_blank, List.foldl_nil, hn0]
    · rw [List.foldl_cons, boardStep_title _ r.name hname hn0]
      rw [List.foldl_cons, boardStep_blank, List.foldl_nil]
  have hpre2 : List.foldl boardStep
      { name := [], descr := [], cols := [], cur := none }
      ([['#', ' '] ++ r.name, []] ++
        (if r.description = [] then []
         else splitLines r.description ++ [[]])) =
      { name := r.name, descr := r.description, cols := [], cur := none } := by
    rw [List.foldl_append, hpre]
    rcases hdshape with hd0 | ⟨Ls, hLne, hLeq, hLprops⟩
    · rw [show (if r.description = [] then ([] : List (List Char))
        else splitLines r.description ++ [[]]) = [] from if_pos hd0,
        List.foldl_nil, hd0]
    · have hd0 : r.description ≠ [] := by
        rw [hLeq]
        cases Ls with
        | nil => exact absurd rfl hLne
        | cons a b =>
          cases b with
          | nil =>
            show joinNl [a] ≠ []
            exact (hLprops a (List.mem_cons_self _ _)).2.1
          | cons a2 b2 =>
            rw [joinNl_cons a (a2 :: b2) (by simp)]
            simp
      rw [show (if r.description = [] then ([] : List (List Char))
        else splitLines r.description ++ [[]]) =
        splitLines r.description ++ [[]] from if_neg hd0]
      have hsplit : splitLines r.description = Ls := by
        rw [hLeq]
        exact splitLines_joinNl_noNl Ls hLne
          (fun L hL => (hLprops L hL).2.2.2)
      rw [hsplit]
      rw [List.foldl_append]
      rw [foldl_bdescr Ls _ rfl
        (fun L hL => ⟨(hLprops L hL).1, (hLprops L hL).2.1, (hLprops L hL).2.2.1⟩)
        hLne]
      rw [if_pos rfl]
      rw [List.foldl_cons, boardStep_blank, List.foldl_nil, ← hLeq]
  obtain ⟨cf, hcolsf⟩ := fold_columns r.columns r.name r.description [] none
    hnd hcolc
  refine ⟨cf, ?_⟩
  show (splitLines (joinNl (boardBodyLines r))).foldl boardStep
    { name := [], descr := [], cols := [], cur := none } = _
  rw [hflat]
  rw [List.foldl_append]
  rw [hpre2]
  rw [hcolsf]
  rfl

theorem decode_encode_board {Y : Type} (yload : List Char → Option Y)
    (ydump : Y → List Char) (r : BoardRec Y) (hInv : BRecInv r)
    (hval : ∀ e ∈ r.columns, ∀ tid ∈ e.2, ']' ∉ tid)
    (hy : ∀ y, r.meta = some y → yload (nl :: ydump y) = some y ∧
      fenceSafe (ydump y)) :
    decodeBoard yload (encodeBoard ydump r) = r := by
  obtain ⟨cf, hbody⟩ := bodyDecodeB_encode r hInv hval
  have hpf : parse_frontmatter yload (encodeBoard ydump r) =
      (r.meta, joinNl (boardBodyLines r)) := by
    have h1 : encodeBoard ydump r = encodeLines ydump r.meta
        (('#' :: ' ' :: r.name) :: ([] ::
          ((if r.description = [] then [] else [r.description, []]) ++
           r.columns.flatMap (fun e => (['#', '#', ' '] ++ e.1) :: [] ::
             (e.2.map linkLine ++ [[]]))))) := rfl
    rw [h1, parse_frontmatter_encode yload ydump r.meta (' ' :: r.name) _ hy]
    rfl
  have h2 : decodeBoard yload (encodeBoard ydump r) =
      { meta := (parse_frontmatter yload (encodeBoard ydump r)).1,
        name := (bodyDecodeB (splitLines
          (parse_frontmatter yload (encodeBoard ydump r)).2)).name,
        description := (bodyDecodeB (splitLines
          (parse_frontmatter yload (encodeBoard ydump r)).2)).descr,
        columns := (bodyDecodeB (splitLines
          (parse_frontmatter yload (encodeBoard ydump r)).2)).cols } := rfl
  rw [h2, hpf]
  show ({ meta := r.meta,
          name := (bodyDecodeB (splitLines (joinNl (boardBodyLines r)))).name,
          description :=
            (bodyDecodeB (splitLines (joinNl (boardBodyLines r)))).descr,
          columns := (bodyDecodeB (splitLines (joinNl (boardBodyLines r)))).cols }
      : BoardRec Y) = r
  rw [hbody]

/-! ## Codec lemmas: the board decode invariant -/

theorem joinNl_ne_nil (Ls : List (List Char)) (h0 : Ls ≠ [])
    (h : ∀ L ∈ Ls, L ≠ []) : joinNl Ls ≠ [] := by
  cases Ls with
  | nil => exact absurd rfl h0
  | cons a b =>
    cases b with
    | nil =>
      show joinNl [a] ≠ []
      exact h a (List.mem_cons_self _ _)
    | cons a2 b2 =>
      rw [joinNl_cons a (a2 :: b2) (by simp)]
      simp

theorem parseTaskLink_sound (s tid : List Char) (h : parseTaskLink s = some tid) :
    tid ≠ [] ∧ ')' ∉ tid ∧ ∀ c ∈ tid, c ∈ s := by
  unfold parseTaskLink at h
  split at h
  · next rest =>
    replace h : (if rest.takeWhile (fun c => ¬ c = ']') = [] then none
        else match rest.drop (rest.takeWhile (fun c => ¬ c = ']')).length with
        | ']' :: '(' :: 't' :: 'a' :: 's' :: 'k' :: 's' :: '/' :: rest2 =>
          (match rest2.drop (rest2.takeWhile (fun c => ¬ c = ')')).length with
           | ')' :: _ =>
             if 3 < (rest2.takeWhile (fun c => ¬ c = ')')).length ∧
                 (rest2.takeWhile (fun c => ¬ c = ')')).drop
                   ((rest2.takeWhile (fun c => ¬ c = ')')).length - 3) =
                   ['.', 'm', 'd'] then
               some ((rest2.takeWhile (fun c => ¬ c = ')')).take
                 ((rest2.takeWhile (fun c => ¬ c = ')')).length - 3))
             else none
           | _ => none)
        | _ => none) = some tid := h
    split at h
    · exact absurd h (by simp)
    · split at h
      · next rest2 heq =>
        split at h
        · next tail heq2 =>
          split at h
          · next hc =>
            obtain ⟨hc1, hc2⟩ := hc
            injection h with h
            subst h
            have hmem2 : ∀ c ∈ (rest2.takeWhile (fun c => ¬ c = ')')).take
                ((rest2.takeWhile (fun c => ¬ c = ')')).length - 3),
                c ∈ '-' :: ' ' :: '[' :: rest := by
              intro c hc0
              have hcr : c ∈ rest2.takeWhile (fun c => ¬ c = ')') :=
                List.take_subset _ _ hc0
              have hcr2 : c ∈ rest2 :=
                (List.takeWhile_sublist _).subset hcr
              have hcr3 : c ∈ rest.drop
                  (rest.takeWhile (fun c => ¬ c = ']')).length := by
                rw [heq]
                exact List.mem_cons_of_mem _ (List.mem_cons_of_mem _
                  (List.mem_cons_of_mem _ (List.mem_cons_of_mem _
                    (List.mem_cons_of_mem _ (List.mem_cons_of_mem _
                      (List.mem_cons_of_mem _ (List.mem_cons_of_mem _ hcr2)))))))
              exact List.mem_cons_of_mem _ (List.mem_cons_of_mem _
                (List.mem_cons_of_mem _ (List.drop_subset _ _ hcr3)))
            refine ⟨?_, ?_, hmem2⟩
            · intro hx
              have hlen := congrArg List.length hx
              rw [List.length_take] at hlen
              simp only [List.length_nil] at hlen
              omega
            · intro hm
              have := List.mem_takeWhile_imp (List.take_subset _ _ hm)
              simp at this
          · exact absurd h (by simp)
        · exact absurd h (by simp)
      · exact absurd h (by simp)
  · exact absurd h (by simp)

theorem boardStep_inv (st : BState) (line : List Char) (hnl : nl ∉ line)
    (hI : BStateInv st) : BStateInv (boardStep st line) := by
  obtain ⟨h1, h2, h3, h4, h5⟩ := hI
  unfold boardStep
  by_cases hH1 : isH1 (strip line) = true
  · rw [if_pos hH1]
    refine ⟨stripStable_strip _, ?_, h3, h4, h5⟩
    intro hm
    exact hnl (mem_strip _ _ (List.mem_of_mem_drop (mem_strip _ _ hm)))
  · rw [if_neg hH1]
    by_cases hH2 : isH2 (strip line) = true
    · rw [if_pos hH2]
      obtain ⟨t, ht⟩ := (isH2_iff _).mp hH2
      have hsst := (stripStable_strip line).2
      rw [ht] at hsst
      have htne : t ≠ [] := by
        intro hx
        rw [hx] at hsst
        exact absurd hsst (by decide)
      have htr : rstripWS t = t := rstripWS_suffix ['#', '#', ' '] t hsst
      have hcne : strip ((strip line).drop 3) ≠ [] := by
        rw [ht]
        show strip t ≠ []
        exact strip_ne_nil t htr htne
      have hcnl : nl ∉ strip ((strip line).drop 3) := by
        intro hm
        exact hnl (mem_strip _ _ (List.mem_of_mem_drop (mem_strip _ _ hm)))
      refine ⟨h1, h2, h3, ?_, ?_⟩
      · rw [colSetL_keys]
        by_cases hm : strip ((strip line).drop 3) ∈ st.cols.map Prod.fst
        · rw [if_pos hm]
          exact h4
        · rw [if_neg hm]
          simp [List.nodup_append, h4, hm]
      · intro e he
        rcases colSetL_mem st.cols _ [] e he with he1 | he1
        · exact h5 e he1
        · subst he1
          refine ⟨stripStable_strip _, hcne, hcnl, ?_⟩
          intro tid htm
          simp at htm
    · rw [if_neg hH2]
      cases hcur : st.cur with
      | some cn =>
        show BStateInv (if (strip line).take 3 = dashBracket then
          (match parseTaskLink (strip line) with
           | some tid =>
             { name := st.name, descr := st.descr,
               cols := colAppendL st.cols cn tid, cur := some cn }
           | none => st)
          else st)
        by_cases ht : (strip line).take 3 = dashBracket
        · rw [if_pos ht]
          cases hp : parseTaskLink (strip line) with
          | none => exact ⟨h1, h2, h3, h4, h5⟩
          | some tid =>
            obtain ⟨ht0, ht2, htmem⟩ := parseTaskLink_sound (strip line) tid hp
            refine ⟨h1, h2, h3, ?_, ?_⟩
            · rw [colAppendL_keys]
              exact h4
            · intro e he
              rcases colAppendL_mem st.cols cn tid e he with he1 | ⟨e2, he2, he3⟩
              · exact h5 e he1
              · subst he3
                obtain ⟨hs1, hs2, hs3, hs4⟩ := h5 e2 he2
                refine ⟨hs1, hs2, hs3, ?_⟩
                intro tid2 htm2
                rcases List.mem_append.mp htm2 with hm1 | hm1
                · exact hs4 tid2 hm1
                · rw [List.mem_singleton] at hm1
                  subst hm1
                  refine ⟨ht0, ?_, ht2⟩
                  intro hm
                  exact hnl (mem_strip _ _ (htmem nl hm))
        · rw [if_neg ht]
          exact ⟨h1, h2, h3, h4, h5⟩
      | none =>
        show BStateInv (if strip line = [] then st
          else if (strip line).take 1 = ['#'] then st
          else { name := st.name,
                 descr := if st.descr = [] then strip line
                          else st.descr ++ nl :: strip line,
                 cols := st.cols, cur := none })
        by_cases hb1 : strip line = []
        · rw [if_pos hb1]
          exact ⟨h1, h2, h3, h4, h5⟩
        · rw [if_neg hb1]
          by_cases hb2 : (strip line).take 1 = ['#']
          · rw [if_pos hb2]
            exact ⟨h1, h2, h3, h4, h5⟩
          · rw [if_neg hb2]
            refine ⟨h1, h2, ?_, h4, h5⟩
            have hlprops : stripStable (strip line) ∧ strip line ≠ [] ∧
                (strip line).take 1 ≠ ['#'] ∧ nl ∉ strip line :=
              ⟨stripStable_strip _, hb1, hb2,
               fun hm => hnl (mem_strip _ _ hm)⟩
            rcases h3 with hd0 | ⟨Ls, hLne, hLeq, hLprops⟩
            · right
              refine ⟨[strip line], by simp, ?_, ?_⟩
              · show (if st.descr = [] then strip line
                  else st.descr ++ nl :: strip line) = joinNl [strip line]
                rw [if_pos hd0]
                rfl
              · intro L hL
                rw [List.mem_singleton] at hL
                subst hL
                exact hlprops
            · right
              have hdne : st.descr ≠ [] := by
                rw [hLeq]
                exact joinNl_ne_nil Ls hLne (fun L hL => (hLprops L hL).2.1)
              refine ⟨Ls ++ [strip line], by simp, ?_, ?_⟩
              · show (if st.descr = [] then strip line
                  else st.descr ++ nl :: strip line) =
                  joinNl (Ls ++ [strip line])
                rw [if_neg hdne, joinNl_append_last Ls (strip line) hLne, hLeq]
              · intro L hL
                rcases List.mem_append.mp hL with hL1 | hL1
                · exact hLprops L hL1
                · rw [List.mem_singleton] at hL1
                  subst hL1
                  exact hlprops

theorem foldl_boardStep_inv :
    ∀ (lines : List (List Char)) (st : BState), BStateInv st →
      (∀ L ∈ lines, nl ∉ L) → BStateInv (lines.foldl boardStep st) := by
  intro lines
  induction lines with
  | nil =>
    intro st h _
    exact h
  | cons L ls ih =>
    intro st h hnl
    rw [List.foldl_cons]
    exact ih _ (boardStep_inv st L (hnl L (List.mem_cons_self _ _)) h)
      (fun x hx => hnl x (List.mem_cons_of_mem _ hx))

theorem decodeBoard_inv {Y : Type} (yload : List Char → Option Y)
    (x : List Char) : BRecInv (decodeBoard yload x) := by
  have hstI : BStateInv (bodyDecodeB
      (splitLines (parse_frontmatter yload x).2)) := by
    unfold bodyDecodeB
    exact foldl_boardStep_inv _ _
      ⟨⟨rfl, rfl⟩, by simp, Or.inl rfl, by simp, by simp⟩
      (noNl_mem_splitLines _)
  obtain ⟨h1, h2, h3, h4, h5⟩ := hstI
  exact ⟨h1, h2, h3, h4, h5⟩

/-- C1: for every valid header+body input, decoding, re-encoding the decoded
record and decoding again reproduces the first decode exactly, both for the
task file shape and for the board index file shape.  Validity comprises: the
YAML layer reloads its own dump and the dump keeps the closing fence findable
(true of `yaml.safe_load` on `yaml.dump` output for these payloads); a task
input whose parsed title is empty has an empty parsed description (with no
`# ` title line the save loop has no section cursor and drops description
lines); and no board task identifier contains `]` (the link label pattern
`[^\]]+` stops at the first `]`). -/
theorem codec_second_pass_idem {Y : Type} (yload : List Char → Option Y)
    (ydump : Y → List Char) (x b : List Char)
    (hyT : ∀ y, (decodeTask yload x).meta = some y →
      yload (nl :: ydump y) = some y ∧ fenceSafe (ydump y))
    (hTval : (decodeTask yload x).name = [] →
      (decodeTask yload x).description = [])
    (hyB : ∀ y, (decodeBoard yload b).meta = some y →
      yload (nl :: ydump y) = some y ∧ fenceSafe (ydump y))
    (hBval : ∀ e ∈ (decodeBoard yload b).columns, ∀ tid ∈ e.2, ']' ∉ tid) :
    decodeTask yload (encodeTask ydump (decodeTask yload x)) =
      decodeTask yload x ∧
    decodeBoard yload (encodeBoard ydump (decodeBoard yload b)) =
      decodeBoard yload b :=
  ⟨decode_encode_task yload ydump (decodeTask yload x) (decodeTask_inv yload x)
      hTval hyT,
   decode_encode_board yload ydump (decodeBoard yload b)
      (decodeBoard_inv yload b) hBval hyB⟩

/-- Witness: the round-trip theorem applied to a concrete task file and a
concrete board file, with every hypothesis discharged by evaluation. -/
theorem codec_second_pass_idem_witness :
    ((decodeTask yloadW taskFileW).name = [] →
      (decodeTask yloadW taskFileW).description = []) ∧
    (∀ e ∈ (decodeBoard yloadW boardFileW).columns, ∀ tid ∈ e.2, ']' ∉ tid) ∧
    (decodeTask yloadW (encodeTask ydumpW (decodeTask yloadW taskFileW)) =
        decodeTask yloadW taskFileW ∧
     decodeBoard yloadW (encodeBoard ydumpW (decodeBoard yloadW boardFileW)) =
        decodeBoard yloadW boardFileW) :=
  ⟨by decide, by decide,
   codec_second_pass_idem yloadW ydumpW taskFileW boardFileW
     (fun y h => nomatch h) (by decide) (fun y h => nomatch h) (by decide)⟩

end Kanbn
